import Mathlib

/-!
# go-llmsherpa: the layout tree builder of `src/chipper/block.go`

A shallow embedding of the block model, of `LayoutReader.Read`, and of the traversal
queries (`IterChildren`, `Paragraphs`, `Chunks`, `Tables`, `Sections`) and text rendering.

Go pointers are addresses into a heap (a list of nodes, the address is the index).  The root
allocated by `Read` is address `0`; the node built from the `i`-th record (counting from zero)
is address `i + 1`.  Dynamic type assertions that panic in Go make the embedded function
return `none`.  A JSON number is the rational number that its `float64` denotes.
-/

namespace Chipper

/-- A decoded JSON value, the Go `interface{}` delivered by `encoding/json`. -/
inductive JSON where
  | null
  | bool (b : Bool)
  | num (v : ℚ)
  | str (s : String)
  | arr (xs : List JSON)
  | obj (kvs : List (String × JSON))

/-- Go map indexing `m[k]`: the bound value, or nil when the key is absent. -/
def JSON.index (m : List (String × JSON)) (k : String) : JSON :=
  match m.lookup k with
  | some v => v
  | none => JSON.null

/-- The comma-ok assertion `v.(string)`. -/
def JSON.asString : JSON → Option String
  | JSON.str s => some s
  | _ => none

/-- The comma-ok assertion `v.(float64)`. -/
def JSON.asFloat : JSON → Option ℚ
  | JSON.num v => some v
  | _ => none

/-- The comma-ok assertion `v.([]interface{})`. -/
def JSON.asArray : JSON → Option (List JSON)
  | JSON.arr xs => some xs
  | _ => none

/-- The comma-ok assertion `v.(map[string]interface{})`. -/
def JSON.asMap : JSON → Option (List (String × JSON))
  | JSON.obj kvs => some kvs
  | _ => none

/-- The Go struct `Block`.  `Children` holds addresses of the child nodes; `Parent` holds the
address of the node whose embedded `Block` is the parent (nil is `none`). -/
structure Block where
  Tag : String := ""
  Level : Int := 0
  PageIdx : Int := 0
  BlockIdx : Int := 0
  Top : ℚ := 0
  Left : ℚ := 0
  Bbox : List ℚ := []
  Sentences : List String := []
  Children : List Nat := []
  Parent : Option Nat := none
  BlockJSON : List (String × JSON) := []

/-- The smallest value of the Go type `int` (64 bits). -/
def minInt : Int := -9223372036854775808

/-- The largest value of the Go type `int` (64 bits). -/
def maxInt : Int := 9223372036854775807

/-- A number with its fraction discarded (truncation towards zero). -/
def truncate (v : ℚ) : Int :=
  if 0 ≤ v.num then v.num / (v.den : Int) else -((-v.num) / (v.den : Int))

/-- The Go conversion `int(v)` of a `float64`: the fraction is discarded; when the result
does not fit in an `int` the Go specification leaves the value to the implementation, and the
value taken here is the one the amd64 compiler gives, the smallest `int`. -/
def toInt (v : ℚ) : Int :=
  if minInt ≤ truncate v ∧ truncate v ≤ maxInt then truncate v else minInt

/-- The result of an `int` operation whose mathematical value is `n`: Go integers wrap around
modulo 2^64. -/
def wrapInt (n : Int) : Int :=
  (n + 9223372036854775808) % 18446744073709551616 - 9223372036854775808

/-- The field reads of `NewBlock` for an `int` field, and of `Read` for `currentLevel`:
`int(v)` when the field is present as a number, `-1` otherwise. -/
def numberOr (blockJSON : List (String × JSON)) (k : String) : Int :=
  match (JSON.index blockJSON k).asFloat with
  | some v => toInt v
  | none => -1

/-- The field reads of `NewBlock` for a `float64` field: the number when the field is present
as a number, `-1` otherwise. -/
def floatOr (blockJSON : List (String × JSON)) (k : String) : ℚ :=
  match (JSON.index blockJSON k).asFloat with
  | some v => v
  | none => -1

/-- The Go function `NewBlock`. -/
def NewBlock (blockJSON : List (String × JSON)) : Block :=
  { Tag := match (JSON.index blockJSON "tag").asString with
      | some tag => tag
      | none => ""
    Level := numberOr blockJSON "level"
    PageIdx := numberOr blockJSON "page_idx"
    BlockIdx := numberOr blockJSON "block_idx"
    Top := floatOr blockJSON "top"
    Left := floatOr blockJSON "left"
    Bbox := match (JSON.index blockJSON "bbox").asArray with
      | some bbox => bbox.filterMap JSON.asFloat
      | none => []
    Sentences := match (JSON.index blockJSON "sentences").asArray with
      | some sentences => sentences.filterMap JSON.asString
      | none => []
    Children := []
    Parent := none
    BlockJSON := blockJSON }

/-- The Go struct `Paragraph`, which embeds a `Block`. -/
structure Paragraph extends Block

/-- The Go function `NewParagraph`. -/
def NewParagraph (paraJSON : List (String × JSON)) : Paragraph :=
  { toBlock := NewBlock paraJSON }

/-- The Go struct `Section`. -/
structure Section extends Block where
  Title : String

/-- The Go function `NewSection`. -/
def NewSection (sectionJSON : List (String × JSON)) : Section :=
  { toBlock := NewBlock sectionJSON
    Title := "\n".intercalate (NewBlock sectionJSON).Sentences }

/-- The Go struct `ListItem`. -/
structure ListItem extends Block

/-- The Go function `NewListItem`. -/
def NewListItem (listJSON : List (String × JSON)) : ListItem :=
  { toBlock := NewBlock listJSON }

/-- The Go struct `TableCell`; `CellNode` is nil (`none`) unless the value is not a string. -/
structure TableCell extends Block where
  ColSpan : Int
  CellValue : JSON
  CellNode : Option Paragraph

/-- The Go function `NewTableCell`; `none` is the panic of the unchecked assertion
`cell.CellValue.(map[string]interface{})`. -/
def NewTableCell (cellJSON : List (String × JSON)) : Option TableCell :=
  let colSpan : Int := match (JSON.index cellJSON "col_span").asFloat with
    | some c => toInt c
    | none => 1
  let cellValue := JSON.index cellJSON "cell_value"
  match cellValue.asString with
  | some _ =>
    some { toBlock := NewBlock cellJSON, ColSpan := colSpan, CellValue := cellValue,
           CellNode := none }
  | none =>
    match cellValue.asMap with
    | some m =>
      some { toBlock := NewBlock cellJSON, ColSpan := colSpan, CellValue := cellValue,
             CellNode := some (NewParagraph m) }
    | none => none

/-- The loop `for _, cellJSON := range cells` shared by `NewTableRow` and `NewTableHeader`:
each element is asserted to be a map (panic otherwise) and passed to `NewTableCell`. -/
def newCells : List JSON → Option (List TableCell)
  | [] => some []
  | cellJSON :: rest =>
    match cellJSON.asMap with
    | none => none
    | some m =>
      match NewTableCell m with
      | none => none
      | some cell =>
        match newCells rest with
        | none => none
        | some cells => some (cell :: cells)

/-- The Go struct `TableRow`. -/
structure TableRow extends Block where
  Cells : List TableCell

/-- The Go function `NewTableRow`. -/
def NewTableRow (rowJSON : List (String × JSON)) : Option TableRow :=
  if (JSON.index rowJSON "type").asString = some "full_row" then
    match NewTableCell rowJSON with
    | some cell => some { toBlock := NewBlock rowJSON, Cells := [cell] }
    | none => none
  else
    match (JSON.index rowJSON "cells").asArray with
    | some cells =>
      match newCells cells with
      | some cs => some { toBlock := NewBlock rowJSON, Cells := cs }
      | none => none
    | none => some { toBlock := NewBlock rowJSON, Cells := [] }

/-- The Go struct `TableHeader`. -/
structure TableHeader extends Block where
  Cells : List TableCell

/-- The Go function `NewTableHeader`. -/
def NewTableHeader (rowJSON : List (String × JSON)) : Option TableHeader :=
  match (JSON.index rowJSON "cells").asArray with
  | some cells =>
    match newCells cells with
    | some cs => some { toBlock := NewBlock rowJSON, Cells := cs }
    | none => none
  | none => some { toBlock := NewBlock rowJSON, Cells := [] }

/-- The Go struct `Table`. -/
structure Table extends Block where
  Rows : List TableRow
  Headers : List TableHeader
  Name : String

/-- The loop over `table_rows` of `NewTable`, returning the rows and headers appended to the
given ones. -/
def newTableRows : List JSON → List TableRow → List TableHeader →
    Option (List TableRow × List TableHeader)
  | [], rows, headers => some (rows, headers)
  | rowJSON :: rest, rows, headers =>
    match rowJSON.asMap with
    | none => none
    | some rowData =>
      if (JSON.index rowData "type").asString = some "table_header" then
        match NewTableHeader rowData with
        | some header => newTableRows rest rows (headers ++ [header])
        | none => none
      else
        match NewTableRow rowData with
        | some row => newTableRows rest (rows ++ [row]) headers
        | none => none

/-- The Go function `NewTable` (its `parent` argument is unused); `none` is a panic of
`tableJSON["name"].(string)` or of a row or cell assertion. -/
def NewTable (tableJSON : List (String × JSON)) : Option Table :=
  match (JSON.index tableJSON "name").asString with
  | none => none
  | some name =>
    match (JSON.index tableJSON "table_rows").asArray with
    | some tableRows =>
      match newTableRows tableRows [] [] with
      | some (rows, headers) =>
        some { toBlock := NewBlock tableJSON, Rows := rows, Headers := headers, Name := name }
      | none => none
    | none => some { toBlock := NewBlock tableJSON, Rows := [], Headers := [], Name := name }

/-- A heap object implementing `BlockInterface`, tagged with its dynamic Go type. -/
inductive Node where
  | block (b : Block)
  | paragraph (p : Paragraph)
  | section (s : Section)
  | listItem (li : ListItem)
  | table (t : Table)
  | tableRow (r : TableRow)
  | tableHeader (th : TableHeader)

/-- The dynamic Go type of a `BlockInterface` value. -/
inductive Kind where
  | block | paragraph | section | listItem | table | tableRow | tableHeader
  deriving DecidableEq, Repr

/-- The dynamic type of a node. -/
def Node.kind : Node → Kind
  | Node.block _ => Kind.block
  | Node.paragraph _ => Kind.paragraph
  | Node.section _ => Kind.section
  | Node.listItem _ => Kind.listItem
  | Node.table _ => Kind.table
  | Node.tableRow _ => Kind.tableRow
  | Node.tableHeader _ => Kind.tableHeader

/-- The embedded `*Block` of a node. -/
def Node.blk : Node → Block
  | Node.block b => b
  | Node.paragraph p => p.toBlock
  | Node.section s => s.toBlock
  | Node.listItem li => li.toBlock
  | Node.table t => t.toBlock
  | Node.tableRow r => r.toBlock
  | Node.tableHeader th => th.toBlock

/-- Assignment through the embedded `*Block` of a node. -/
def Node.mapBlk (f : Block → Block) : Node → Node
  | Node.block b => Node.block (f b)
  | Node.paragraph p => Node.paragraph { p with toBlock := f p.toBlock }
  | Node.section s => Node.section { s with toBlock := f s.toBlock }
  | Node.listItem li => Node.listItem { li with toBlock := f li.toBlock }
  | Node.table t => Node.table { t with toBlock := f t.toBlock }
  | Node.tableRow r => Node.tableRow { r with toBlock := f r.toBlock }
  | Node.tableHeader th => Node.tableHeader { th with toBlock := f th.toBlock }

/-- The heap: the node at address `a` is the `a`-th element. -/
abbrev Heap := List Node

/-- Update of the object at an address. -/
def Heap.update (f : Node → Node) : Heap → Nat → Heap
  | [], _ => []
  | n :: h, 0 => f n :: h
  | n :: h, a + 1 => n :: Heap.update f h a

/-- The field `Children` of the object at an address (no object, no children). -/
def Heap.children (h : Heap) (a : Nat) : List Nat :=
  match h.get? a with
  | some n => n.blk.Children
  | none => []

/-- The field `Parent` of the object at an address. -/
def Heap.parent (h : Heap) (a : Nat) : Option Nat :=
  match h.get? a with
  | some n => n.blk.Parent
  | none => none

/-- The dynamic type of the object at an address. -/
def Heap.kind (h : Heap) (a : Nat) : Option Kind :=
  match h.get? a with
  | some n => some n.kind
  | none => none

/-- The field `Level` of the object at an address. -/
def Heap.level (h : Heap) (a : Nat) : Option Int :=
  match h.get? a with
  | some n => some n.blk.Level
  | none => none

/-- The assignment `b.Children = append(b.Children, node)`. -/
def Block.appendChild (node : Nat) (b : Block) : Block :=
  { b with Children := b.Children ++ [node] }

/-- The assignment `childNode.Parent = b`. -/
def Block.setParent (b : Nat) (childNode : Block) : Block :=
  { childNode with Parent := some b }

/-- The Go method `(*Block).AddChild`, called on the embedded block of the object at `b` with
the node at address `node`: append to `b.Children`, then set the child's `Parent` when its
dynamic type is one of the five cases of the type switch. -/
def AddChild (h : Heap) (b : Nat) (node : Nat) : Heap :=
  let h1 := Heap.update (Node.mapBlk (Block.appendChild node)) h b
  match Heap.kind h1 node with
  | some Kind.block | some Kind.paragraph | some Kind.section | some Kind.listItem
  | some Kind.table =>
    Heap.update (Node.mapBlk (Block.setParent b)) h1 node
  | _ => h1

/-- The local variables of the loop of `LayoutReader.Read`.  The two stacks are Go slices
used as stacks; the head of the list is the top (the last element of the slice). -/
structure ReadState where
  heap : Heap
  parent : Nat
  parentStack : List Nat
  prevNode : Nat
  listStack : List Nat

/-- The node construction switch of `Read` on the record's tag. -/
def newNode (tag : String) (blockMap : List (String × JSON)) : Option Node :=
  if tag = "para" then some (Node.paragraph (NewParagraph blockMap))
  else if tag = "table" then
    match NewTable blockMap with
    | some t => some (Node.table t)
    | none => none
  else if tag = "list_item" then some (Node.listItem (NewListItem blockMap))
  else if tag = "header" then some (Node.section (NewSection blockMap))
  else some (Node.block (NewBlock blockMap))

/-- The assertion `x.(*ListItem).Level` on a stack entry; `none` is the panic of the
assertion. -/
def listItemLevel (h : Heap) (a : Nat) : Option Int :=
  match h.get? a with
  | some (Node.listItem li) => some li.Level
  | _ => none

/-- The inner loop of the list branch:
`for len(listStack) > 0 && listStack[len(listStack)-1].(*ListItem).Level >= currentLevel`
pops the top. -/
def popListStack (h : Heap) (currentLevel : Int) : List Nat → Option (List Nat)
  | [] => some []
  | top :: rest =>
    match listItemLevel h top with
    | none => none
    | some l => if l ≥ currentLevel then popListStack h currentLevel rest else some (top :: rest)

/-- The loop of the header branch: `for len(parentStack) > 0`, break when the top is not a
`*Block` (the branch that prints the error) or when its level is below `currentLevel`,
otherwise pop. -/
def popParentStack (h : Heap) (currentLevel : Int) : List Nat → List Nat
  | [] => []
  | top :: rest =>
    match h.get? top with
    | some (Node.block topBlock) =>
      if topBlock.Level < currentLevel then top :: rest
      else popParentStack h currentLevel rest
    | _ => top :: rest

/-- The list branch of the loop body of `Read` (`tag == "list_item"`), `node` being the
address of the new node. -/
def readListItem (s : ReadState) (heap : Heap) (node : Nat) (currentLevel : Int) :
    Option ReadState :=
  let adjusted : Option (List Nat) :=
    match s.listStack with
    | [] => some []
    | top :: rest =>
      match listItemLevel heap top with
      | none => none
      | some lastLevel =>
        if currentLevel > lastLevel then some (node :: top :: rest)
        else popListStack heap currentLevel (top :: rest)
  match adjusted with
  | none => none
  | some listStack =>
    let heap2 :=
      match listStack with
      | top :: _ => AddChild heap top node
      | [] => AddChild heap s.parent node
    some { heap := heap2, parent := s.parent, parentStack := s.parentStack,
           prevNode := node, listStack := node :: listStack }

/-- The header branch of the loop body of `Read` (`tag == "header"`). -/
def readHeader (s : ReadState) (heap : Heap) (node : Nat) (currentLevel : Int) : ReadState :=
  let parentStack := popParentStack heap currentLevel s.parentStack
  let parent :=
    match parentStack with
    | top :: _ => top
    | [] => 0
  { heap := AddChild heap parent node, parent := node, parentStack := node :: parentStack,
    prevNode := node, listStack := s.listStack }

/-- One iteration of the loop of `LayoutReader.Read` in `src/chipper/block.go` on the record
`blockData`; `none` is a panic. -/
def readStep (s : ReadState) (blockData : JSON) : Option ReadState :=
  match blockData.asMap with
  | none => none
  | some blockMap =>
    match (JSON.index blockMap "tag").asString with
    | none => none
    | some tag =>
      match newNode tag blockMap with
      | none => none
      | some n =>
        let node := s.heap.length
        let heap := s.heap ++ [n]
        let currentLevel : Int :=
          match (JSON.index blockMap "level").asFloat with
          | some level => toInt level
          | none => -1
        if tag = "list_item" then readListItem s heap node currentLevel
        else if tag = "header" then some (readHeader s heap node currentLevel)
        else
          some { heap := AddChild heap s.parent node, parent := s.parent,
                 parentStack := s.parentStack, prevNode := node, listStack := s.listStack }

/-- The loop `for _, blockData := range blocksJSON` of `Read`. -/
def readLoop : ReadState → List JSON → Option ReadState
  | s, [] => some s
  | s, blockData :: rest =>
    match readStep s blockData with
    | none => none
    | some s1 => readLoop s1 rest

/-- The state of `Read` before the loop: `rootNode := &Block{}` at address `0`. -/
def readInit : ReadState :=
  { heap := [Node.block {}], parent := 0, parentStack := [0], prevNode := 0, listStack := [] }

/-- The Go method `LayoutReader.Read` of `src/chipper/block.go`: the heap after the loop, whose
address `0` is the returned root. -/
def Read (blocksJSON : List JSON) : Option Heap :=
  match readLoop readInit blocksJSON with
  | some s => some s.heap
  | none => none

/-- The body `for _, child := range nodeBlock.Children` of one case of `IterChildren`. -/
def forChildren {σ : Type} (body : Nat → σ → Option σ) : List Nat → σ → Option σ
  | [], acc => some acc
  | child :: rest, acc =>
    match body child acc with
    | none => none
    | some acc1 => forChildren body rest acc1

/-- The type switch of `IterChildren` has a case for these five dynamic types. -/
def Kind.hasCase : Kind → Bool
  | Kind.block | Kind.paragraph | Kind.section | Kind.listItem | Kind.table => true
  | _ => false

/-- The Go method `IterChildren(node, level, nodeVisitor)`.  The `BlockInterface` value `node`
is given by its dynamic type `ty` and its address; the visitor's effect on the variable it
captures is a state transformer.  The recursion is bounded by a fuel, `none` meaning that the
fuel ran out (the unused `level` counter is dropped). -/
def IterChildren {σ : Type} (h : Heap) (nodeVisitor : Nat → σ → σ) :
    Nat → Kind → Nat → σ → Option σ
  | 0, _, _, _ => none
  | fuel + 1, ty, node, acc =>
    if ty.hasCase then
      forChildren
        (fun child acc1 =>
          match Heap.kind h child with
          | some cty => IterChildren h nodeVisitor fuel cty child (nodeVisitor child acc1)
          | none => some (nodeVisitor child acc1))
        (Heap.children h node) acc
    else some acc

/-- The closure `paraCollector` of `Paragraphs`. -/
def paraCollector (h : Heap) (node : Nat) (paragraphs : List Nat) : List Nat :=
  match Heap.kind h node with
  | some Kind.paragraph => paragraphs ++ [node]
  | _ => paragraphs

/-- The closure `chunkCollector` of `Chunks`. -/
def chunkCollector (h : Heap) (node : Nat) (chunks : List Nat) : List Nat :=
  match Heap.kind h node with
  | some Kind.paragraph | some Kind.listItem | some Kind.table => chunks ++ [node]
  | _ => chunks

/-- The closure `tableCollector` of `Tables`. -/
def tableCollector (h : Heap) (node : Nat) (tables : List Nat) : List Nat :=
  match Heap.kind h node with
  | some Kind.table => tables ++ [node]
  | _ => tables

/-- The closure `sectionCollector` of `Sections`. -/
def sectionCollector (h : Heap) (node : Nat) (sections : List Nat) : List Nat :=
  match Heap.kind h node with
  | some Kind.section => sections ++ [node]
  | _ => sections

/-- The Go method `(*Block).Paragraphs` on the embedded block of the object at `b`:
`b.IterChildren(b, 0, paraCollector)` where `b` has dynamic type `*Block`. -/
def Paragraphs (h : Heap) (fuel : Nat) (b : Nat) : Option (List Nat) :=
  IterChildren h (paraCollector h) fuel Kind.block b []

/-- The Go method `(*Block).Chunks`. -/
def Chunks (h : Heap) (fuel : Nat) (b : Nat) : Option (List Nat) :=
  IterChildren h (chunkCollector h) fuel Kind.block b []

/-- The Go method `(*Block).Tables`. -/
def Tables (h : Heap) (fuel : Nat) (b : Nat) : Option (List Nat) :=
  IterChildren h (tableCollector h) fuel Kind.block b []

/-- The Go method `(*Block).Sections`. -/
def Sections (h : Heap) (fuel : Nat) (b : Nat) : Option (List Nat) :=
  IterChildren h (sectionCollector h) fuel Kind.block b []

/-- The Go predicate `unicode.IsSpace`. -/
def isSpace (c : Char) : Bool :=
  let n := c.toNat
  (9 ≤ n && n ≤ 13) || n = 32 || n = 133 || n = 160 || n = 5760 || (8192 ≤ n && n ≤ 8202)
    || n = 8232 || n = 8233 || n = 8239 || n = 8287 || n = 12288

/-- The Go function `strings.TrimSpace`. -/
def TrimSpace (s : String) : String :=
  String.mk ((s.data.dropWhile isSpace).reverse.dropWhile isSpace).reverse

/-- The Go method `(*Paragraph).ToText` with `includeChildren = false`, used for the nested
paragraph of a table cell. -/
def Paragraph.ownText (p : Paragraph) : String :=
  "\n".intercalate p.Sentences

/-- The Go method `(*TableCell).ToText`. -/
def TableCell.ToText (tc : TableCell) : String :=
  match tc.CellValue with
  | JSON.str value => value
  | _ =>
    match tc.CellNode with
    | some cellNode => cellNode.ownText
    | none => ""

/-- The loop `cellText += " | " + cell.ToText()` over the cells of a row. -/
def cellsText (cells : List TableCell) : String :=
  cells.foldl (fun cellText cell => cellText ++ " | " ++ cell.ToText) ""

/-- The Go method `(*TableRow).ToText`. -/
def TableRow.ToText (tr : TableRow) : String :=
  cellsText tr.Cells

/-- The Go method `(*TableHeader).ToText`. -/
def TableHeader.ToText (th : TableHeader) : String :=
  th.Cells.foldl (fun cellText _ => cellText ++ " | ---") (cellsText th.Cells ++ "\n")

/-- The Go method `(*Table).ToText`. -/
def Table.ToText (t : Table) : String :=
  let text := t.Headers.foldl (fun text header => text ++ (header.ToText ++ "\n")) ""
  TrimSpace (t.Rows.foldl (fun text row => text ++ (row.ToText ++ "\n")) text)

/-- The loop `text += "\n" + child.ToText(recurse, recurse)` over the children, run only when
`includeChildren` holds. -/
def appendChildren (childText : Nat → Option String) (includeChildren : Bool) :
    List Nat → String → Option String
  | [], text => some text
  | child :: rest, text =>
    if includeChildren then
      match childText child with
      | none => none
      | some t => appendChildren childText includeChildren rest (text ++ ("\n" ++ t))
    else some text

/-- The interface call `node.ToText(includeChildren, recurse)`, dispatched on the dynamic type
of the object at address `node`.  The recursion is bounded by a fuel (`none` when it runs out
or when there is no object at the address). -/
def ToText (h : Heap) : Nat → Nat → Bool → Bool → Option String
  | 0, _, _, _ => none
  | fuel + 1, node, includeChildren, recurse =>
    match h.get? node with
    | none => none
    | some (Node.block _) => some ""
    | some (Node.paragraph p) =>
      appendChildren (fun c => ToText h fuel c recurse recurse) includeChildren p.Children
        ("\n".intercalate p.Sentences)
    | some (Node.section s) =>
      appendChildren (fun c => ToText h fuel c recurse recurse) includeChildren s.Children
        s.Title
    | some (Node.listItem li) =>
      appendChildren (fun c => ToText h fuel c recurse recurse) includeChildren li.Children
        ("\n".intercalate li.Sentences)
    | some (Node.table t) => some t.ToText
    | some (Node.tableRow r) => some r.ToText
    | some (Node.tableHeader th) => some th.ToText

/-- A record with the given tag, level (an integer) and sentences. -/
def record (tag : String) (level : Int) (sentences : List String) : JSON :=
  JSON.obj [("tag", JSON.str tag), ("level", JSON.num (level : ℚ)),
    ("sentences", JSON.arr (sentences.map JSON.str))]


/-- The sequence of nodes visited below the children `cs`, in order: each child followed by
the nodes visited below it (given by `sub`). -/
def seqChildren (sub : Nat → Option (List Nat)) : List Nat → Option (List Nat)
  | [] => some []
  | child :: rest =>
    match sub child with
    | none => none
    | some below =>
      match seqChildren sub rest with
      | none => none
      | some after => some (child :: below ++ after)

/-- The sequence of nodes handed to the visitor by `IterChildren(node, _, _)`, in order of
the calls (`none` when the fuel runs out). -/
def visitSeq (h : Heap) : Nat → Kind → Nat → Option (List Nat)
  | 0, _, _ => none
  | fuel + 1, ty, node =>
    if ty.hasCase then
      seqChildren
        (fun child =>
          match Heap.kind h child with
          | some cty => visitSeq h fuel cty child
          | none => some [])
        (Heap.children h node)
    else some []

/-- The nodes a collector keeps: those of dynamic type Paragraph. -/
def isParagraph (h : Heap) (a : Nat) : Bool :=
  decide (Heap.kind h a = some Kind.paragraph)

/-- The nodes the table collector keeps. -/
def isTable (h : Heap) (a : Nat) : Bool :=
  decide (Heap.kind h a = some Kind.table)

/-- The nodes the section collector keeps. -/
def isSection (h : Heap) (a : Nat) : Bool :=
  decide (Heap.kind h a = some Kind.section)

/-- The nodes of dynamic type ListItem. -/
def isListItem (h : Heap) (a : Nat) : Bool :=
  decide (Heap.kind h a = some Kind.listItem)

/-- The nodes the chunk collector keeps: Paragraph, ListItem or Table. -/
def isChunk (h : Heap) (a : Nat) : Bool :=
  isParagraph h a || isListItem h a || isTable h a

/-- A heap whose `Children` links form a forest: finitely many objects, no cycle (the links
strictly decrease a rank), every node is in the `Children` of at most one node, and at most
once. -/
structure IsTree (h : Heap) : Prop where
  acyclic : ∃ rank : Nat → Nat, ∀ p c, c ∈ Heap.children h p → rank c < rank p
  uniqueParent : ∀ p q c, c ∈ Heap.children h p → c ∈ Heap.children h q → p = q
  nodupChildren : ∀ p, (Heap.children h p).Nodup

/-- The `Children` link as a relation. -/
def Edge (h : Heap) (p c : Nat) : Prop := c ∈ Heap.children h p


/-- A small tree used to instantiate the general statements: the root (address 0) holds a
Section (1) and a ListItem (4); the Section holds a Paragraph (2) and a Table (3); the
ListItem holds a ListItem (5). -/
def exampleTree : Heap :=
  [ Node.block { Children := [1, 4] },
    Node.section { Tag := "header", Children := [2, 3], Parent := some 0, Title := "T" },
    Node.paragraph { Tag := "para", Parent := some 1 },
    Node.table { Tag := "table", Parent := some 1, Rows := [], Headers := [], Name := "t" },
    Node.listItem { Tag := "list_item", Children := [5], Parent := some 0 },
    Node.listItem { Tag := "list_item", Parent := some 4 } ]


/-- The allocation of a new node followed by `AddChild` on the node at `target`, as done by
every branch of the loop body of `Read`. -/
def attach (h : Heap) (n : Node) (target : Nat) : Heap :=
  AddChild (h ++ [n]) target h.length

/-- A node without its tree links. -/
def Node.content (n : Node) : Node :=
  n.mapBlk fun x => { x with Children := [], Parent := none }


/-- The rightmost chain of a heap from a node down to `P`: each node on it other than `P` is
not a ListItem, its last child is a Section on the chain, and its other children are not
Sections. -/
inductive Spine (h : Heap) (P : Nat) : Nat → Prop where
  | here : Spine h P P
  | down (n c : Nat) (cs : List Nat) : n ≠ P → Heap.kind h n ≠ some Kind.listItem →
      Heap.children h n = cs ++ [c] → Heap.kind h c = some Kind.section →
      (∀ d ∈ cs, Heap.kind h d ≠ some Kind.section) → Spine h P c → Spine h P n


/-- The tag `Read` reads from a record: `blockData.(map[string]interface{})["tag"].(string)`
(`none` when one of the two assertions fails). -/
def recordTag (r : JSON) : Option String :=
  match r.asMap with
  | some m => (JSON.index m "tag").asString
  | none => none

/-- The node `Read` constructs from a record, before it is linked into the tree. -/
def recordNode (r : JSON) : Option Node :=
  match r.asMap with
  | some m =>
    match (JSON.index m "tag").asString with
    | some tag => newNode tag m
    | none => none
  | none => none

/-- The strings of the `sentences` array of a record. -/
def recordSentences (r : JSON) : List String :=
  match r with
  | JSON.obj m =>
    match JSON.index m "sentences" with
    | JSON.arr xs => xs.filterMap JSON.asString
    | _ => []
  | _ => []

/-- Whether a record has the tag `header`. -/
def isHeaderRecord (r : JSON) : Bool :=
  decide (recordTag r = some "header")

/-- Whether a record has the tag `list_item`. -/
def isListItemRecord (r : JSON) : Bool :=
  decide (recordTag r = some "list_item")

/-- The addresses of the nodes of the records satisfying `p`, in input order, when the first
record of the list gets the address `addr` and each next record the next address. -/
def recordAddrs (p : JSON → Bool) : Nat → List JSON → List Nat
  | _, [] => []
  | addr, r :: rs =>
    if p r then addr :: recordAddrs p (addr + 1) rs else recordAddrs p (addr + 1) rs

/-- The address of the node of the last `header` record of the list, or `last` when there is
none, when the first record of the list gets the address `addr`. -/
def lastHeaderFrom : Nat → Nat → List JSON → Nat
  | _, last, [] => last
  | addr, last, r :: rs =>
    lastHeaderFrom (addr + 1) (if isHeaderRecord r then addr else last) rs

/-- The address of the Section built from the most recent `header` record of `rs`, or the
root (address `0`) when `rs` has no `header` record. -/
def lastHeaderAddr (rs : List JSON) : Nat :=
  lastHeaderFrom 1 0 rs

/-- Facts about the heap that hold after every iteration of the loop of `Read`. -/
structure HeapInv (h : Heap) : Prop where
  rootKind : Heap.kind h 0 = some Kind.block
  childRange : ∀ a c, c ∈ Heap.children h a → 0 < c ∧ c < h.length
  childGe : ∀ a c, c ∈ Heap.children h a → a ≤ c
  childOfListItem : ∀ a c, c ∈ Heap.children h a → Heap.kind h a = some Kind.listItem →
    Heap.kind h c = some Kind.listItem
  parentKinds : ∀ a c, c ∈ Heap.children h a →
    a = 0 ∨ Heap.kind h a = some Kind.section ∨ Heap.kind h a = some Kind.listItem
  parentOfChild : ∀ a c, c ∈ Heap.children h a → Heap.parent h c = some a
  hasParent : ∀ c, 0 < c → c < h.length →
    ∃ p, Heap.parent h c = some p ∧ c ∈ Heap.children h p
  childrenNodup : ∀ a, (Heap.children h a).Nodup

/-- The loop invariant of `Read` after the records `rs`. -/
structure Inv (rs : List JSON) (s : ReadState) : Prop where
  heapInv : HeapInv s.heap
  len : s.heap.length = rs.length + 1
  content : ∀ i r, rs.get? i = some r →
    ∃ n, recordNode r = some n ∧ (s.heap.get? (i + 1)).map Node.content = some n.content
  listStackKinds : ∀ t ∈ s.listStack, Heap.kind s.heap t = some Kind.listItem
  parentRange : s.parent < s.heap.length
  parentKind : s.parent = 0 ∨ Heap.kind s.heap s.parent = some Kind.section
  stackShape : ∃ rest, s.parentStack = s.parent :: rest ∧
    (Heap.kind s.heap s.parent = some Kind.section ∨ rest = [])
  sectionLast : ∀ a c, c ∈ Heap.children s.heap a → Heap.kind s.heap c = some Kind.section →
    a ≠ s.parent ∧ (Heap.children s.heap a).getLast? = some c
  spine : Spine s.heap s.parent 0
  visit : ∃ fuel l, visitSeq s.heap fuel Kind.block 0 = some l ∧
    l.filter (fun a => !isListItem s.heap a)
      = (List.range' 1 rs.length).filter (fun a => !isListItem s.heap a)
  parentIs : s.parent = lastHeaderAddr rs
  parentLinks : ∀ i r, rs.get? i = some r → recordTag r ≠ some "list_item" →
    Heap.parent s.heap (i + 1) = some (lastHeaderAddr (rs.take i)) ∧
    (i + 1) ∈ Heap.children s.heap (lastHeaderAddr (rs.take i))
  lastAttached : ∀ r, rs.getLast? = some r → recordTag r ≠ some "list_item" →
    (Heap.children s.heap (lastHeaderAddr rs.dropLast)).getLast? = some rs.length

/-- The document of scenario B: a header "A", a paragraph "x", a header "B". -/
def scenarioB : List JSON :=
  [record "header" 0 ["A"], record "para" 1 ["x"], record "header" 0 ["B"]]

/-- The heap `Read` builds on `scenarioB`. -/
def scenarioBHeap : Heap :=
  (Read scenarioB).getD []


/-- The Go method `(*Block).ToText`: the stub of the base struct, which returns the empty
string whatever the arguments. -/
def Block.ToText (_b : Block) (_includeChildren _recurse : Bool) : String := ""

/-- The loop `for parent != nil` of `ParentChain`: prepend `parent` to the chain and go on
with its `Parent` (every `Parent` link holds a `*Block`, the first case of the switch).  The
loop is bounded by a fuel, `none` meaning that the fuel ran out. -/
def parentLoop (h : Heap) : Nat → Option Nat → List Nat → Option (List Nat)
  | _, none, chain => some chain
  | 0, some _, _ => none
  | fuel + 1, some parent, chain =>
    parentLoop h fuel (Heap.parent h parent) (parent :: chain)

/-- The Go method `(*Block).ParentChain` on the embedded block of the object at `b`. -/
def ParentChain (h : Heap) (fuel : Nat) (b : Nat) : Option (List Nat) :=
  parentLoop h fuel (Heap.parent h b) []

/-- The loop `for _, p := range parentChain` of `ParentText`, which sorts the texts
`p.ToText(false, false)` of the chain by the tag of `p`; each `p` is a `*Block`, so the call
is `(*Block).ToText` (`none` when an address of the chain holds no object). -/
def parentTexts (h : Heap) : List Nat → List String → List String →
    Option (List String × List String)
  | [], headerTexts, paraTexts => some (headerTexts, paraTexts)
  | p :: rest, headerTexts, paraTexts =>
    match h.get? p with
    | none => none
    | some n =>
      if n.blk.Tag = "header" then
        parentTexts h rest (headerTexts ++ [n.blk.ToText false false]) paraTexts
      else if n.blk.Tag = "list_item" ∨ n.blk.Tag = "para" then
        parentTexts h rest headerTexts (paraTexts ++ [n.blk.ToText false false])
      else parentTexts h rest headerTexts paraTexts

/-- The end of `ParentText`: the two groups of texts put together. -/
def joinParentTexts (headerTexts paraTexts : List String) : String :=
  let text := if headerTexts.length > 0 then "" ++ (" > " ++ " > ".intercalate headerTexts)
    else ""
  if paraTexts.length > 0 then text ++ ("\n" ++ "\n".intercalate paraTexts) else text

/-- The Go method `(*Block).ParentText` on the embedded block of the object at `b`. -/
def ParentText (h : Heap) (fuel : Nat) (b : Nat) : Option String :=
  match ParentChain h fuel b with
  | none => none
  | some parentChain =>
    match parentTexts h parentChain [] [] with
    | none => none
    | some (headerTexts, paraTexts) => some (joinParentTexts headerTexts paraTexts)

/-- The Go method `(*Block).ToContextText` on the embedded block of the object at `b`.  Its
receiver is the `*Block`, so the two calls `b.ToText` are `(*Block).ToText`. -/
def ToContextText (h : Heap) (fuel : Nat) (b : Nat) (includeSectionInfo : Bool) :
    Option String :=
  match h.get? b with
  | none => none
  | some n =>
    let start : Option String :=
      if includeSectionInfo then
        match ParentText h fuel b with
        | some parentText => some ("" ++ (parentText ++ "\n"))
        | none => none
      else some ""
    match start with
    | none => none
    | some text =>
      if n.blk.Tag = "list_item" ∨ n.blk.Tag = "para" ∨ n.blk.Tag = "table" then
        some (text ++ n.blk.ToText true true)
      else some (text ++ n.blk.ToText false false)

/-- The loop `text += section.ToText(true, true) + "\n"` of `Document.ToText`. -/
def sectionsText (h : Heap) (fuel : Nat) : List Nat → String → Option String
  | [], text => some text
  | s :: rest, text =>
    match ToText h fuel s true true with
    | none => none
    | some t => sectionsText h fuel rest (text ++ (t ++ "\n"))

/-- The Go method `(*Document).ToText` of the document whose root is address `0`. -/
def DocumentToText (h : Heap) (fuel : Nat) : Option String :=
  match Sections h fuel 0 with
  | none => none
  | some sections =>
    match sectionsText h fuel sections "" with
    | none => none
    | some text => some (TrimSpace text)

/-- A cell record whose `cell_value` is a string or a nested record. -/
def cellOk (cellJSON : List (String × JSON)) : Bool :=
  match JSON.index cellJSON "cell_value" with
  | JSON.str _ => true
  | JSON.obj _ => true
  | _ => false

/-- An element of a `cells` array that is an object with a well-formed cell value. -/
def cellJSONOk (cellJSON : JSON) : Bool :=
  match cellJSON with
  | JSON.obj m => cellOk m
  | _ => false

/-- A row record whose `cells`, when it is an array, holds well-formed cell objects. -/
def cellsOk (rowJSON : List (String × JSON)) : Bool :=
  match JSON.index rowJSON "cells" with
  | JSON.arr cells => cells.all cellJSONOk
  | _ => true

/-- An element of `table_rows` that is an object: a `table_header` row or an ordinary row with
well-formed cells, or a `full_row` row that itself carries a well-formed cell value. -/
def rowOk (rowJSON : JSON) : Bool :=
  match rowJSON with
  | JSON.obj rowData =>
    if (JSON.index rowData "type").asString = some "table_header" then cellsOk rowData
    else if (JSON.index rowData "type").asString = some "full_row" then cellOk rowData
    else cellsOk rowData
  | _ => false

/-- A table record with a string `name` whose `table_rows`, when it is an array, holds
well-formed rows. -/
def tableOk (tableJSON : List (String × JSON)) : Bool :=
  (match JSON.index tableJSON "name" with
    | JSON.str _ => true
    | _ => false) &&
  (match JSON.index tableJSON "table_rows" with
    | JSON.arr rows => rows.all rowOk
    | _ => true)

/-- A record that is an object with a string tag and, when the tag is `table`, is a
well-formed table record.  Nothing is asked of the level or of the other fields. -/
def recordOk (r : JSON) : Bool :=
  match r with
  | JSON.obj m =>
    match JSON.index m "tag" with
    | JSON.str tag => if tag = "table" then tableOk m else true
    | _ => false
  | _ => false

/-- The document of three records: a header "A" of level 0, a header "B" of level 1 and a
paragraph "x" of level 2. -/
def nestedDoc : List JSON :=
  [record "header" 0 ["A"], record "header" 1 ["B"], record "para" 2 ["x"]]

/-- The heap `Read` builds on `nestedDoc`. -/
def nestedDocHeap : Heap :=
  (Read nestedDoc).getD []

/-- A table record with one header row of two string cells and one `full_row` row whose cell
is a nested record and spans two columns. -/
def tableRecord : JSON :=
  JSON.obj [("tag", JSON.str "table"), ("level", JSON.num 1), ("name", JSON.str "t"),
    ("table_rows", JSON.arr [
      JSON.obj [("type", JSON.str "table_header"),
        ("cells", JSON.arr [JSON.obj [("cell_value", JSON.str "h1")],
          JSON.obj [("cell_value", JSON.str "h2")]])],
      JSON.obj [("type", JSON.str "full_row"), ("col_span", JSON.num 2),
        ("cell_value", JSON.obj [("sentences", JSON.arr [JSON.str "foo", JSON.str "bar"])])]])]


/-- The field `Title` of a Section node (`none` for the other node types). -/
def Node.Title (n : Node) : Option String :=
  match n with
  | Node.section s => some s.Title
  | _ => none

/-- The field `Tag` of the object at an address. -/
def Heap.tag (h : Heap) (a : Nat) : String :=
  match h.get? a with
  | some n => n.blk.Tag
  | none => ""

/-- The string `p.ToText(false, false)` for a `*Block` value `p` at an address, as called on
the entries of a parent chain. -/
def Heap.blockText (h : Heap) (a : Nat) : String :=
  match h.get? a with
  | some n => n.blk.ToText false false
  | none => ""

/-- A node of the tree hanging from `root` through `Children`, with the list of its ancestors
from `root` down to its direct parent; the length of the list is the depth of the node. -/
inductive PathTo (h : Heap) (root : Nat) : Nat → List Nat → Prop where
  | root : PathTo h root root []
  | step (p c : Nat) (ancestors : List Nat) : PathTo h root p ancestors →
      c ∈ Heap.children h p → PathTo h root c (ancestors ++ [p])

/-- A hand-built tree: the root holds the paragraph "p" (address 1), which holds the
paragraph "c" (address 2). -/
def paraTree : Heap :=
  [ Node.block { Children := [1] },
    Node.paragraph { Tag := "para", Sentences := ["p"], Children := [2], Parent := some 0 },
    Node.paragraph { Tag := "para", Sentences := ["c"], Parent := some 1 } ]


/-! ### HTML rendering (`src/chipper/block.go`) -/

/-- The text `fmt.Sprintf` writes for the verb `%d`: the decimal digits, with a minus sign for
a negative number. -/
def formatInt (n : Int) : String :=
  toString n

/-- The Go method `(*Paragraph).ToHTML` with `includeChildren = false`, used for the nested
paragraph of a table cell. -/
def Paragraph.ownHTML (p : Paragraph) : String :=
  "<p>" ++ "<br>".intercalate p.Sentences ++ "</p>"

/-- The variable `cellHTML` of `(*TableCell).ToHTML`: the string value of the cell, or the
`ToHTML(false, false)` of its nested paragraph. -/
def TableCell.cellHTML (tc : TableCell) : String :=
  match tc.CellValue with
  | JSON.str value => value
  | _ =>
    match tc.CellNode with
    | some cellNode => cellNode.ownHTML
    | none => ""

/-- The Go method `(*TableCell).ToHTML`. -/
def TableCell.ToHTML (tc : TableCell) : String :=
  let htmlStr := "<td"
  let htmlStr :=
    if tc.ColSpan > 1 then htmlStr ++ (" colspan=\"" ++ formatInt tc.ColSpan ++ "\"")
    else htmlStr
  htmlStr ++ (">" ++ tc.cellHTML ++ "</td>")

/-- The loop `htmlStr += cell.ToHTML()` over the cells of a row. -/
def cellsHTML (cells : List TableCell) (htmlStr : String) : String :=
  cells.foldl (fun htmlStr cell => htmlStr ++ cell.ToHTML) htmlStr

/-- The Go method `(*TableRow).ToHTML`. -/
def TableRow.ToHTML (tr : TableRow) : String :=
  cellsHTML tr.Cells "<tr>" ++ "</tr>"

/-- The Go method `(*TableHeader).ToHTML`. -/
def TableHeader.ToHTML (th : TableHeader) : String :=
  cellsHTML th.Cells "<th>" ++ "</th>"

/-- The Go method `(*Table).ToHTML`. -/
def Table.ToHTML (t : Table) : String :=
  let htmlStr := t.Headers.foldl (fun htmlStr header => htmlStr ++ header.ToHTML) "<table>"
  let htmlStr := t.Rows.foldl (fun htmlStr row => htmlStr ++ row.ToHTML) htmlStr
  htmlStr ++ "</table>"

/-- The loop `htmlStr += child.ToHTML(recurse, recurse)` over the children. -/
def htmlChildren (childHTML : Nat → Option String) : List Nat → String → Option String
  | [], htmlStr => some htmlStr
  | child :: rest, htmlStr =>
    match childHTML child with
    | none => none
    | some t => htmlChildren childHTML rest (htmlStr ++ t)

/-- The interface call `node.ToHTML(includeChildren, recurse)`, dispatched on the dynamic type
of the object at address `node`.  The recursion is bounded by a fuel (`none` when it runs out
or when there is no object at the address).  The Go sum `s.Level + 1` is an `int` operation:
it wraps around at the largest `int`. -/
def ToHTML (h : Heap) : Nat → Nat → Bool → Bool → Option String
  | 0, _, _, _ => none
  | fuel + 1, node, includeChildren, recurse =>
    match h.get? node with
    | none => none
    | some (Node.block _) => some ""
    | some (Node.paragraph p) =>
      let htmlStr := "<p>" ++ "<br>".intercalate p.Sentences
      if includeChildren && decide (p.Children.length > 0) then
        match htmlChildren (fun c => ToHTML h fuel c recurse recurse) p.Children
            (htmlStr ++ "<ul>") with
        | none => none
        | some htmlStr => some (htmlStr ++ "</ul>" ++ "</p>")
      else some (htmlStr ++ "</p>")
    | some (Node.section s) =>
      let htmlStr := "<h" ++ formatInt (wrapInt (s.Level + 1)) ++ ">" ++ s.Title
        ++ ("</h" ++ formatInt (wrapInt (s.Level + 1)) ++ ">")
      if includeChildren then
        htmlChildren (fun c => ToHTML h fuel c recurse recurse) s.Children htmlStr
      else some htmlStr
    | some (Node.listItem li) =>
      let htmlStr := "<li>" ++ "<br>".intercalate li.Sentences
      if includeChildren && decide (li.Children.length > 0) then
        match htmlChildren (fun c => ToHTML h fuel c recurse recurse) li.Children
            (htmlStr ++ "<ul>") with
        | none => none
        | some htmlStr => some (htmlStr ++ "</ul>" ++ "</li>")
      else some (htmlStr ++ "</li>")
    | some (Node.table t) => some t.ToHTML
    | some (Node.tableRow r) => some r.ToHTML
    | some (Node.tableHeader th) => some th.ToHTML

/-- The loop `htmlStr += section.ToHTML(true, true)` of `Document.ToHTML`. -/
def sectionsHTML (h : Heap) (fuel : Nat) : List Nat → String → Option String
  | [], htmlStr => some htmlStr
  | s :: rest, htmlStr =>
    match ToHTML h fuel s true true with
    | none => none
    | some t => sectionsHTML h fuel rest (htmlStr ++ t)

/-- The Go method `(*Document).ToHTML` of the document whose root is address `0`. -/
def DocumentToHTML (h : Heap) (fuel : Nat) : Option String :=
  match Sections h fuel 0 with
  | none => none
  | some sections =>
    match sectionsHTML h fuel sections "<html>" with
    | none => none
    | some htmlStr => some (htmlStr ++ "</html>")

/-! ### Tables: the statements compared with the code -/

/-- Stated from the specification of `Table.ToText`, to be compared with the code: the text of
a table before trimming.  For each header row the cell texts each preceded by " | ", a
newline, one " | ---" per cell and a newline; then for each data row the cell texts each
preceded by " | " and a newline. -/
def tableLines (t : Table) : String :=
  String.join (t.Headers.map fun hd =>
      String.join (hd.Cells.map fun c => " | " ++ c.ToText) ++ "\n"
        ++ String.join (hd.Cells.map fun _ => " | ---") ++ "\n")
    ++ String.join (t.Rows.map fun row =>
      String.join (row.Cells.map fun c => " | " ++ c.ToText) ++ "\n")

/-- Stated from the specification of `Table.ToText`, to be compared with the code: the string
without its trailing whitespace, the leading whitespace being kept. -/
def trimTrailingSpace (s : String) : String :=
  String.mk (s.data.reverse.dropWhile isSpace).reverse

/-- The test `rowType == "table_header"` of `NewTable` on an element of `table_rows`. -/
def isTableHeaderRow (rowJSON : JSON) : Bool :=
  match rowJSON.asMap with
  | some rowData => decide ((JSON.index rowData "type").asString = some "table_header")
  | none => false

/-- The header `NewTable` builds from an element of `table_rows`. -/
def headerOfRow (rowJSON : JSON) : Option TableHeader :=
  match rowJSON.asMap with
  | some rowData => NewTableHeader rowData
  | none => none

/-- The row `NewTable` builds from an element of `table_rows`. -/
def rowOfRow (rowJSON : JSON) : Option TableRow :=
  match rowJSON.asMap with
  | some rowData => NewTableRow rowData
  | none => none

/-- The cell `NewTableRow` builds from an element of `cells`. -/
def cellOfJSON (cellJSON : JSON) : Option TableCell :=
  match cellJSON.asMap with
  | some m => NewTableCell m
  | none => none

/-- The map of the table record `tableRecord`. -/
def tableRecordMap : List (String × JSON) :=
  tableRecord.asMap.getD []

/-- A cell record whose value is the nested record with the sentences "foo" and "bar". -/
def nestedCell : List (String × JSON) :=
  [("cell_value", JSON.obj [("sentences", JSON.arr [JSON.str "foo", JSON.str "bar"])])]

/-- Whether a record has the tag `table`. -/
def isTableRecord (r : JSON) : Bool :=
  decide (recordTag r = some "table")

/-- Whether a record has the tag `para`. -/
def isParaRecord (r : JSON) : Bool :=
  decide (recordTag r = some "para")

/-- A document with a header, a paragraph, a table and a list item. -/
def mixedDoc : List JSON :=
  [record "header" 0 ["A"], record "para" 1 ["x"], tableRecord, record "list_item" 1 ["i"]]

/-- The heap `Read` builds on `mixedDoc`. -/
def mixedDocHeap : Heap :=
  (Read mixedDoc).getD []

/-! ### `BaseBlock.AddChild` of `src/file_reader.go` -/

/-- The Go method `(*BaseBlock).AddChild` of `src/file_reader.go`, called on the block at `b`
with the `Block` interface value at address `node`.  The objects of that file have the fields
of `Block` above (`BaseBlock` is the node type `block`).  After the append, the assertion
`node.(*BaseBlock)` holds only when the dynamic type of `node` is `*BaseBlock` itself;
otherwise it panics (`none`), also for a `*Paragraph`, which only embeds a `*BaseBlock`. -/
def BaseBlock.AddChild (h : Heap) (b : Nat) (node : Nat) : Option Heap :=
  let h1 := Heap.update (Node.mapBlk (Block.appendChild node)) h b
  match Heap.kind h1 node with
  | some Kind.block => some (Heap.update (Node.mapBlk (Block.setParent b)) h1 node)
  | _ => none

/-! ### `LayoutReader.Read` of `src/layout.go` -/

/-- How a run of Go code can fail to return a value: a run-time panic, or a loop that is still
running when the fuel that bounds it is used up. -/
inductive Fault where
  | panic
  | outOfFuel
  deriving DecidableEq, Repr

namespace Layout

/-- The loop of the list branch of `src/layout.go`: `for len(listStack) > 0`, pop while the
top, asserted to be a `*ListItem`, has a level at least that of the new node, else break. -/
def popListStack (h : Heap) (level : Int) : List Nat → Except Fault (List Nat)
  | [] => Except.ok []
  | top :: rest =>
    match listItemLevel h top with
    | none => Except.error Fault.panic
    | some l =>
      if l ≥ level then popListStack h level rest else Except.ok (top :: rest)

/-- The loop of the header branch of `src/layout.go`: `for len(parentStack) > 1`, whose body
pops the top when it is a `*Block` with a level greater than that of the new node and does
nothing otherwise.  Each turn of the loop uses one unit of fuel. -/
def popParentStack (h : Heap) (level : Int) : Nat → List Nat → Except Fault (List Nat)
  | _, [] => Except.ok []
  | _, [x] => Except.ok [x]
  | 0, _ :: _ :: _ => Except.error Fault.outOfFuel
  | fuel + 1, top :: next :: rest =>
    match h.get? top with
    | some (Node.block parentStackBlock) =>
      if parentStackBlock.Level > level then popParentStack h level fuel (next :: rest)
      else popParentStack h level fuel (top :: next :: rest)
    | _ => popParentStack h level fuel (top :: next :: rest)

/-- The node construction switch of `Read` in `src/layout.go`, on `blockMap["tag"]` (an
interface value, equal to a string constant only when it is that string). -/
def newNode (blockMap : List (String × JSON)) : Except Fault Node :=
  let tag := (JSON.index blockMap "tag").asString
  if tag = some "para" then Except.ok (Node.paragraph (NewParagraph blockMap))
  else if tag = some "table" then
    match NewTable blockMap with
    | some t => Except.ok (Node.table t)
    | none => Except.error Fault.panic
  else if tag = some "list_item" then Except.ok (Node.listItem (NewListItem blockMap))
  else if tag = some "header" then Except.ok (Node.section (NewSection blockMap))
  else Except.ok (Node.block (NewBlock blockMap))

/-- The case `*ListItem` of the type switch of `Read` in `src/layout.go`; `listStack` is the
stack after the reset at the top of the loop body. -/
def readListItem (s : ReadState) (listStack : List Nat) (heap : Heap) (node : Nat)
    (level : Int) : Except Fault ReadState :=
  let adjusted : Except Fault (List Nat) :=
    match listStack with
    | [] => Except.ok []
    | top :: rest =>
      match listItemLevel heap top with
      | none => Except.error Fault.panic
      | some lastLevel =>
        if level > lastLevel then Except.ok (s.prevNode :: top :: rest)
        else if level < lastLevel then popListStack heap level (top :: rest)
        else Except.ok (top :: rest)
  match adjusted with
  | Except.error e => Except.error e
  | Except.ok listStack1 =>
    let heap1 :=
      match listStack1 with
      | top :: _ => AddChild heap top node
      | [] => AddChild heap s.parent node
    Except.ok { heap := heap1, parent := s.parent, parentStack := s.parentStack,
                prevNode := node, listStack := listStack1 }

/-- The case `*Section` of the type switch of `Read` in `src/layout.go`: everything happens
inside the case `*Block` of the inner switch on `parent`; when `parent` is not a `*Block` the
new node is attached nowhere and `parent` stays. -/
def readSection (fuel : Nat) (s : ReadState) (listStack : List Nat) (heap : Heap) (node : Nat)
    (level : Int) : Except Fault ReadState :=
  match heap.get? s.parent with
  | some (Node.block parentBlock) =>
    if level > parentBlock.Level then
      Except.ok { heap := AddChild heap s.parent node, parent := node,
                  parentStack := node :: s.parentStack, prevNode := node,
                  listStack := listStack }
    else
      match popParentStack heap level fuel s.parentStack with
      | Except.error e => Except.error e
      | Except.ok [] => Except.error Fault.panic
      | Except.ok (top :: rest) =>
        Except.ok { heap := AddChild heap top node, parent := node,
                    parentStack := node :: top :: rest, prevNode := node,
                    listStack := listStack }
  | _ =>
    Except.ok { heap := heap, parent := s.parent, parentStack := s.parentStack,
                prevNode := node, listStack := listStack }

/-- One iteration of the loop of `LayoutReader.Read` in `src/layout.go`. -/
def readStep (fuel : Nat) (s : ReadState) (blockData : JSON) : Except Fault ReadState :=
  match blockData.asMap with
  | none => Except.error Fault.panic
  | some blockMap =>
    let tag := (JSON.index blockMap "tag").asString
    let listStack := if tag ≠ some "list_item" ∧ s.listStack.length > 0 then [] else s.listStack
    match newNode blockMap with
    | Except.error e => Except.error e
    | Except.ok n =>
      let node := s.heap.length
      let heap := s.heap ++ [n]
      match n with
      | Node.listItem nodeBlock => readListItem s listStack heap node nodeBlock.Level
      | Node.section nodeBlock => readSection fuel s listStack heap node nodeBlock.Level
      | _ =>
        Except.ok { heap := AddChild heap s.parent node, parent := s.parent,
                    parentStack := s.parentStack, prevNode := node, listStack := listStack }

/-- The loop `for _, blockData := range blocksJSON` of `Read` in `src/layout.go`. -/
def readLoop (fuel : Nat) : ReadState → List JSON → Except Fault ReadState
  | s, [] => Except.ok s
  | s, blockData :: rest =>
    match readStep fuel s blockData with
    | Except.error e => Except.error e
    | Except.ok s1 => readLoop fuel s1 rest

/-- The Go method `LayoutReader.Read` of `src/layout.go`, which starts from the same state as
that of `src/chipper/block.go` (`readInit`: the root `&Block{}` at address `0`, alone on the
parent stack, and an empty list stack); the result is the heap after the loop, whose address
`0` is the returned root.  `fuel` bounds each run of the loop of the header branch. -/
def Read (fuel : Nat) (blocksJSON : List JSON) : Except Fault Heap :=
  match readLoop fuel readInit blocksJSON with
  | Except.ok s => Except.ok s.heap
  | Except.error e => Except.error e

end Layout

/-- The document of two headers "A" (level 1) and "B" (level 2) followed by a paragraph. -/
def twoHeaders : List JSON :=
  [record "header" 1 ["A"], record "header" 2 ["B"], record "para" 3 ["x"]]


/-- The number 2.5. -/
def twoAndHalf : ℚ :=
  { num := 5, den := 2, den_nz := by decide, reduced := by decide }

/-- A `full_row` row record whose `col_span` is 2.5. -/
def fractionalSpanRow : List (String × JSON) :=
  [("type", JSON.str "full_row"), ("col_span", JSON.num twoAndHalf),
    ("cell_value", JSON.str "x")]

/-- A heap holding one Section of the largest `int` level, titled "T". -/
def topLevelSection : Heap :=
  [Node.section { Level := 9223372036854775807, Title := "T" }]

/-- Four headers of levels 0, 0, 5 and -1. -/
def fourHeaders : List JSON :=
  [record "header" 0 ["A"], record "header" 0 ["B"], record "header" 5 ["C"],
    record "header" (-1) ["D"]]

/-- The heap `Read` builds on `fourHeaders`. -/
def fourHeadersHeap : Heap :=
  (Read fourHeaders).getD []

/-- A document without header: a paragraph, a table and two list items. -/
def noHeaderDoc : List JSON :=
  [record "para" 0 ["x"], tableRecord, record "list_item" 0 ["a"], record "list_item" 1 ["b"]]

/-- The heap `Read` builds on `noHeaderDoc`. -/
def noHeaderDocHeap : Heap :=
  (Read noHeaderDoc).getD []

namespace Layout

/-- A record on which the loop body of `Read` in `src/layout.go` does not panic: an object
that, when its tag is `table`, is a well-formed table record.  Nothing is asked of the tag
itself, which may be absent. -/
def recordOk (r : JSON) : Bool :=
  match r with
  | JSON.obj m => if (JSON.index m "tag").asString = some "table" then tableOk m else true
  | _ => false

/-- Facts about the local variables of `Read` in `src/layout.go` that hold after every
iteration of its loop: the root is a `*Block`; the list stack is empty; and either `parent` is
still the root, alone on `parentStack`, or `parent` is a `*Section`. -/
structure LoopInv (s : ReadState) : Prop where
  rootKind : Heap.kind s.heap 0 = some Kind.block
  listEmpty : s.listStack = []
  parentShape : (s.parent = 0 ∧ s.parentStack = [0]) ∨
    Heap.kind s.heap s.parent = some Kind.section

/-- Two headers of level 0 with a paragraph and a list item between them. -/
def flatHeaders : List JSON :=
  [record "header" 0 ["A"], record "para" 1 ["x"], record "list_item" 1 ["i"],
    record "header" 0 ["B"]]

end Layout


/-! ### The visiting order of `IterChildren` -/

theorem forChildren_eq_seqChildren {σ : Type} (v : Nat → σ → σ) (body : Nat → σ → Option σ)
    (sub : Nat → Option (List Nat))
    (hbody : ∀ c a, body c a = (sub c).map (fun l => (c :: l).foldl (fun a x => v x a) a))
    (cs : List Nat) (acc : σ) :
    forChildren body cs acc
      = (seqChildren sub cs).map (fun l => l.foldl (fun a x => v x a) acc) := by
  induction cs generalizing acc with
  | nil => simp [forChildren, seqChildren]
  | cons c rest ih =>
    simp only [forChildren, seqChildren, hbody]
    cases hs : sub c with
    | none => simp
    | some below =>
      simp only [Option.map_some']
      rw [ih]
      cases hr : seqChildren sub rest with
      | none => simp
      | some after => simp [List.foldl_append]

theorem IterChildren_eq_visitSeq {σ : Type} (h : Heap) (v : Nat → σ → σ) (fuel : Nat)
    (ty : Kind) (node : Nat) (acc : σ) :
    IterChildren h v fuel ty node acc
      = (visitSeq h fuel ty node).map (fun l => l.foldl (fun a x => v x a) acc) := by
  induction fuel generalizing ty node acc with
  | zero => simp [IterChildren, visitSeq]
  | succ fuel ih =>
    simp only [IterChildren, visitSeq]
    split
    · apply forChildren_eq_seqChildren v
      intro c a
      cases hk : Heap.kind h c with
      | none => simp
      | some cty => simp [ih]
    · simp

theorem foldl_collect (p : Nat → Bool) (v : Nat → List Nat → List Nat)
    (hv : ∀ x a, v x a = if p x then a ++ [x] else a) (l acc : List Nat) :
    l.foldl (fun a x => v x a) acc = acc ++ l.filter p := by
  induction l generalizing acc with
  | nil => simp
  | cons x l ih =>
    rw [List.foldl_cons, ih, hv]
    by_cases hp : p x <;> simp [hp]

theorem chunkCollector_eq (h : Heap) (x : Nat) (a : List Nat) :
    chunkCollector h x a = if isChunk h x then a ++ [x] else a := by
  unfold chunkCollector isChunk isParagraph isListItem isTable
  cases hk : Heap.kind h x with
  | none => simp
  | some k => cases k <;> simp

theorem paraCollector_eq (h : Heap) (x : Nat) (a : List Nat) :
    paraCollector h x a = if isParagraph h x then a ++ [x] else a := by
  unfold paraCollector isParagraph
  cases hk : Heap.kind h x with
  | none => simp
  | some k => cases k <;> simp

theorem tableCollector_eq (h : Heap) (x : Nat) (a : List Nat) :
    tableCollector h x a = if isTable h x then a ++ [x] else a := by
  unfold tableCollector isTable
  cases hk : Heap.kind h x with
  | none => simp
  | some k => cases k <;> simp

theorem sectionCollector_eq (h : Heap) (x : Nat) (a : List Nat) :
    sectionCollector h x a = if isSection h x then a ++ [x] else a := by
  unfold sectionCollector isSection
  cases hk : Heap.kind h x with
  | none => simp
  | some k => cases k <;> simp

theorem Chunks_eq (h : Heap) (fuel b : Nat) :
    Chunks h fuel b = (visitSeq h fuel Kind.block b).map (fun l => l.filter (isChunk h)) := by
  unfold Chunks
  rw [IterChildren_eq_visitSeq]
  congr 1
  funext l
  simpa using foldl_collect (isChunk h) (chunkCollector h) (chunkCollector_eq h) l []

theorem Paragraphs_eq (h : Heap) (fuel b : Nat) :
    Paragraphs h fuel b
      = (visitSeq h fuel Kind.block b).map (fun l => l.filter (isParagraph h)) := by
  unfold Paragraphs
  rw [IterChildren_eq_visitSeq]
  congr 1
  funext l
  simpa using foldl_collect (isParagraph h) (paraCollector h) (paraCollector_eq h) l []

theorem Tables_eq (h : Heap) (fuel b : Nat) :
    Tables h fuel b = (visitSeq h fuel Kind.block b).map (fun l => l.filter (isTable h)) := by
  unfold Tables
  rw [IterChildren_eq_visitSeq]
  congr 1
  funext l
  simpa using foldl_collect (isTable h) (tableCollector h) (tableCollector_eq h) l []

theorem Sections_eq (h : Heap) (fuel b : Nat) :
    Sections h fuel b
      = (visitSeq h fuel Kind.block b).map (fun l => l.filter (isSection h)) := by
  unfold Sections
  rw [IterChildren_eq_visitSeq]
  congr 1
  funext l
  simpa using foldl_collect (isSection h) (sectionCollector h) (sectionCollector_eq h) l []


/-- The nodes visited below one child: the recursive call of `IterChildren` on it. -/
theorem visitSeq_succ (h : Heap) (fuel : Nat) (ty : Kind) (node : Nat) :
    visitSeq h (fuel + 1) ty node
      = if ty.hasCase then
          seqChildren
            (fun child =>
              match Heap.kind h child with
              | some cty => visitSeq h fuel cty child
              | none => some [])
            (Heap.children h node)
        else some [] := rfl

theorem seqChildren_isSome (sub : Nat → Option (List Nat)) (cs : List Nat)
    (hsub : ∀ c ∈ cs, ∃ l, sub c = some l) : ∃ l, seqChildren sub cs = some l := by
  induction cs with
  | nil => exact ⟨[], rfl⟩
  | cons c rest ih =>
    obtain ⟨lc, hlc⟩ := hsub c (List.mem_cons_self _ _)
    obtain ⟨lr, hlr⟩ := ih (fun c hc => hsub c (List.mem_cons_of_mem _ hc))
    exact ⟨c :: lc ++ lr, by simp [seqChildren, hlc, hlr]⟩

theorem seqChildren_cons_some (sub : Nat → Option (List Nat)) (c : Nat) (rest l : List Nat)
    (hl : seqChildren sub (c :: rest) = some l) :
    ∃ lc lr, sub c = some lc ∧ seqChildren sub rest = some lr ∧ l = c :: lc ++ lr := by
  simp only [seqChildren] at hl
  cases hs : sub c with
  | none => simp [hs] at hl
  | some lc =>
    cases hr : seqChildren sub rest with
    | none => simp [hs, hr] at hl
    | some lr =>
      simp only [hs, hr, Option.some.injEq] at hl
      exact ⟨lc, lr, rfl, rfl, hl.symm⟩

theorem seqChildren_mem (sub : Nat → Option (List Nat)) (cs l : List Nat)
    (hl : seqChildren sub cs = some l) (x : Nat) (hx : x ∈ l) :
    ∃ c ∈ cs, x = c ∨ ∃ lc, sub c = some lc ∧ x ∈ lc := by
  induction cs generalizing l with
  | nil =>
    simp only [seqChildren, Option.some.injEq] at hl
    subst hl
    simp at hx
  | cons c rest ih =>
    obtain ⟨lc, lr, hlc, hlr, rfl⟩ := seqChildren_cons_some sub c rest l hl
    simp only [List.cons_append, List.mem_cons, List.mem_append] at hx
    rcases hx with hx | hx | hx
    · exact ⟨c, List.mem_cons_self _ _, Or.inl hx⟩
    · exact ⟨c, List.mem_cons_self _ _, Or.inr ⟨lc, hlc, hx⟩⟩
    · obtain ⟨c', hc', h'⟩ := ih lr hlr hx
      exact ⟨c', List.mem_cons_of_mem _ hc', h'⟩

theorem seqChildren_child (sub : Nat → Option (List Nat)) (cs l : List Nat)
    (hl : seqChildren sub cs = some l) (c : Nat) (hc : c ∈ cs) :
    ∃ lc, sub c = some lc ∧ c ∈ l ∧ ∀ x ∈ lc, x ∈ l := by
  induction cs generalizing l with
  | nil => simp at hc
  | cons d rest ih =>
    obtain ⟨ld, lr, hld, hlr, rfl⟩ := seqChildren_cons_some sub d rest l hl
    rcases List.mem_cons.mp hc with rfl | hc
    · refine ⟨ld, hld, by simp, ?_⟩
      intro x hx
      simp [hx]
    · obtain ⟨lc, hlc, hcl, hall⟩ := ih lr hlr hc
      refine ⟨lc, hlc, by simp [hcl], ?_⟩
      intro x hx
      simp [hall x hx]

theorem seqChildren_congr (sub sub' : Nat → Option (List Nat)) (cs l : List Nat)
    (hsub : ∀ c ∈ cs, ∀ lc, sub c = some lc → sub' c = some lc)
    (hl : seqChildren sub cs = some l) : seqChildren sub' cs = some l := by
  induction cs generalizing l with
  | nil => simpa [seqChildren] using hl
  | cons c rest ih =>
    obtain ⟨lc, lr, hlc, hlr, rfl⟩ := seqChildren_cons_some sub c rest l hl
    have h1 := hsub c (List.mem_cons_self _ _) lc hlc
    have h2 := ih lr (fun c hc => hsub c (List.mem_cons_of_mem _ hc)) hlr
    simp [seqChildren, h1, h2]

theorem seqChildren_append (sub : Nat → Option (List Nat)) (cs ds l1 l2 : List Nat)
    (h1 : seqChildren sub cs = some l1) (h2 : seqChildren sub ds = some l2) :
    seqChildren sub (cs ++ ds) = some (l1 ++ l2) := by
  induction cs generalizing l1 with
  | nil =>
    simp only [seqChildren, Option.some.injEq] at h1
    subst h1
    simpa using h2
  | cons c rest ih =>
    obtain ⟨lc, lr, hlc, hlr, rfl⟩ := seqChildren_cons_some sub c rest l1 h1
    have := ih lr hlr
    simp [seqChildren, hlc, this]

theorem seqChildren_nodup (sub : Nat → Option (List Nat)) (cs l : List Nat)
    (hl : seqChildren sub cs = some l) (hcs : cs.Nodup)
    (hown : ∀ c ∈ cs, ∀ lc, sub c = some lc → lc.Nodup ∧ c ∉ lc)
    (hdisj : ∀ c ∈ cs, ∀ d ∈ cs, c ≠ d → ∀ lc ld, sub c = some lc → sub d = some ld →
      ∀ x, x ∈ c :: lc → x ∉ d :: ld) :
    l.Nodup := by
  induction cs generalizing l with
  | nil =>
    simp only [seqChildren, Option.some.injEq] at hl
    subst hl
    exact List.nodup_nil
  | cons c rest ih =>
    obtain ⟨lc, lr, hlc, hlr, rfl⟩ := seqChildren_cons_some sub c rest l hl
    have hc := hown c (List.mem_cons_self _ _) lc hlc
    have hrest : lr.Nodup :=
      ih lr hlr (List.nodup_cons.mp hcs).2
        (fun d hd => hown d (List.mem_cons_of_mem _ hd))
        (fun a ha b hb => hdisj a (List.mem_cons_of_mem _ ha) b (List.mem_cons_of_mem _ hb))
    have hsep : ∀ x, x ∈ c :: lc → x ∉ lr := by
      intro x hx hxr
      obtain ⟨d, hd, hxd⟩ := seqChildren_mem sub rest lr hlr x hxr
      have hne : c ≠ d := by
        rintro rfl
        exact (List.nodup_cons.mp hcs).1 hd
      obtain ⟨ld, hld, -, -⟩ := seqChildren_child sub rest lr hlr d hd
      have := hdisj c (List.mem_cons_self _ _) d (List.mem_cons_of_mem _ hd) hne lc ld hlc hld
        x hx
      apply this
      rcases hxd with rfl | ⟨ld', hld', hx'⟩
      · exact List.mem_cons_self _ _
      · rw [hld] at hld'
        cases hld'
        exact List.mem_cons_of_mem _ hx'
    have : (c :: lc ++ lr) = (c :: lc) ++ lr := rfl
    rw [this, List.nodup_append]
    refine ⟨List.nodup_cons.mpr ⟨hc.2, hc.1⟩, hrest, ?_⟩
    intro x hx hxr
    exact hsep x hx hxr

theorem visitSeq_mono_succ (h : Heap) (fuel : Nat) (ty : Kind) (node : Nat) (l : List Nat)
    (hl : visitSeq h fuel ty node = some l) : visitSeq h (fuel + 1) ty node = some l := by
  induction fuel generalizing ty node l with
  | zero => simp [visitSeq] at hl
  | succ fuel ih =>
    rw [visitSeq_succ] at hl ⊢
    split
    · rename_i hcase
      rw [if_pos hcase] at hl
      refine seqChildren_congr _ _ _ _ ?_ hl
      intro c _ lc hlc
      cases hk : Heap.kind h c with
      | none => simpa [hk] using hlc
      | some cty =>
        simp only [hk] at hlc ⊢
        exact ih cty c lc hlc
    · rename_i hcase
      rw [if_neg hcase] at hl
      exact hl

theorem visitSeq_mono (h : Heap) (fuel fuel' : Nat) (hle : fuel ≤ fuel') (ty : Kind)
    (node : Nat) (l : List Nat) (hl : visitSeq h fuel ty node = some l) :
    visitSeq h fuel' ty node = some l := by
  induction hle with
  | refl => exact hl
  | step _ ih => exact visitSeq_mono_succ h _ ty node l ih

theorem visitSeq_unique (h : Heap) (f1 f2 : Nat) (ty : Kind) (node : Nat) (l1 l2 : List Nat)
    (h1 : visitSeq h f1 ty node = some l1) (h2 : visitSeq h f2 ty node = some l2) :
    l1 = l2 := by
  have a := visitSeq_mono h f1 (max f1 f2) (le_max_left _ _) ty node l1 h1
  have b := visitSeq_mono h f2 (max f1 f2) (le_max_right _ _) ty node l2 h2
  rw [a] at b
  exact Option.some.inj b

theorem visitSeq_hasCase (h : Heap) (fuel : Nat) (ty ty' : Kind) (node : Nat)
    (h1 : ty.hasCase = true) (h2 : ty'.hasCase = true) :
    visitSeq h fuel ty node = visitSeq h fuel ty' node := by
  cases fuel with
  | zero => rfl
  | succ fuel => simp [visitSeq_succ, h1, h2]


/-! ### Traversals of a tree -/

theorem visitSeq_total_of_rank (h : Heap) (rank : Nat → Nat)
    (hr : ∀ p c, c ∈ Heap.children h p → rank c < rank p) (fuel : Nat) :
    ∀ node ty, rank node < fuel → ∃ l, visitSeq h fuel ty node = some l := by
  induction fuel with
  | zero => intro node ty hlt; omega
  | succ fuel ih =>
    intro node ty hlt
    rw [visitSeq_succ]
    split
    · apply seqChildren_isSome
      intro c hc
      cases hk : Heap.kind h c with
      | none => exact ⟨[], rfl⟩
      | some cty =>
        have := hr node c hc
        exact ih c cty (by omega)
    · exact ⟨[], rfl⟩

theorem visitSeq_mem_desc (h : Heap) (fuel : Nat) :
    ∀ ty node l, visitSeq h fuel ty node = some l → ∀ x ∈ l,
      Relation.TransGen (Edge h) node x := by
  induction fuel with
  | zero => intro ty node l hl; simp [visitSeq] at hl
  | succ fuel ih =>
    intro ty node l hl x hx
    rw [visitSeq_succ] at hl
    split at hl
    · obtain ⟨c, hc, hxc⟩ := seqChildren_mem _ _ _ hl x hx
      rcases hxc with rfl | ⟨lc, hlc, hxlc⟩
      · exact Relation.TransGen.single hc
      · cases hk : Heap.kind h c with
        | none =>
          simp only [hk, Option.some.injEq] at hlc
          subst hlc
          simp at hxlc
        | some cty =>
          simp only [hk] at hlc
          exact Relation.TransGen.head hc (ih cty c lc hlc x hxlc)
    · simp only [Option.some.injEq] at hl
      subst hl
      simp at hx

theorem rank_lt_of_transGen (h : Heap) (rank : Nat → Nat)
    (hr : ∀ p c, c ∈ Heap.children h p → rank c < rank p) (a x : Nat)
    (hax : Relation.TransGen (Edge h) a x) : rank x < rank a := by
  induction hax with
  | single hc => exact hr _ _ hc
  | tail _ hc ih => exact lt_trans (hr _ _ hc) ih

theorem rank_le_of_reflTransGen (h : Heap) (rank : Nat → Nat)
    (hr : ∀ p c, c ∈ Heap.children h p → rank c < rank p) (a x : Nat)
    (hax : Relation.ReflTransGen (Edge h) a x) : rank x ≤ rank a := by
  rcases Relation.reflTransGen_iff_eq_or_transGen.mp hax with rfl | ht
  · exact le_refl _
  · exact le_of_lt (rank_lt_of_transGen h rank hr a x ht)

theorem ancestors_linear (h : Heap)
    (hu : ∀ p q c, c ∈ Heap.children h p → c ∈ Heap.children h q → p = q) (a x : Nat)
    (ha : Relation.ReflTransGen (Edge h) a x) :
    ∀ b, Relation.ReflTransGen (Edge h) b x →
      Relation.ReflTransGen (Edge h) a b ∨ Relation.ReflTransGen (Edge h) b a := by
  induction ha with
  | refl => intro b hb; exact Or.inr hb
  | tail hay hyx ih =>
    intro b hb
    rcases Relation.ReflTransGen.cases_tail hb with rfl | ⟨y', hby', hy'x⟩
    · exact Or.inl (Relation.ReflTransGen.tail hay hyx)
    · have e : y' = _ := hu _ _ _ hy'x hyx
      rw [e] at hby'
      exact ih b hby'

theorem siblings_not_related (h : Heap) (tree : IsTree h) (n c d : Nat)
    (hc : c ∈ Heap.children h n) (hd : d ∈ Heap.children h n) (hne : c ≠ d) :
    ¬ Relation.ReflTransGen (Edge h) c d := by
  intro hcd
  obtain ⟨rank, hr⟩ := tree.acyclic
  rcases Relation.ReflTransGen.cases_tail hcd with heq | ⟨y, hcy, hyd⟩
  · exact hne heq.symm
  · have : y = n := tree.uniqueParent _ _ _ hyd hd
    subst this
    have h1 := rank_le_of_reflTransGen h rank hr c y hcy
    have h2 := hr y c hc
    omega

theorem visitSeq_nodup (h : Heap) (tree : IsTree h) (fuel : Nat) :
    ∀ ty node l, visitSeq h fuel ty node = some l → l.Nodup := by
  obtain ⟨rank, hr⟩ := tree.acyclic
  have below : ∀ fuel c lc,
      (match Heap.kind h c with
        | some cty => visitSeq h fuel cty c
        | none => some []) = some lc →
      ∀ x ∈ lc, Relation.TransGen (Edge h) c x := by
    intro fuel c lc hlc x hx
    cases hk : Heap.kind h c with
    | none =>
      simp only [hk, Option.some.injEq] at hlc
      subst hlc
      simp at hx
    | some cty =>
      simp only [hk] at hlc
      exact visitSeq_mem_desc h fuel cty c lc hlc x hx
  induction fuel with
  | zero => intro ty node l hl; simp [visitSeq] at hl
  | succ fuel ih =>
    intro ty node l hl
    rw [visitSeq_succ] at hl
    split at hl
    · refine seqChildren_nodup _ _ _ hl (tree.nodupChildren node) ?_ ?_
      · intro c _ lc hlc
        constructor
        · cases hk : Heap.kind h c with
          | none =>
            simp only [hk, Option.some.injEq] at hlc
            subst hlc
            exact List.nodup_nil
          | some cty =>
            simp only [hk] at hlc
            exact ih cty c lc hlc
        · intro hmem
          have := rank_lt_of_transGen h rank hr c c (below fuel c lc hlc c hmem)
          omega
      · intro c hc d hd hne lc ld hlc hld x hxc hxd
        have hcx : Relation.ReflTransGen (Edge h) c x := by
          rcases List.mem_cons.mp hxc with rfl | hx
          · exact Relation.ReflTransGen.refl
          · exact (below fuel c lc hlc x hx).to_reflTransGen
        have hdx : Relation.ReflTransGen (Edge h) d x := by
          rcases List.mem_cons.mp hxd with rfl | hx
          · exact Relation.ReflTransGen.refl
          · exact (below fuel d ld hld x hx).to_reflTransGen
        rcases ancestors_linear h tree.uniqueParent c x hcx d hdx with hcd | hdc
        · exact siblings_not_related h tree node c d hc hd hne hcd
        · exact siblings_not_related h tree node d c hd hc (Ne.symm hne) hdc
    · simp only [Option.some.injEq] at hl
      subst hl
      exact List.nodup_nil

theorem visitSeq_child (h : Heap) (fuel : Nat) (n c : Nat) (k : Kind)
    (hc : c ∈ Heap.children h n) (hk : Heap.kind h c = some k) (hcase : k.hasCase = true)
    (l : List Nat) (hl : visitSeq h fuel Kind.block n = some l) :
    ∃ lc, visitSeq h fuel Kind.block c = some lc ∧ c ∈ l ∧ ∀ x ∈ lc, x ∈ l := by
  cases fuel with
  | zero => simp [visitSeq] at hl
  | succ fuel =>
    rw [visitSeq_succ] at hl
    simp only [Kind.hasCase, if_true] at hl
    obtain ⟨lc, hlc, hcl, hall⟩ := seqChildren_child _ _ _ hl c hc
    simp only [hk] at hlc
    rw [visitSeq_hasCase h fuel k Kind.block c hcase rfl] at hlc
    exact ⟨lc, visitSeq_mono_succ h fuel _ c lc hlc, hcl, hall⟩

theorem filter_descends (h : Heap) (p : Nat → Bool) (fuel : Nat) (n c : Nat) (k : Kind)
    (hc : c ∈ Heap.children h n) (hk : Heap.kind h c = some k) (hcase : k.hasCase = true)
    (l : List Nat)
    (hl : (visitSeq h fuel Kind.block n).map (fun l => l.filter p) = some l) :
    (p c = true → c ∈ l) ∧
      ∃ lc, (visitSeq h fuel Kind.block c).map (fun l => l.filter p) = some lc ∧
        ∀ x ∈ lc, x ∈ l := by
  cases hv : visitSeq h fuel Kind.block n with
  | none => simp [hv] at hl
  | some v =>
    simp only [hv, Option.map_some', Option.some.injEq] at hl
    subst hl
    obtain ⟨lc, hlc, hcl, hall⟩ := visitSeq_child h fuel n c k hc hk hcase v hv
    refine ⟨fun hp => List.mem_filter.mpr ⟨hcl, hp⟩, lc.filter p, by simp [hlc], ?_⟩
    intro x hx
    obtain ⟨hx1, hx2⟩ := List.mem_filter.mp hx
    exact List.mem_filter.mpr ⟨hall x hx1, hx2⟩


/-! ### Heap updates -/

theorem Heap.update_length (f : Node → Node) (h : Heap) (a : Nat) :
    (Heap.update f h a).length = h.length := by
  induction h generalizing a with
  | nil => rfl
  | cons n h ih => cases a <;> simp [Heap.update, ih]

theorem Heap.get?_update (f : Node → Node) (h : Heap) (a b : Nat) :
    (Heap.update f h a).get? b = if b = a then (h.get? b).map f else h.get? b := by
  induction h generalizing a b with
  | nil => simp [Heap.update]
  | cons n h ih =>
    cases a with
    | zero => cases b <;> simp [Heap.update]
    | succ a =>
      cases b with
      | zero => simp [Heap.update]
      | succ b => simpa [Heap.update] using ih a b

theorem Node.kind_mapBlk (g : Block → Block) (n : Node) : (n.mapBlk g).kind = n.kind := by
  cases n <;> rfl

theorem Node.blk_mapBlk (g : Block → Block) (n : Node) : (n.mapBlk g).blk = g n.blk := by
  cases n <;> rfl

theorem Node.content_appendChild (n : Node) (c : Nat) :
    (n.mapBlk (Block.appendChild c)).content = n.content := by
  cases n <;> rfl

theorem Node.content_setParent (n : Node) (p : Nat) :
    (n.mapBlk (Block.setParent p)).content = n.content := by
  cases n <;> rfl

theorem Node.kind_content (n : Node) : n.content.kind = n.kind := by
  cases n <;> rfl

theorem Heap.kind_lt_length (h : Heap) (a : Nat) (k : Kind) (hk : Heap.kind h a = some k) :
    a < h.length := by
  unfold Heap.kind at hk
  cases hg : h.get? a with
  | none =>
    rw [hg] at hk
    cases hk
  | some n => exact (List.get?_eq_some.mp hg).1

theorem Heap.children_lt_length (h : Heap) (a c : Nat) (hc : c ∈ Heap.children h a) :
    a < h.length := by
  unfold Heap.children at hc
  cases hg : h.get? a with
  | none =>
    rw [hg] at hc
    cases hc
  | some n => exact (List.get?_eq_some.mp hg).1

theorem Heap.kind_update (g : Block → Block) (h : Heap) (a b : Nat) :
    Heap.kind (Heap.update (Node.mapBlk g) h a) b = Heap.kind h b := by
  unfold Heap.kind
  rw [Heap.get?_update]
  by_cases e : b = a
  · rw [if_pos e]
    cases h.get? b with
    | none => rfl
    | some n => simp only [Option.map_some', Node.kind_mapBlk]
  · rw [if_neg e]

theorem Heap.content_update_appendChild (c : Nat) (h : Heap) (a b : Nat) :
    ((Heap.update (Node.mapBlk (Block.appendChild c)) h a).get? b).map Node.content
      = (h.get? b).map Node.content := by
  rw [Heap.get?_update]
  by_cases e : b = a
  · rw [if_pos e]
    cases h.get? b with
    | none => rfl
    | some n => simp only [Option.map_some', Node.content_appendChild]
  · rw [if_neg e]

theorem Heap.content_update_setParent (p : Nat) (h : Heap) (a b : Nat) :
    ((Heap.update (Node.mapBlk (Block.setParent p)) h a).get? b).map Node.content
      = (h.get? b).map Node.content := by
  rw [Heap.get?_update]
  by_cases e : b = a
  · rw [if_pos e]
    cases h.get? b with
    | none => rfl
    | some n => simp only [Option.map_some', Node.content_setParent]
  · rw [if_neg e]

theorem Heap.children_update_appendChild (c : Nat) (h : Heap) (a b : Nat) :
    Heap.children (Heap.update (Node.mapBlk (Block.appendChild c)) h a) b
      = if b = a ∧ b < h.length then Heap.children h b ++ [c] else Heap.children h b := by
  unfold Heap.children
  rw [Heap.get?_update]
  by_cases e : b = a
  · rw [if_pos e]
    cases hg : h.get? b with
    | none =>
      have : ¬ b < h.length := by
        intro hlt
        rw [List.get?_eq_get hlt] at hg
        cases hg
      simp [this]
    | some n =>
      have : b < h.length := (List.get?_eq_some.mp hg).1
      simp only [Option.map_some', Node.blk_mapBlk, Block.appendChild]
      rw [if_pos ⟨e, this⟩]
  · rw [if_neg e]
    simp [e]

theorem Heap.children_update_setParent (p : Nat) (h : Heap) (a b : Nat) :
    Heap.children (Heap.update (Node.mapBlk (Block.setParent p)) h a) b
      = Heap.children h b := by
  unfold Heap.children
  rw [Heap.get?_update]
  by_cases e : b = a
  · rw [if_pos e]
    cases h.get? b with
    | none => rfl
    | some n => simp only [Option.map_some', Node.blk_mapBlk, Block.setParent]
  · rw [if_neg e]

theorem Heap.parent_update_appendChild (c : Nat) (h : Heap) (a b : Nat) :
    Heap.parent (Heap.update (Node.mapBlk (Block.appendChild c)) h a) b
      = Heap.parent h b := by
  unfold Heap.parent
  rw [Heap.get?_update]
  by_cases e : b = a
  · rw [if_pos e]
    cases h.get? b with
    | none => rfl
    | some n => simp only [Option.map_some', Node.blk_mapBlk, Block.appendChild]
  · rw [if_neg e]

theorem Heap.parent_update_setParent (p : Nat) (h : Heap) (a b : Nat) :
    Heap.parent (Heap.update (Node.mapBlk (Block.setParent p)) h a) b
      = if b = a ∧ b < h.length then some p else Heap.parent h b := by
  unfold Heap.parent
  rw [Heap.get?_update]
  by_cases e : b = a
  · rw [if_pos e]
    cases hg : h.get? b with
    | none =>
      have : ¬ b < h.length := by
        intro hlt
        rw [List.get?_eq_get hlt] at hg
        cases hg
      simp [this]
    | some n =>
      have : b < h.length := (List.get?_eq_some.mp hg).1
      simp only [Option.map_some', Node.blk_mapBlk, Block.setParent]
      rw [if_pos ⟨e, this⟩]
  · rw [if_neg e]
    simp [e]

theorem Heap.level_update_appendChild (c : Nat) (h : Heap) (a b : Nat) :
    Heap.level (Heap.update (Node.mapBlk (Block.appendChild c)) h a) b = Heap.level h b := by
  unfold Heap.level
  rw [Heap.get?_update]
  by_cases e : b = a
  · rw [if_pos e]
    cases h.get? b with
    | none => rfl
    | some n => simp only [Option.map_some', Node.blk_mapBlk, Block.appendChild]
  · rw [if_neg e]

theorem Heap.level_update_setParent (p : Nat) (h : Heap) (a b : Nat) :
    Heap.level (Heap.update (Node.mapBlk (Block.setParent p)) h a) b = Heap.level h b := by
  unfold Heap.level
  rw [Heap.get?_update]
  by_cases e : b = a
  · rw [if_pos e]
    cases h.get? b with
    | none => rfl
    | some n => simp only [Option.map_some', Node.blk_mapBlk, Block.setParent]
  · rw [if_neg e]

/-! ### `AddChild` -/

theorem AddChild_cases (h : Heap) (b c : Nat) :
    (AddChild h b c
        = Heap.update (Node.mapBlk (Block.setParent b))
            (Heap.update (Node.mapBlk (Block.appendChild c)) h b) c ∧
      ∃ k, Heap.kind h c = some k ∧ k.hasCase = true) ∨
    (AddChild h b c = Heap.update (Node.mapBlk (Block.appendChild c)) h b ∧
      ∀ k, Heap.kind h c = some k → k.hasCase = false) := by
  unfold AddChild
  simp only [Heap.kind_update]
  cases hk : Heap.kind h c with
  | none => right; simp
  | some k => cases k <;> simp [Kind.hasCase]

theorem AddChild_length (h : Heap) (b c : Nat) : (AddChild h b c).length = h.length := by
  rcases AddChild_cases h b c with ⟨e, -⟩ | ⟨e, -⟩ <;> rw [e] <;> simp [Heap.update_length]

theorem AddChild_kind (h : Heap) (b c a : Nat) :
    Heap.kind (AddChild h b c) a = Heap.kind h a := by
  rcases AddChild_cases h b c with ⟨e, -⟩ | ⟨e, -⟩ <;> rw [e] <;> simp [Heap.kind_update]

theorem AddChild_level (h : Heap) (b c a : Nat) :
    Heap.level (AddChild h b c) a = Heap.level h a := by
  rcases AddChild_cases h b c with ⟨e, -⟩ | ⟨e, -⟩ <;> rw [e] <;>
    simp [Heap.level_update_appendChild, Heap.level_update_setParent]

theorem AddChild_content (h : Heap) (b c a : Nat) :
    ((AddChild h b c).get? a).map Node.content = (h.get? a).map Node.content := by
  rcases AddChild_cases h b c with ⟨e, -⟩ | ⟨e, -⟩ <;> rw [e]
  · rw [Heap.content_update_setParent, Heap.content_update_appendChild]
  · rw [Heap.content_update_appendChild]

theorem AddChild_children (h : Heap) (b c a : Nat) :
    Heap.children (AddChild h b c) a
      = if a = b ∧ a < h.length then Heap.children h a ++ [c] else Heap.children h a := by
  rcases AddChild_cases h b c with ⟨e, -⟩ | ⟨e, -⟩ <;> rw [e]
  · rw [Heap.children_update_setParent, Heap.children_update_appendChild]
  · rw [Heap.children_update_appendChild]

theorem AddChild_parent (h : Heap) (b c a : Nat) (k : Kind) (hk : Heap.kind h c = some k)
    (hcase : k.hasCase = true) :
    Heap.parent (AddChild h b c) a = if a = c then some b else Heap.parent h a := by
  have hlt := Heap.kind_lt_length h c k hk
  rcases AddChild_cases h b c with ⟨e, -⟩ | ⟨e, hno⟩
  · rw [e, Heap.parent_update_setParent, Heap.parent_update_appendChild, Heap.update_length]
    by_cases e1 : a = c
    · subst e1
      simp [hlt]
    · simp [e1]
  · rw [hno k hk] at hcase
    cases hcase


/-! ### Allocation followed by `AddChild` -/

theorem Heap.get?_append_new (h : Heap) (n : Node) (a : Nat) :
    (h ++ [n]).get? a = if a < h.length then h.get? a
      else if a = h.length then some n else none := by
  by_cases h1 : a < h.length
  · rw [if_pos h1]
    simp [List.getElem?_append_left, h1]
  · rw [if_neg h1]
    by_cases h2 : a = h.length
    · rw [if_pos h2]
      subst h2
      simp
    · rw [if_neg h2]
      have : h.length + 1 ≤ a := by omega
      simp [List.getElem?_eq_none, this]

theorem attach_length (h : Heap) (n : Node) (t : Nat) :
    (attach h n t).length = h.length + 1 := by
  unfold attach
  rw [AddChild_length]
  simp

theorem attach_kind_old (h : Heap) (n : Node) (t a : Nat) (ha : a < h.length) :
    Heap.kind (attach h n t) a = Heap.kind h a := by
  unfold attach
  rw [AddChild_kind]
  unfold Heap.kind
  rw [Heap.get?_append_new, if_pos ha]

theorem attach_kind_new (h : Heap) (n : Node) (t : Nat) :
    Heap.kind (attach h n t) h.length = some n.kind := by
  unfold attach
  rw [AddChild_kind]
  unfold Heap.kind
  rw [Heap.get?_append_new, if_neg (lt_irrefl _), if_pos rfl]

theorem attach_level_old (h : Heap) (n : Node) (t a : Nat) (ha : a < h.length) :
    Heap.level (attach h n t) a = Heap.level h a := by
  unfold attach
  rw [AddChild_level]
  unfold Heap.level
  rw [Heap.get?_append_new, if_pos ha]

theorem attach_level_new (h : Heap) (n : Node) (t : Nat) :
    Heap.level (attach h n t) h.length = some n.blk.Level := by
  unfold attach
  rw [AddChild_level]
  unfold Heap.level
  rw [Heap.get?_append_new, if_neg (lt_irrefl _), if_pos rfl]

theorem attach_content_old (h : Heap) (n : Node) (t a : Nat) (ha : a < h.length) :
    ((attach h n t).get? a).map Node.content = (h.get? a).map Node.content := by
  unfold attach
  rw [AddChild_content, Heap.get?_append_new, if_pos ha]

theorem attach_content_new (h : Heap) (n : Node) (t : Nat) :
    ((attach h n t).get? h.length).map Node.content = some n.content := by
  unfold attach
  rw [AddChild_content, Heap.get?_append_new, if_neg (lt_irrefl _), if_pos rfl]
  rfl

theorem attach_children_old (h : Heap) (n : Node) (t a : Nat) (ha : a < h.length) :
    Heap.children (attach h n t) a
      = if a = t then Heap.children h a ++ [h.length] else Heap.children h a := by
  unfold attach
  rw [AddChild_children]
  have e : Heap.children (h ++ [n]) a = Heap.children h a := by
    unfold Heap.children
    rw [Heap.get?_append_new, if_pos ha]
  have hlen : a < (h ++ [n]).length := by simp; omega
  rw [e]
  by_cases e1 : a = t
  · rw [if_pos ⟨e1, hlen⟩, if_pos e1]
  · rw [if_neg (fun hh => e1 hh.1), if_neg e1]

theorem attach_children_new (h : Heap) (n : Node) (t : Nat) (hfresh : n.blk.Children = []) :
    Heap.children (attach h n t) h.length = if t = h.length then [h.length] else [] := by
  unfold attach
  rw [AddChild_children]
  have e : Heap.children (h ++ [n]) h.length = [] := by
    unfold Heap.children
    rw [Heap.get?_append_new, if_neg (lt_irrefl _), if_pos rfl]
    exact hfresh
  have hlen : h.length < (h ++ [n]).length := by simp
  rw [e]
  by_cases e1 : h.length = t
  · rw [if_pos ⟨e1, hlen⟩, if_pos e1.symm]
    rfl
  · rw [if_neg (fun hh => e1 hh.1), if_neg (fun hh => e1 hh.symm)]

theorem attach_children_mem (h : Heap) (n : Node) (t a c : Nat)
    (hfresh : n.blk.Children = []) (hc : c ∈ Heap.children (attach h n t) a) :
    (a < h.length ∧ c ∈ Heap.children h a) ∨ (a = t ∧ c = h.length ∧ t ≤ h.length) := by
  have ha : a < h.length + 1 := by
    have := Heap.children_lt_length _ _ _ hc
    rwa [attach_length] at this
  by_cases hlt : a < h.length
  · rw [attach_children_old h n t a hlt] at hc
    by_cases e : a = t
    · rw [if_pos e] at hc
      rcases List.mem_append.mp hc with hc | hc
      · exact Or.inl ⟨hlt, hc⟩
      · right
        refine ⟨e, by simpa using hc, ?_⟩
        omega
    · rw [if_neg e] at hc
      exact Or.inl ⟨hlt, hc⟩
  · have e : a = h.length := by omega
    subst e
    rw [attach_children_new h n t hfresh] at hc
    by_cases e1 : t = h.length
    · rw [if_pos e1] at hc
      right
      refine ⟨e1.symm, by simpa using hc, ?_⟩
      omega
    · rw [if_neg e1] at hc
      simp at hc

theorem attach_parent_old (h : Heap) (n : Node) (t a : Nat) (hcase : n.kind.hasCase = true)
    (ha : a < h.length) : Heap.parent (attach h n t) a = Heap.parent h a := by
  have hk : Heap.kind (h ++ [n]) h.length = some n.kind := by
    unfold Heap.kind
    rw [Heap.get?_append_new, if_neg (lt_irrefl _), if_pos rfl]
  unfold attach
  rw [AddChild_parent _ _ _ _ n.kind hk hcase, if_neg (by omega)]
  unfold Heap.parent
  rw [Heap.get?_append_new, if_pos ha]

theorem attach_parent_new (h : Heap) (n : Node) (t : Nat) (hcase : n.kind.hasCase = true) :
    Heap.parent (attach h n t) h.length = some t := by
  have hk : Heap.kind (h ++ [n]) h.length = some n.kind := by
    unfold Heap.kind
    rw [Heap.get?_append_new, if_neg (lt_irrefl _), if_pos rfl]
  unfold attach
  rw [AddChild_parent _ _ _ _ n.kind hk hcase, if_pos rfl]


/-! ### Traversals before and after an allocation -/

theorem seqChildren_append_inv (sub : Nat → Option (List Nat)) (cs ds l : List Nat)
    (hl : seqChildren sub (cs ++ ds) = some l) :
    ∃ l1 l2, seqChildren sub cs = some l1 ∧ seqChildren sub ds = some l2 ∧ l = l1 ++ l2 := by
  induction cs generalizing l with
  | nil => exact ⟨[], l, rfl, by simpa using hl, rfl⟩
  | cons c rest ih =>
    obtain ⟨lc, lr, hlc, hlr, rfl⟩ := seqChildren_cons_some sub c (rest ++ ds) l hl
    obtain ⟨l1, l2, h1, h2, rfl⟩ := ih lr hlr
    exact ⟨c :: lc ++ l1, l2, by simp [seqChildren, hlc, h1], h2, by simp⟩

theorem seqChildren_filter_rel (q : Nat → Bool) (sub sub' : Nat → Option (List Nat))
    (cs l : List Nat)
    (hsub : ∀ d ∈ cs, ∀ ld, sub d = some ld →
      ∃ ld', sub' d = some ld' ∧ ld'.filter q = ld.filter q)
    (hl : seqChildren sub cs = some l) :
    ∃ l', seqChildren sub' cs = some l' ∧ l'.filter q = l.filter q := by
  induction cs generalizing l with
  | nil => exact ⟨[], rfl, by simp [seqChildren] at hl; simp [← hl]⟩
  | cons c rest ih =>
    obtain ⟨lc, lr, hlc, hlr, rfl⟩ := seqChildren_cons_some sub c rest l hl
    obtain ⟨lc', hlc', e1⟩ := hsub c (List.mem_cons_self _ _) lc hlc
    obtain ⟨lr', hlr', e2⟩ := ih lr (fun d hd => hsub d (List.mem_cons_of_mem _ hd)) hlr
    refine ⟨c :: lc' ++ lr', by simp [seqChildren, hlc', hlr'], ?_⟩
    simp only [List.cons_append, List.filter_cons, List.filter_append, e1, e2]

theorem visitSeq_leaf (h : Heap) (fuel : Nat) (ty : Kind) (a : Nat)
    (hch : Heap.children h a = []) : visitSeq h (fuel + 1) ty a = some [] := by
  rw [visitSeq_succ, hch]
  split <;> rfl

theorem visitSeq_mem_child (h : Heap) (fuel : Nat) :
    ∀ ty node l, visitSeq h fuel ty node = some l → ∀ x ∈ l, ∃ a, x ∈ Heap.children h a := by
  induction fuel with
  | zero => intro ty node l hl; simp [visitSeq] at hl
  | succ fuel ih =>
    intro ty node l hl x hx
    rw [visitSeq_succ] at hl
    split at hl
    · obtain ⟨c, hc, hxc⟩ := seqChildren_mem _ _ _ hl x hx
      rcases hxc with rfl | ⟨lc, hlc, hxlc⟩
      · exact ⟨node, hc⟩
      · cases hk : Heap.kind h c with
        | none =>
          simp only [hk, Option.some.injEq] at hlc
          subst hlc
          simp at hxlc
        | some cty =>
          simp only [hk] at hlc
          exact ih cty c lc hlc x hxlc
    · simp only [Option.some.injEq] at hl
      subst hl
      simp at hx

theorem visitSeq_listItems (h : Heap)
    (hLI : ∀ a c, c ∈ Heap.children h a → Heap.kind h a = some Kind.listItem →
      Heap.kind h c = some Kind.listItem)
    (hPar : ∀ a c, c ∈ Heap.children h a →
      a = 0 ∨ Heap.kind h a = some Kind.section ∨ Heap.kind h a = some Kind.listItem)
    (hR : ∀ a c, c ∈ Heap.children h a → 0 < c ∧ c < h.length) (fuel : Nat) :
    ∀ ty d l, d ≠ 0 → Heap.kind h d ≠ some Kind.section → visitSeq h fuel ty d = some l →
      ∀ x ∈ l, Heap.kind h x = some Kind.listItem := by
  induction fuel with
  | zero => intro ty d l _ _ hl; simp [visitSeq] at hl
  | succ fuel ih =>
    intro ty d l hd0 hdsec hl x hx
    rw [visitSeq_succ] at hl
    split at hl
    · obtain ⟨c, hc, hxc⟩ := seqChildren_mem _ _ _ hl x hx
      have hdLI : Heap.kind h d = some Kind.listItem := by
        rcases hPar d c hc with h0 | hs | hli
        · exact absurd h0 hd0
        · exact absurd hs hdsec
        · exact hli
      have hcLI := hLI d c hc hdLI
      rcases hxc with rfl | ⟨lc, hlc, hxlc⟩
      · exact hcLI
      · simp only [hcLI] at hlc
        refine ih _ c lc ?_ ?_ hlc x hxlc
        · have := (hR d c hc).1
          omega
        · rw [hcLI]
          simp
    · simp only [Option.some.injEq] at hl
      subst hl
      simp at hx

theorem visitSeq_attach_unvisited (h : Heap) (n : Node) (t : Nat)
    (hR : ∀ a c, c ∈ Heap.children h a → 0 < c ∧ c < h.length) (fuel : Nat) :
    ∀ ty c l, c < h.length → c ≠ t → visitSeq h fuel ty c = some l → t ∉ l →
      visitSeq (attach h n t) fuel ty c = some l := by
  induction fuel with
  | zero => intro ty c l _ _ hl; simp [visitSeq] at hl
  | succ fuel ih =>
    intro ty c l hc hct hl ht
    rw [visitSeq_succ] at hl ⊢
    split
    · rename_i hcase
      rw [if_pos hcase] at hl
      rw [attach_children_old h n t c hc, if_neg hct]
      refine seqChildren_congr _ _ _ _ ?_ hl
      intro d hd ld hld
      have hdlt := (hR c d hd).2
      obtain ⟨ld0, hld0, hdl, hall⟩ := seqChildren_child _ _ _ hl d hd
      rw [hld] at hld0
      cases hld0
      rw [attach_kind_old h n t d hdlt]
      cases hk : Heap.kind h d with
      | none => simpa [hk] using hld
      | some cty =>
        simp only [hk] at hld ⊢
        refine ih cty d ld hdlt ?_ hld ?_
        · rintro rfl
          exact ht hdl
        · intro hmem
          exact ht (hall t hmem)
    · rename_i hcase
      rw [if_neg hcase] at hl
      exact hl

theorem visitSeq_attach_filter (h : Heap) (n : Node) (t : Nat) (q : Nat → Bool)
    (hR : ∀ a c, c ∈ Heap.children h a → 0 < c ∧ c < h.length)
    (hfresh : n.blk.Children = []) (hq : q h.length = false) (fuel : Nat) :
    ∀ ty a l, a < h.length → visitSeq h fuel ty a = some l →
      ∃ l', visitSeq (attach h n t) (fuel + 1) ty a = some l' ∧ l'.filter q = l.filter q := by
  induction fuel with
  | zero => intro ty a l _ hl; simp [visitSeq] at hl
  | succ fuel ih =>
    intro ty a l ha hl
    rw [visitSeq_succ] at hl
    rw [visitSeq_succ]
    split
    · rename_i hcase
      rw [if_pos hcase] at hl
      have hold : ∃ l', seqChildren
          (fun child =>
            match Heap.kind (attach h n t) child with
            | some cty => visitSeq (attach h n t) (fuel + 1) cty child
            | none => some [])
          (Heap.children h a) = some l' ∧ l'.filter q = l.filter q := by
        refine seqChildren_filter_rel q _ _ _ _ ?_ hl
        intro d hd ld hld
        have hdlt := (hR a d hd).2
        rw [attach_kind_old h n t d hdlt]
        cases hk : Heap.kind h d with
        | none => exact ⟨ld, by simpa [hk] using hld, rfl⟩
        | some cty =>
          simp only [hk] at hld ⊢
          exact ih cty d ld hdlt hld
      obtain ⟨l', hl', e⟩ := hold
      rw [attach_children_old h n t a ha]
      by_cases hat : a = t
      · rw [if_pos hat]
        have hnew : seqChildren
            (fun child =>
              match Heap.kind (attach h n t) child with
              | some cty => visitSeq (attach h n t) (fuel + 1) cty child
              | none => some [])
            [h.length] = some [h.length] := by
          have hk := attach_kind_new h n t
          have hch : Heap.children (attach h n t) h.length = [] := by
            rw [attach_children_new h n t hfresh, if_neg (by omega)]
          simp only [seqChildren, hk, visitSeq_leaf _ _ _ _ hch, List.append_nil]
        refine ⟨l' ++ [h.length], seqChildren_append _ _ _ _ _ hl' hnew, ?_⟩
        simp [List.filter_append, e, hq]
      · rw [if_neg hat]
        exact ⟨l', hl', e⟩
    · rename_i hcase
      rw [if_neg hcase] at hl
      exact ⟨l, hl, rfl⟩


/-! ### The rightmost chain -/

theorem sub_attach_offspine (h : Heap) (n : Node) (P : Nat)
    (hR : ∀ a c, c ∈ Heap.children h a → 0 < c ∧ c < h.length)
    (hLI : ∀ a c, c ∈ Heap.children h a → Heap.kind h a = some Kind.listItem →
      Heap.kind h c = some Kind.listItem)
    (hPar : ∀ a c, c ∈ Heap.children h a →
      a = 0 ∨ Heap.kind h a = some Kind.section ∨ Heap.kind h a = some Kind.listItem)
    (hPk : P = 0 ∨ Heap.kind h P = some Kind.section)
    (h0 : Heap.kind h 0 = some Kind.block)
    (a d : Nat) (hd : d ∈ Heap.children h a) (hds : Heap.kind h d ≠ some Kind.section)
    (fuel : Nat) (ld : List Nat)
    (hld : (match Heap.kind h d with
      | some cty => visitSeq h fuel cty d
      | none => some []) = some ld) :
    (match Heap.kind (attach h n P) d with
      | some cty => visitSeq (attach h n P) (fuel + 1) cty d
      | none => some []) = some ld := by
  obtain ⟨hd0, hdlt⟩ := hR a d hd
  rw [attach_kind_old h n P d hdlt]
  have hPnotLI : Heap.kind h P ≠ some Kind.listItem := by
    rcases hPk with rfl | hs
    · rw [h0]; simp
    · rw [hs]; simp
  cases hk : Heap.kind h d with
  | none => simpa [hk] using hld
  | some cty =>
    simp only [hk] at hld ⊢
    apply visitSeq_mono_succ
    refine visitSeq_attach_unvisited h n P hR fuel cty d ld hdlt ?_ hld ?_
    · rintro rfl
      rcases hPk with e | hs
      · omega
      · exact hds hs
    · intro hmem
      exact hPnotLI
        (visitSeq_listItems h hLI hPar hR fuel cty d ld (by omega) hds hld P hmem)

theorem visitSeq_attach_spine (h : Heap) (n : Node) (P : Nat)
    (hR : ∀ a c, c ∈ Heap.children h a → 0 < c ∧ c < h.length)
    (hLI : ∀ a c, c ∈ Heap.children h a → Heap.kind h a = some Kind.listItem →
      Heap.kind h c = some Kind.listItem)
    (hPar : ∀ a c, c ∈ Heap.children h a →
      a = 0 ∨ Heap.kind h a = some Kind.section ∨ Heap.kind h a = some Kind.listItem)
    (hP : P < h.length) (hPk : P = 0 ∨ Heap.kind h P = some Kind.section)
    (h0 : Heap.kind h 0 = some Kind.block)
    (hPsec : ∀ c ∈ Heap.children h P, Heap.kind h c ≠ some Kind.section)
    (hfresh : n.blk.Children = []) (a : Nat) (hs : Spine h P a) :
    ∀ fuel ty l, ty.hasCase = true → visitSeq h fuel ty a = some l →
      visitSeq (attach h n P) (fuel + 1) ty a = some (l ++ [h.length]) := by
  induction hs with
  | here =>
    intro fuel ty l hcase hl
    cases fuel with
    | zero => simp [visitSeq] at hl
    | succ fuel =>
      rw [visitSeq_succ, if_pos hcase] at hl
      rw [visitSeq_succ, if_pos hcase, attach_children_old h n P P hP, if_pos rfl]
      apply seqChildren_append
      · refine seqChildren_congr _ _ _ _ ?_ hl
        intro d hd ld hld
        exact sub_attach_offspine h n P hR hLI hPar hPk h0 P d hd (hPsec d hd) fuel ld hld
      · have hk := attach_kind_new h n P
        have hch : Heap.children (attach h n P) h.length = [] := by
          rw [attach_children_new h n P hfresh, if_neg (by omega)]
        simp only [seqChildren, hk, visitSeq_leaf _ _ _ _ hch, List.append_nil]
  | down x c cs hxP _ hch hck hcs _ ih =>
    intro fuel ty l hcase hl
    cases fuel with
    | zero => simp [visitSeq] at hl
    | succ fuel =>
      have hcmem : c ∈ Heap.children h x := by rw [hch]; simp
      have hxlt : x < h.length := Heap.children_lt_length h x c hcmem
      have hclt : c < h.length := (hR x c hcmem).2
      rw [visitSeq_succ, if_pos hcase, hch] at hl
      rw [visitSeq_succ, if_pos hcase, attach_children_old h n P x hxlt, if_neg hxP, hch]
      obtain ⟨l1, l2, h1, h2, rfl⟩ := seqChildren_append_inv _ _ _ _ hl
      obtain ⟨lc, lr, hlc, hlr, rfl⟩ := seqChildren_cons_some _ _ _ _ h2
      simp only [seqChildren, Option.some.injEq] at hlr
      subst hlr
      simp only [hck] at hlc
      have hnew := ih fuel Kind.section lc rfl hlc
      have hlast : seqChildren
          (fun child =>
            match Heap.kind (attach h n P) child with
            | some cty => visitSeq (attach h n P) (fuel + 1) cty child
            | none => some [])
          [c] = some (c :: (lc ++ [h.length])) := by
        simp only [seqChildren, attach_kind_old h n P c hclt, hck, hnew, List.append_nil]
      have hfirst : seqChildren
          (fun child =>
            match Heap.kind (attach h n P) child with
            | some cty => visitSeq (attach h n P) (fuel + 1) cty child
            | none => some [])
          cs = some l1 := by
        refine seqChildren_congr _ _ _ _ ?_ h1
        intro d hd ld hld
        have hdmem : d ∈ Heap.children h x := by rw [hch]; simp [hd]
        exact sub_attach_offspine h n P hR hLI hPar hPk h0 x d hdmem (hcs d hd) fuel ld hld
      have := seqChildren_append _ _ _ _ _ hfirst hlast
      rw [this]
      simp

theorem Spine_attach_same (h : Heap) (n : Node) (P t : Nat)
    (hR : ∀ a c, c ∈ Heap.children h a → 0 < c ∧ c < h.length)
    (ht : t = P ∨ t = h.length ∨ Heap.kind h t = some Kind.listItem)
    (a : Nat) (hs : Spine h P a) : Spine (attach h n t) P a := by
  induction hs with
  | here => exact Spine.here
  | down x c cs hxP hxk hch hck hcs _ ih =>
    have hcmem : c ∈ Heap.children h x := by rw [hch]; simp
    have hxlt : x < h.length := Heap.children_lt_length h x c hcmem
    have hclt : c < h.length := (hR x c hcmem).2
    have hxt : x ≠ t := by
      rcases ht with rfl | rfl | hk
      · exact hxP
      · omega
      · rintro rfl
        exact hxk hk
    refine Spine.down x c cs hxP ?_ ?_ ?_ ?_ ih
    · rwa [attach_kind_old h n t x hxlt]
    · rw [attach_children_old h n t x hxlt, if_neg hxt, hch]
    · rwa [attach_kind_old h n t c hclt]
    · intro d hd
      have hdmem : d ∈ Heap.children h x := by rw [hch]; simp [hd]
      rw [attach_kind_old h n t d (hR x d hdmem).2]
      exact hcs d hd

theorem Spine_attach_extend (h : Heap) (n : Node) (P : Nat)
    (hR : ∀ a c, c ∈ Heap.children h a → 0 < c ∧ c < h.length)
    (hP : P < h.length) (hPk : P = 0 ∨ Heap.kind h P = some Kind.section)
    (h0 : Heap.kind h 0 = some Kind.block)
    (hPsec : ∀ c ∈ Heap.children h P, Heap.kind h c ≠ some Kind.section)
    (hn : n.kind = Kind.section)
    (a : Nat) (hs : Spine h P a) : Spine (attach h n P) h.length a := by
  induction hs with
  | here =>
    refine Spine.down P h.length (Heap.children h P) (by omega) ?_ ?_ ?_ ?_ Spine.here
    · rw [attach_kind_old h n P P hP]
      rcases hPk with rfl | hs
      · rw [h0]; simp
      · rw [hs]; simp
    · rw [attach_children_old h n P P hP, if_pos rfl]
    · rw [attach_kind_new, hn]
    · intro d hd
      rw [attach_kind_old h n P d (hR P d hd).2]
      exact hPsec d hd
  | down x c cs hxP hxk hch hck hcs _ ih =>
    have hcmem : c ∈ Heap.children h x := by rw [hch]; simp
    have hxlt : x < h.length := Heap.children_lt_length h x c hcmem
    have hclt : c < h.length := (hR x c hcmem).2
    refine Spine.down x c cs (by omega) ?_ ?_ ?_ ?_ ih
    · rwa [attach_kind_old h n P x hxlt]
    · rw [attach_children_old h n P x hxlt, if_neg hxP, hch]
    · rwa [attach_kind_old h n P c hclt]
    · intro d hd
      have hdmem : d ∈ Heap.children h x := by rw [hch]; simp [hd]
      rw [attach_kind_old h n P d (hR x d hdmem).2]
      exact hcs d hd


/-! ### Records and the nodes built from them -/

theorem NewBlock_fresh (m : List (String × JSON)) :
    (NewBlock m).Children = [] ∧ (NewBlock m).Parent = none := ⟨rfl, rfl⟩

theorem newNode_fresh (tag : String) (m : List (String × JSON)) (n : Node)
    (hn : newNode tag m = some n) :
    n.blk.Children = [] ∧ n.blk.Parent = none ∧ n.kind.hasCase = true := by
  unfold newNode at hn
  split_ifs at hn
  · cases hn; exact ⟨rfl, rfl, rfl⟩
  · unfold NewTable at hn
    cases h1 : (JSON.index m "name").asString with
    | none => simp [h1] at hn
    | some name =>
      simp only [h1] at hn
      cases h2 : (JSON.index m "table_rows").asArray with
      | none =>
        simp only [h2, Option.some.injEq] at hn
        subst hn
        exact ⟨rfl, rfl, rfl⟩
      | some rows =>
        simp only [h2] at hn
        cases h3 : newTableRows rows [] [] with
        | none => simp [h3] at hn
        | some p =>
          obtain ⟨a, b⟩ := p
          simp only [h3, Option.some.injEq] at hn
          subst hn
          exact ⟨rfl, rfl, rfl⟩
  · cases hn; exact ⟨rfl, rfl, rfl⟩
  · cases hn; exact ⟨rfl, rfl, rfl⟩
  · cases hn; exact ⟨rfl, rfl, rfl⟩

theorem newNode_kind (tag : String) (m : List (String × JSON)) (n : Node)
    (hn : newNode tag m = some n) :
    n.kind = if tag = "para" then Kind.paragraph
      else if tag = "table" then Kind.table
      else if tag = "list_item" then Kind.listItem
      else if tag = "header" then Kind.section
      else Kind.block := by
  unfold newNode at hn
  split_ifs at hn with h1 h2 h3 h4
  · cases hn; simp [h1, Node.kind]
  · cases ht : NewTable m with
    | none => simp [ht] at hn
    | some t =>
      simp only [ht, Option.some.injEq] at hn
      subst hn
      simp [h1, h2, Node.kind]
  · cases hn; simp [h1, h2, h3, Node.kind]
  · cases hn; simp [h1, h2, h3, h4, Node.kind]
  · cases hn; simp [h1, h2, h3, h4, Node.kind]

theorem newNode_listItem (tag : String) (m : List (String × JSON)) (n : Node)
    (hn : newNode tag m = some n) : n.kind = Kind.listItem ↔ tag = "list_item" := by
  rw [newNode_kind tag m n hn]
  split_ifs with h1 h2 h3 h4 <;> simp_all

theorem newNode_section (tag : String) (m : List (String × JSON)) (n : Node)
    (hn : newNode tag m = some n) : n.kind = Kind.section ↔ tag = "header" := by
  rw [newNode_kind tag m n hn]
  split_ifs with h1 h2 h3 h4 <;> simp_all

theorem kind_of_content (h : Heap) (a : Nat) (n : Node)
    (hc : (h.get? a).map Node.content = some n.content) : Heap.kind h a = some n.kind := by
  unfold Heap.kind
  cases hg : h.get? a with
  | none =>
    rw [hg] at hc
    cases hc
  | some x =>
    rw [hg] at hc
    simp only [Option.map_some', Option.some.injEq] at hc
    have := congrArg Node.kind hc
    rw [Node.kind_content, Node.kind_content] at this
    show some x.kind = some n.kind
    rw [this]

theorem lastHeaderFrom_snoc (addr last : Nat) (rs : List JSON) (r : JSON) :
    lastHeaderFrom addr last (rs ++ [r])
      = if isHeaderRecord r then addr + rs.length else lastHeaderFrom addr last rs := by
  induction rs generalizing addr last with
  | nil => simp [lastHeaderFrom]
  | cons x rs ih =>
    rw [List.cons_append, lastHeaderFrom, lastHeaderFrom, ih, List.length_cons]
    have : addr + 1 + rs.length = addr + (rs.length + 1) := by omega
    rw [this]

theorem lastHeaderAddr_snoc (rs : List JSON) (r : JSON) :
    lastHeaderAddr (rs ++ [r])
      = if isHeaderRecord r then rs.length + 1 else lastHeaderAddr rs := by
  unfold lastHeaderAddr
  rw [lastHeaderFrom_snoc, Nat.add_comm 1 rs.length]

theorem recordAddrs_snoc (p : JSON → Bool) (addr : Nat) (rs : List JSON) (r : JSON) :
    recordAddrs p addr (rs ++ [r])
      = recordAddrs p addr rs ++ if p r then [addr + rs.length] else [] := by
  induction rs generalizing addr with
  | nil => simp [recordAddrs]
  | cons x rs ih =>
    rw [List.cons_append, recordAddrs, recordAddrs, ih, List.length_cons]
    have : addr + 1 + rs.length = addr + (rs.length + 1) := by omega
    rw [this]
    split <;> simp

theorem filter_range_eq_recordAddrs (q : Nat → Bool) (p : JSON → Bool) (rs : List JSON) :
    ∀ addr, (∀ i r, rs.get? i = some r → q (addr + i) = p r) →
      (List.range' addr rs.length).filter q = recordAddrs p addr rs := by
  induction rs with
  | nil => intro addr _; simp [recordAddrs]
  | cons x rs ih =>
    intro addr hq
    have h0 : q addr = p x := by simpa using hq 0 x (by simp)
    have hrest : ∀ i r, rs.get? i = some r → q (addr + 1 + i) = p r := by
      intro i r hi
      have := hq (i + 1) r (by simpa using hi)
      rwa [show addr + (i + 1) = addr + 1 + i by omega] at this
    simp only [List.length_cons, List.range'_succ, List.filter_cons, recordAddrs, h0,
      ih (addr + 1) hrest]


/-! ### Preservation of the heap invariant -/

theorem Heap.children_of_ge (h : Heap) (a : Nat) (ha : h.length ≤ a) :
    Heap.children h a = [] := by
  cases hc : Heap.children h a with
  | nil => rfl
  | cons c cs =>
    have := Heap.children_lt_length h a c (by rw [hc]; exact List.mem_cons_self _ _)
    omega

theorem attach_children_sub (h : Heap) (n : Node) (t a c : Nat)
    (hc : c ∈ Heap.children h a) : c ∈ Heap.children (attach h n t) a := by
  have ha := Heap.children_lt_length h a c hc
  rw [attach_children_old h n t a ha]
  split
  · exact List.mem_append_left _ hc
  · exact hc

theorem attach_children_target (h : Heap) (n : Node) (t : Nat)
    (hfresh : n.blk.Children = []) (ht : t ≤ h.length) :
    h.length ∈ Heap.children (attach h n t) t := by
  rcases Nat.lt_or_ge t h.length with hlt | hge
  · rw [attach_children_old h n t t hlt, if_pos rfl]
    simp
  · have e : t = h.length := by omega
    subst e
    rw [attach_children_new h n _ hfresh, if_pos rfl]
    simp

theorem attach_children_getLast (h : Heap) (n : Node) (t : Nat) (ht : t < h.length) :
    (Heap.children (attach h n t) t).getLast? = some h.length := by
  rw [attach_children_old h n t t ht, if_pos rfl]
  simp

theorem HeapInv_attach (h : Heap) (n : Node) (t : Nat) (hi : HeapInv h)
    (hlen : 0 < h.length) (hfresh : n.blk.Children = []) (hcase : n.kind.hasCase = true)
    (htle : t ≤ h.length) (hself : t = h.length → n.kind = Kind.listItem)
    (htk : t < h.length → t = 0 ∨ Heap.kind h t = some Kind.section ∨
      (Heap.kind h t = some Kind.listItem ∧ n.kind = Kind.listItem)) :
    HeapInv (attach h n t) where
  rootKind := by rw [attach_kind_old h n t 0 hlen]; exact hi.rootKind
  childRange := by
    intro a c hc
    rw [attach_length]
    rcases attach_children_mem h n t a c hfresh hc with ⟨_, hold⟩ | ⟨_, rfl, _⟩
    · have := hi.childRange a c hold
      omega
    · omega
  childGe := by
    intro a c hc
    rcases attach_children_mem h n t a c hfresh hc with ⟨_, hold⟩ | ⟨rfl, rfl, hle⟩
    · exact hi.childGe a c hold
    · exact hle
  childOfListItem := by
    intro a c hc hk
    rcases attach_children_mem h n t a c hfresh hc with ⟨ha, hold⟩ | ⟨rfl, rfl, hle⟩
    · rw [attach_kind_old h n t a ha] at hk
      rw [attach_kind_old h n t c (hi.childRange a c hold).2]
      exact hi.childOfListItem a c hold hk
    · rw [attach_kind_new]
      rcases Nat.lt_or_ge a h.length with hlt | hge
      · rw [attach_kind_old h n a a hlt] at hk
        rcases htk hlt with e | e | ⟨_, e⟩
        · subst e
          rw [hi.rootKind] at hk
          cases hk
        · rw [e] at hk
          cases hk
        · rw [e]
      · rw [hself (by omega)]
  parentKinds := by
    intro a c hc
    rcases attach_children_mem h n t a c hfresh hc with ⟨ha, hold⟩ | ⟨rfl, rfl, hle⟩
    · rw [attach_kind_old h n t a ha]
      exact hi.parentKinds a c hold
    · rcases Nat.lt_or_ge a h.length with hlt | hge
      · rw [attach_kind_old h n a a hlt]
        rcases htk hlt with e | e | ⟨e, _⟩
        · exact Or.inl e
        · exact Or.inr (Or.inl e)
        · exact Or.inr (Or.inr e)
      · have e : a = h.length := by omega
        subst e
        rw [attach_kind_new, hself rfl]
        exact Or.inr (Or.inr rfl)
  parentOfChild := by
    intro a c hc
    rcases attach_children_mem h n t a c hfresh hc with ⟨_, hold⟩ | ⟨rfl, rfl, _⟩
    · rw [attach_parent_old h n t c hcase (hi.childRange a c hold).2]
      exact hi.parentOfChild a c hold
    · exact attach_parent_new h n a hcase
  hasParent := by
    intro c hc0 hclt
    rw [attach_length] at hclt
    rcases Nat.lt_or_ge c h.length with hlt | hge
    · obtain ⟨p, hp, hmem⟩ := hi.hasParent c hc0 hlt
      exact ⟨p, by rw [attach_parent_old h n t c hcase hlt]; exact hp,
        attach_children_sub h n t p c hmem⟩
    · have e : c = h.length := by omega
      subst e
      exact ⟨t, attach_parent_new h n t hcase, attach_children_target h n t hfresh htle⟩
  childrenNodup := by
    intro a
    rcases Nat.lt_or_ge a h.length with hlt | hge
    · rw [attach_children_old h n t a hlt]
      split
      · rw [List.nodup_append]
        refine ⟨hi.childrenNodup a, List.nodup_singleton _, ?_⟩
        intro x hx hx'
        have := (hi.childRange a x hx).2
        have e : x = h.length := by simpa using hx'
        omega
      · exact hi.childrenNodup a
    · rcases Nat.eq_or_lt_of_le hge with e | hgt
      · subst e
        rw [attach_children_new h n t hfresh]
        split <;> simp
      · rw [Heap.children_of_ge]
        · exact List.nodup_nil
        · rw [attach_length]
          omega


/-! ### The branches of the loop body -/

theorem popListStack_sub (h : Heap) (lvl : Int) (st st' : List Nat)
    (hp : popListStack h lvl st = some st') : ∀ x ∈ st', x ∈ st := by
  induction st with
  | nil =>
    simp only [popListStack, Option.some.injEq] at hp
    subst hp
    simp
  | cons top rest ih =>
    simp only [popListStack] at hp
    cases hl : listItemLevel h top with
    | none => simp [hl] at hp
    | some l =>
      simp only [hl] at hp
      split at hp
      · intro x hx
        exact List.mem_cons_of_mem _ (ih hp x hx)
      · simp only [Option.some.injEq] at hp
        subst hp
        intro x hx
        exact hx

theorem readStep_cases (s s' : ReadState) (r : JSON) (hstep : readStep s r = some s') :
    ∃ m tag n, r.asMap = some m ∧ (JSON.index m "tag").asString = some tag ∧
      newNode tag m = some n ∧
      ((tag = "list_item" ∧
          readListItem s (s.heap ++ [n]) s.heap.length (numberOr m "level") = some s') ∨
       (tag ≠ "list_item" ∧ tag = "header" ∧
          s' = readHeader s (s.heap ++ [n]) s.heap.length (numberOr m "level")) ∨
       (tag ≠ "list_item" ∧ tag ≠ "header" ∧
          s' = { heap := attach s.heap n s.parent, parent := s.parent,
                 parentStack := s.parentStack, prevNode := s.heap.length,
                 listStack := s.listStack })) := by
  unfold readStep at hstep
  cases hm : r.asMap with
  | none => simp [hm] at hstep
  | some m =>
    simp only [hm] at hstep
    cases ht : (JSON.index m "tag").asString with
    | none => simp [ht] at hstep
    | some tag =>
      simp only [ht] at hstep
      cases hn : newNode tag m with
      | none => simp [hn] at hstep
      | some n =>
        simp only [hn] at hstep
        refine ⟨m, tag, n, rfl, ht, hn, ?_⟩
        by_cases h1 : tag = "list_item"
        · left
          rw [if_pos h1] at hstep
          exact ⟨h1, hstep⟩
        · right
          rw [if_neg h1] at hstep
          by_cases h2 : tag = "header"
          · left
            rw [if_pos h2] at hstep
            exact ⟨h1, h2, (Option.some.inj hstep).symm⟩
          · right
            rw [if_neg h2] at hstep
            exact ⟨h1, h2, (Option.some.inj hstep).symm⟩

theorem readListItem_cases (s s' : ReadState) (n : Node) (lvl : Int)
    (hstep : readListItem s (s.heap ++ [n]) s.heap.length lvl = some s') :
    ∃ adjusted target,
      s' = { heap := attach s.heap n target, parent := s.parent,
             parentStack := s.parentStack, prevNode := s.heap.length,
             listStack := s.heap.length :: adjusted } ∧
      (∀ x ∈ adjusted, x = s.heap.length ∨ x ∈ s.listStack) ∧
      ((adjusted = [] ∧ target = s.parent) ∨ ∃ rest, adjusted = target :: rest) := by
  unfold readListItem at hstep
  have key : ∀ adjusted : List Nat,
      (∀ x ∈ adjusted, x = s.heap.length ∨ x ∈ s.listStack) →
      some ({ heap :=
                match adjusted with
                | top :: _ => AddChild (s.heap ++ [n]) top s.heap.length
                | [] => AddChild (s.heap ++ [n]) s.parent s.heap.length,
              parent := s.parent, parentStack := s.parentStack,
              prevNode := s.heap.length,
              listStack := s.heap.length :: adjusted } : ReadState) = some s' →
      ∃ adjusted target,
        s' = { heap := attach s.heap n target, parent := s.parent,
               parentStack := s.parentStack, prevNode := s.heap.length,
               listStack := s.heap.length :: adjusted } ∧
        (∀ x ∈ adjusted, x = s.heap.length ∨ x ∈ s.listStack) ∧
        ((adjusted = [] ∧ target = s.parent) ∨ ∃ rest, adjusted = target :: rest) := by
    intro adjusted hsub heq
    cases adjusted with
    | nil => exact ⟨[], s.parent, (Option.some.inj heq).symm, hsub, Or.inl ⟨rfl, rfl⟩⟩
    | cons top rest =>
      exact ⟨top :: rest, top, (Option.some.inj heq).symm, hsub, Or.inr ⟨rest, rfl⟩⟩
  obtain ⟨st, hst⟩ : ∃ st, s.listStack = st := ⟨_, rfl⟩
  cases st with
  | nil =>
    simp only [hst] at hstep
    exact key [] (by simp) hstep
  | cons top rest =>
    simp only [hst] at hstep
    cases hl : listItemLevel (s.heap ++ [n]) top with
    | none => simp [hl] at hstep
    | some lastLevel =>
      simp only [hl] at hstep
      by_cases hgt : lvl > lastLevel
      · simp only [hgt, if_true] at hstep
        refine key (s.heap.length :: top :: rest) ?_ hstep
        intro x hx
        rcases List.mem_cons.mp hx with e | hx
        · exact Or.inl e
        · right
          rw [hst]
          exact hx
      · simp only [hgt, if_false] at hstep
        cases hp : popListStack (s.heap ++ [n]) lvl (top :: rest) with
        | none => simp [hp] at hstep
        | some adjusted =>
          simp only [hp] at hstep
          refine key adjusted ?_ hstep
          intro x hx
          right
          rw [hst]
          exact popListStack_sub _ _ _ _ hp x hx

theorem kind_section_get? (h : Heap) (a : Nat) (hk : Heap.kind h a = some Kind.section) :
    ∃ x, h.get? a = some (Node.section x) := by
  unfold Heap.kind at hk
  cases hg : h.get? a with
  | none =>
    rw [hg] at hk
    cases hk
  | some nd =>
    rw [hg] at hk
    cases nd <;> simp [Node.kind] at hk
    exact ⟨_, rfl⟩

theorem kind_block_get? (h : Heap) (a : Nat) (hk : Heap.kind h a = some Kind.block) :
    ∃ x, h.get? a = some (Node.block x) := by
  unfold Heap.kind at hk
  cases hg : h.get? a with
  | none =>
    rw [hg] at hk
    cases hk
  | some nd =>
    rw [hg] at hk
    cases nd <;> simp [Node.kind] at hk
    exact ⟨_, rfl⟩

theorem readHeader_eq (s : ReadState) (n : Node) (lvl : Int)
    (hlen : s.parent < s.heap.length)
    (hroot : Heap.kind s.heap 0 = some Kind.block)
    (hPk : s.parent = 0 ∨ Heap.kind s.heap s.parent = some Kind.section)
    (hshape : ∃ rest, s.parentStack = s.parent :: rest ∧
      (Heap.kind s.heap s.parent = some Kind.section ∨ rest = [])) :
    ∃ rest, readHeader s (s.heap ++ [n]) s.heap.length lvl
      = { heap := attach s.heap n s.parent, parent := s.heap.length,
          parentStack := s.heap.length :: rest, prevNode := s.heap.length,
          listStack := s.listStack } := by
  obtain ⟨rest, hstack, hcases⟩ := hshape
  have hget : (s.heap ++ [n]).get? s.parent = s.heap.get? s.parent := by
    rw [Heap.get?_append_new, if_pos hlen]
  unfold readHeader
  rw [hstack]
  by_cases hsec : Heap.kind s.heap s.parent = some Kind.section
  · obtain ⟨x, hx⟩ := kind_section_get? _ _ hsec
    refine ⟨s.parent :: rest, ?_⟩
    simp only [popParentStack, hget, hx]
    rfl
  · have hrest : rest = [] := by
      rcases hcases with h1 | h1
      · exact absurd h1 hsec
      · exact h1
    have hP0 : s.parent = 0 := by
      rcases hPk with h1 | h1
      · exact h1
      · exact absurd h1 hsec
    subst hrest
    rw [hP0] at hget ⊢
    obtain ⟨b, hb⟩ := kind_block_get? _ _ hroot
    simp only [popParentStack, hget, hb]
    by_cases hlv : b.Level < lvl
    · refine ⟨[0], ?_⟩
      simp only [hlv, if_true]
      rfl
    · refine ⟨[], ?_⟩
      simp only [hlv, if_false]
      rfl


/-! ### Preservation of the loop invariant -/

theorem get?_snoc_cases (rs : List JSON) (r r' : JSON) (i : Nat)
    (hi : (rs ++ [r]).get? i = some r') :
    (i < rs.length ∧ rs.get? i = some r') ∨ (i = rs.length ∧ r' = r) := by
  rcases Nat.lt_or_ge i rs.length with hlt | hge
  · left
    refine ⟨hlt, ?_⟩
    rw [← hi]
    simp [List.getElem?_append_left, hlt]
  · right
    have hlen := (List.get?_eq_some.mp hi).1
    simp only [List.length_append, List.length_singleton] at hlen
    have e : i = rs.length := by omega
    subst e
    refine ⟨rfl, ?_⟩
    simpa using hi.symm

theorem isListItem_attach_old (h : Heap) (n : Node) (t x : Nat) (hx : x < h.length) :
    isListItem (attach h n t) x = isListItem h x := by
  unfold isListItem
  rw [attach_kind_old h n t x hx]

theorem filter_attach_old (h : Heap) (n : Node) (t : Nat) (l : List Nat)
    (hl : ∀ x ∈ l, x < h.length) :
    l.filter (fun a => !isListItem (attach h n t) a) = l.filter (fun a => !isListItem h a) := by
  apply List.filter_congr
  intro x hx
  rw [isListItem_attach_old h n t x (hl x hx)]

theorem range_snoc (m : Nat) : List.range' 1 (m + 1) = List.range' 1 m ++ [m + 1] := by
  rw [List.range'_concat]
  simp [Nat.add_comm]

theorem Inv_attach (rs : List JSON) (s s' : ReadState) (r : JSON) (n : Node) (t : Nat)
    (inv : Inv rs s) (hrn : recordNode r = some n)
    (hfresh : n.blk.Children = []) (hcase : n.kind.hasCase = true)
    (hLI : n.kind = Kind.listItem ↔ recordTag r = some "list_item")
    (hSec : n.kind = Kind.section ↔ isHeaderRecord r = true)
    (hheap : s'.heap = attach s.heap n t)
    (ht : t = s.parent ∨ (n.kind = Kind.listItem ∧
      (t = s.heap.length ∨ Heap.kind s.heap t = some Kind.listItem)))
    (hls : ∀ x ∈ s'.listStack,
      (x = s.heap.length ∧ n.kind = Kind.listItem) ∨ x ∈ s.listStack)
    (hpar : (n.kind = Kind.section ∧ s'.parent = s.heap.length ∧
        ∃ rest, s'.parentStack = s.heap.length :: rest) ∨
      (n.kind ≠ Kind.section ∧ s'.parent = s.parent ∧ s'.parentStack = s.parentStack)) :
    Inv (rs ++ [r]) s' := by
  have hi := inv.heapInv
  have hk : s.heap.length = rs.length + 1 := inv.len
  have hPlt := inv.parentRange
  have hPnotLI : Heap.kind s.heap s.parent ≠ some Kind.listItem := by
    rcases inv.parentKind with e | e
    · rw [e, hi.rootKind]; simp
    · rw [e]; simp
  have htle : t ≤ s.heap.length := by
    rcases ht with e | ⟨_, e | e⟩
    · omega
    · omega
    · exact le_of_lt (Heap.kind_lt_length _ _ _ e)
  have ht3 : t = s.parent ∨ t = s.heap.length ∨ Heap.kind s.heap t = some Kind.listItem := by
    rcases ht with e | ⟨_, e | e⟩
    · exact Or.inl e
    · exact Or.inr (Or.inl e)
    · exact Or.inr (Or.inr e)
  have htP : n.kind ≠ Kind.listItem → t = s.parent := by
    intro hne
    rcases ht with e | ⟨e, _⟩
    · exact e
    · exact absurd e hne
  have hPsec : ∀ c ∈ Heap.children s.heap s.parent,
      Heap.kind s.heap c ≠ some Kind.section := by
    intro c hc hsec
    exact (inv.sectionLast s.parent c hc hsec).1 rfl
  have hi' : HeapInv (attach s.heap n t) := by
    refine HeapInv_attach s.heap n t hi (by omega) hfresh hcase htle ?_ ?_
    · intro e
      rcases ht with e1 | ⟨e1, _⟩
      · omega
      · exact e1
    · intro hlt
      rcases ht with e1 | ⟨e1, e2 | e2⟩
      · rcases inv.parentKind with e3 | e3
        · exact Or.inl (e1.trans e3)
        · exact Or.inr (Or.inl (e1 ▸ e3))
      · omega
      · exact Or.inr (Or.inr ⟨e2, e1⟩)
  have hkindP' : ∀ x, x < s.heap.length → Heap.kind s'.heap x = Heap.kind s.heap x := by
    intro x hx
    rw [hheap, attach_kind_old _ _ _ _ hx]
  have hkindNew : Heap.kind s'.heap s.heap.length = some n.kind := by
    rw [hheap, attach_kind_new]
  refine
    { heapInv := by rw [hheap]; exact hi'
      len := by rw [hheap, attach_length, hk]; simp
      content := ?content
      listStackKinds := ?lsk
      parentRange := ?prange
      parentKind := ?pkind
      stackShape := ?shape
      sectionLast := ?seclast
      spine := ?spine
      visit := ?visit
      parentIs := ?pis
      parentLinks := ?plinks
      lastAttached := ?lastatt }
  case content =>
    intro i r' hi'
    rcases get?_snoc_cases rs r r' i hi' with ⟨hlt, hold⟩ | ⟨rfl, rfl⟩
    · obtain ⟨n', hn', hc'⟩ := inv.content i r' hold
      refine ⟨n', hn', ?_⟩
      rw [hheap, attach_content_old _ _ _ _ (by omega)]
      exact hc'
    · refine ⟨n, hrn, ?_⟩
      rw [hheap, ← hk]
      exact attach_content_new _ _ _
  case lsk =>
    intro x hx
    rcases hls x hx with ⟨rfl, e⟩ | hold
    · rw [hkindNew, e]
    · have := inv.listStackKinds x hold
      rw [hkindP' x (Heap.kind_lt_length _ _ _ this)]
      exact this
  case prange =>
    rw [hheap, attach_length]
    rcases hpar with ⟨_, e, _⟩ | ⟨_, e, _⟩ <;> rw [e] <;> omega
  case pkind =>
    rcases hpar with ⟨e1, e, _⟩ | ⟨_, e, _⟩
    · right
      rw [e, hkindNew, e1]
    · rw [e]
      rcases inv.parentKind with e3 | e3
      · exact Or.inl e3
      · right
        rw [hkindP' _ hPlt]
        exact e3
  case shape =>
    rcases hpar with ⟨e1, e, rest, e2⟩ | ⟨_, e, e2⟩
    · refine ⟨rest, by rw [e2, e], Or.inl ?_⟩
      rw [e, hkindNew, e1]
    · obtain ⟨rest, hst, hc⟩ := inv.stackShape
      refine ⟨rest, by rw [e2, e, hst], ?_⟩
      rw [e, hkindP' _ hPlt]
      exact hc
  case seclast =>
    intro a c hc hsec
    rw [hheap] at hc
    rcases attach_children_mem _ _ _ _ _ hfresh hc with ⟨ha, hold⟩ | ⟨rfl, rfl, _⟩
    · have hclt := (hi.childRange a c hold).2
      rw [hkindP' c hclt] at hsec
      obtain ⟨h1, h2⟩ := inv.sectionLast a c hold hsec
      have hat : a ≠ t := by
        rcases ht3 with e | e | e
        · rw [e]; exact h1
        · omega
        · rintro rfl
          have := hi.childOfListItem a c hold e
          rw [hsec] at this
          cases this
      constructor
      · rcases hpar with ⟨_, e, _⟩ | ⟨_, e, _⟩
        · rw [e]; omega
        · rw [e]; exact h1
      · rw [hheap, attach_children_old _ _ _ _ ha, if_neg hat]
        exact h2
    · rw [hkindNew] at hsec
      have hns : n.kind = Kind.section := Option.some.inj hsec
      have hnl : n.kind ≠ Kind.listItem := by rw [hns]; simp
      have haP := htP hnl
      rcases hpar with ⟨_, e, _⟩ | ⟨e, _, _⟩
      · constructor
        · rw [e, haP]; omega
        · rw [hheap]
          exact attach_children_getLast _ _ _ (by rw [haP]; exact hPlt)
      · exact absurd hns e
  case spine =>
    rw [hheap]
    rcases hpar with ⟨e1, e, _⟩ | ⟨_, e, _⟩
    · have hnl : n.kind ≠ Kind.listItem := by rw [e1]; simp
      rw [e, htP hnl]
      exact Spine_attach_extend _ _ _ hi.childRange hPlt inv.parentKind hi.rootKind hPsec e1
        0 inv.spine
    · rw [e]
      exact Spine_attach_same _ _ _ _ hi.childRange ht3 0 inv.spine
  case visit =>
    obtain ⟨fuel, l, hl, hfilter⟩ := inv.visit
    have hlrange : ∀ x ∈ l, x < s.heap.length := by
      intro x hx
      obtain ⟨a, ha⟩ := visitSeq_mem_child _ _ _ _ _ hl x hx
      exact (hi.childRange a x ha).2
    have hrrange : ∀ x ∈ List.range' 1 rs.length, x < s.heap.length := by
      intro x hx
      have := (List.mem_range'_1.mp hx).2
      omega
    rw [hheap, List.length_append, List.length_singleton, range_snoc, List.filter_append,
      filter_attach_old _ _ _ _ hrrange, ← hfilter, ← hk]
    by_cases hnl : n.kind = Kind.listItem
    · obtain ⟨l', hl', e⟩ := visitSeq_attach_filter s.heap n t
        (fun a => !isListItem (attach s.heap n t) a) hi.childRange hfresh
        (by simp [isListItem, attach_kind_new, hnl]) fuel Kind.block 0 l (by omega) hl
      refine ⟨fuel + 1, l', hl', ?_⟩
      rw [e, filter_attach_old _ _ _ _ hlrange]
      simp [isListItem, attach_kind_new, hnl]
    · rw [htP hnl]
      have := visitSeq_attach_spine s.heap n s.parent hi.childRange hi.childOfListItem
        hi.parentKinds hPlt inv.parentKind hi.rootKind hPsec hfresh 0 inv.spine fuel
        Kind.block l rfl hl
      refine ⟨fuel + 1, l ++ [s.heap.length], this, ?_⟩
      rw [List.filter_append, filter_attach_old _ _ _ _ hlrange]
  case pis =>
    rw [lastHeaderAddr_snoc]
    rcases hpar with ⟨e1, e, _⟩ | ⟨e1, e, _⟩
    · rw [if_pos (hSec.mp e1), e, hk]
    · have : ¬ isHeaderRecord r = true := fun hh => e1 (hSec.mpr hh)
      rw [if_neg this, e]
      exact inv.parentIs
  case plinks =>
    intro i r' hi' htag
    rcases get?_snoc_cases rs r r' i hi' with ⟨hlt, hold⟩ | ⟨rfl, rfl⟩
    · obtain ⟨h1, h2⟩ := inv.parentLinks i r' hold htag
      rw [List.take_append_of_le_length (le_of_lt hlt), hheap,
        attach_parent_old _ _ _ _ hcase (by omega)]
      exact ⟨h1, attach_children_sub _ _ _ _ _ h2⟩
    · have hnl : n.kind ≠ Kind.listItem := fun hh => htag (hLI.mp hh)
      have e : (rs ++ [r']).take rs.length = rs := by simp
      rw [e, ← inv.parentIs, hheap, ← hk, ← htP hnl]
      exact ⟨attach_parent_new _ _ _ hcase, attach_children_target _ _ _ hfresh htle⟩
  case lastatt =>
    intro r' hlast htag
    have e : r' = r := by simpa using hlast.symm
    subst e
    have hnl : n.kind ≠ Kind.listItem := fun hh => htag (hLI.mp hh)
    rw [List.dropLast_concat, ← inv.parentIs, hheap, List.length_append, List.length_singleton,
      ← hk, htP hnl]
    exact attach_children_getLast _ _ _ hPlt


/-! ### The invariant holds after `Read` -/

theorem Inv_step (rs : List JSON) (s s' : ReadState) (r : JSON) (inv : Inv rs s)
    (hstep : readStep s r = some s') : Inv (rs ++ [r]) s' := by
  obtain ⟨m, tag, n, hm, ht, hn, hcases⟩ := readStep_cases s s' r hstep
  have hrn : recordNode r = some n := by
    unfold recordNode
    rw [hm]
    simp only [ht]
    exact hn
  have hrt : recordTag r = some tag := by
    unfold recordTag
    rw [hm]
    exact ht
  obtain ⟨hfresh, -, hcase⟩ := newNode_fresh tag m n hn
  have hLI : n.kind = Kind.listItem ↔ recordTag r = some "list_item" := by
    rw [newNode_listItem tag m n hn, hrt]
    simp
  have hSec : n.kind = Kind.section ↔ isHeaderRecord r = true := by
    rw [newNode_section tag m n hn]
    unfold isHeaderRecord
    rw [hrt]
    simp
  rcases hcases with ⟨htag, hl⟩ | ⟨htag1, htag2, hs'⟩ | ⟨htag1, htag2, hs'⟩
  · obtain ⟨adjusted, target, hs', hsub, htarget⟩ := readListItem_cases s s' n _ hl
    have hnk : n.kind = Kind.listItem := (newNode_listItem tag m n hn).mpr htag
    subst hs'
    refine Inv_attach rs s _ r n target inv hrn hfresh hcase hLI hSec rfl ?_ ?_ ?_
    · rcases htarget with ⟨-, e⟩ | ⟨rest, e⟩
      · exact Or.inl e
      · right
        refine ⟨hnk, ?_⟩
        rcases hsub target (by rw [e]; exact List.mem_cons_self _ _) with e1 | e1
        · exact Or.inl e1
        · exact Or.inr (inv.listStackKinds target e1)
    · intro x hx
      rcases List.mem_cons.mp hx with e | hx
      · exact Or.inl ⟨e, hnk⟩
      · rcases hsub x hx with e1 | e1
        · exact Or.inl ⟨e1, hnk⟩
        · exact Or.inr e1
    · right
      refine ⟨by rw [hnk]; simp, rfl, rfl⟩
  · obtain ⟨rest, hrest⟩ := readHeader_eq s n (numberOr m "level") inv.parentRange
      inv.heapInv.rootKind inv.parentKind inv.stackShape
    rw [hrest] at hs'
    have hnk : n.kind = Kind.section := (newNode_section tag m n hn).mpr htag2
    subst hs'
    refine Inv_attach rs s _ r n s.parent inv hrn hfresh hcase hLI hSec rfl (Or.inl rfl) ?_ ?_
    · intro x hx
      exact Or.inr hx
    · left
      exact ⟨hnk, rfl, rest, rfl⟩
  · subst hs'
    refine Inv_attach rs s _ r n s.parent inv hrn hfresh hcase hLI hSec rfl (Or.inl rfl) ?_ ?_
    · intro x hx
      exact Or.inr hx
    · right
      refine ⟨?_, rfl, rfl⟩
      intro hh
      exact htag2 ((newNode_section tag m n hn).mp hh)

theorem readInit_children (a : Nat) : Heap.children readInit.heap a = [] := by
  cases a with
  | zero => rfl
  | succ a => rfl

theorem Inv_init : Inv [] readInit where
  heapInv :=
    { rootKind := rfl
      childRange := by intro a c hc; rw [readInit_children] at hc; cases hc
      childGe := by intro a c hc; rw [readInit_children] at hc; cases hc
      childOfListItem := by intro a c hc; rw [readInit_children] at hc; cases hc
      parentKinds := by intro a c hc; rw [readInit_children] at hc; cases hc
      parentOfChild := by intro a c hc; rw [readInit_children] at hc; cases hc
      hasParent := by
        intro c h0 h1
        simp [readInit] at h1
        omega
      childrenNodup := by intro a; rw [readInit_children]; exact List.nodup_nil }
  len := rfl
  content := by intro i r hi; simp at hi
  listStackKinds := by intro t ht; simp [readInit] at ht
  parentRange := by simp [readInit]
  parentKind := Or.inl rfl
  stackShape := ⟨[], rfl, Or.inr rfl⟩
  sectionLast := by intro a c hc; rw [readInit_children] at hc; cases hc
  spine := Spine.here
  visit := ⟨1, [], rfl, rfl⟩
  parentIs := rfl
  parentLinks := by intro i r hi; simp at hi
  lastAttached := by intro r hr; simp at hr

theorem readLoop_append (s : ReadState) (xs ys : List JSON) :
    readLoop s (xs ++ ys)
      = match readLoop s xs with
        | some s1 => readLoop s1 ys
        | none => none := by
  induction xs generalizing s with
  | nil => rfl
  | cons x xs ih =>
    simp only [List.cons_append, readLoop]
    cases readStep s x with
    | none => rfl
    | some s1 => exact ih s1

theorem Inv_readLoop (rs : List JSON) :
    ∀ s, readLoop readInit rs = some s → Inv rs s := by
  induction rs using List.reverseRecOn with
  | nil =>
    intro s hs
    simp only [readLoop, Option.some.injEq] at hs
    subst hs
    exact Inv_init
  | append_singleton rs r ih =>
    intro s hs
    rw [readLoop_append] at hs
    cases h1 : readLoop readInit rs with
    | none => simp [h1] at hs
    | some s1 =>
      simp only [h1, readLoop] at hs
      cases h2 : readStep s1 r with
      | none => simp [h2] at hs
      | some s2 =>
        simp only [h2, Option.some.injEq] at hs
        subst hs
        exact Inv_step rs s1 s2 r (ih s1 h1) h2

theorem Inv_of_Read (rs : List JSON) (h : Heap) (hread : Read rs = some h) :
    ∃ s, readLoop readInit rs = some s ∧ s.heap = h ∧ Inv rs s := by
  unfold Read at hread
  cases hs : readLoop readInit rs with
  | none => simp [hs] at hread
  | some s =>
    simp only [hs, Option.some.injEq] at hread
    exact ⟨s, rfl, hread, Inv_readLoop rs s hs⟩


/-! ### Consequences of the invariant -/

theorem record_of_Inv (rs : List JSON) (s : ReadState) (inv : Inv rs s) (i : Nat) (r : JSON)
    (hi : rs.get? i = some r) :
    ∃ m tag n, r = JSON.obj m ∧ recordTag r = some tag ∧ newNode tag m = some n ∧
      Heap.kind s.heap (i + 1) = some n.kind ∧
      (s.heap.get? (i + 1)).map Node.content = some n.content := by
  obtain ⟨n, hn, hc⟩ := inv.content i r hi
  unfold recordNode at hn
  cases r with
  | obj m =>
    simp only [JSON.asMap] at hn
    cases ht : (JSON.index m "tag").asString with
    | none => simp [ht] at hn
    | some tag =>
      simp only [ht] at hn
      exact ⟨m, tag, n, rfl, by simp [recordTag, JSON.asMap, ht], hn,
        kind_of_content _ _ _ hc, hc⟩
  | _ => simp [JSON.asMap] at hn

theorem filter_filter_of_imp (p q : Nat → Bool) (l : List Nat)
    (hpq : ∀ x, p x = true → q x = true) : (l.filter q).filter p = l.filter p := by
  rw [List.filter_filter]
  apply List.filter_congr
  intro x _
  cases hp : p x with
  | false => simp
  | true => simp [hpq x hp]

theorem filter_visit_of_Inv (rs : List JSON) (s : ReadState) (inv : Inv rs s)
    (p : Nat → Bool) (pr : JSON → Bool)
    (hp1 : ∀ x, p x = true → isListItem s.heap x = false)
    (hp2 : ∀ i r, rs.get? i = some r → p (1 + i) = pr r) :
    ∃ fuel, ∀ fuel', fuel ≤ fuel' →
      (visitSeq s.heap fuel' Kind.block 0).map (fun l => l.filter p)
        = some (recordAddrs pr 1 rs) := by
  obtain ⟨fuel, l, hl, hfilter⟩ := inv.visit
  refine ⟨fuel, ?_⟩
  intro fuel' hle
  rw [visitSeq_mono _ _ _ hle _ _ _ hl]
  simp only [Option.map_some', Option.some.injEq]
  have himp : ∀ x, p x = true → (fun a => !isListItem s.heap a) x = true := by
    intro x hx
    simp [hp1 x hx]
  rw [← filter_filter_of_imp p _ l himp, hfilter, filter_filter_of_imp p _ _ himp]
  exact filter_range_eq_recordAddrs p pr rs 1 hp2

theorem recordAddrs_map {β : Type} (p : JSON → Bool) (g : Nat → β) (g' : JSON → β)
    (rs : List JSON) :
    ∀ addr, (∀ i r, rs.get? i = some r → p r = true → g (addr + i) = g' r) →
      (recordAddrs p addr rs).map g = (rs.filter p).map g' := by
  induction rs with
  | nil => intro addr _; rfl
  | cons x rs ih =>
    intro addr hg
    have hrest : ∀ i r, rs.get? i = some r → p r = true → g (addr + 1 + i) = g' r := by
      intro i r hi hp
      have := hg (i + 1) r (by simpa using hi) hp
      rwa [show addr + (i + 1) = addr + 1 + i by omega] at this
    rw [recordAddrs, List.filter_cons]
    by_cases hp : p x = true
    · have h0 : g addr = g' x := by simpa using hg 0 x (by simp) hp
      rw [if_pos hp, if_pos hp, List.map_cons, List.map_cons, h0, ih (addr + 1) hrest]
    · rw [if_neg hp, if_neg hp, ih (addr + 1) hrest]

theorem appendChildren_false (f : Nat → Option String) (cs : List Nat) (text : String) :
    appendChildren f false cs text = some text := by
  cases cs <;> simp [appendChildren]

theorem recordSentences_eq (m : List (String × JSON)) :
    recordSentences (JSON.obj m) = (NewBlock m).Sentences := by
  show (match JSON.index m "sentences" with
      | JSON.arr xs => xs.filterMap JSON.asString
      | _ => [])
    = (match (JSON.index m "sentences").asArray with
      | some sentences => sentences.filterMap JSON.asString
      | none => [])
  generalize JSON.index m "sentences" = v
  cases v <;> rfl

theorem section_of_content (x : Node) (sec0 : Section)
    (hc : x.content = (Node.section sec0).content) :
    ∃ sec, x = Node.section sec ∧ sec.Title = sec0.Title := by
  rcases x with b | p | sec | li | t | r | th
  all_goals first
    | (simp [Node.content, Node.mapBlk] at hc; exact ⟨_, rfl, hc.2⟩)
    | simp [Node.content, Node.mapBlk] at hc

theorem ToText_header_of_Inv (rs : List JSON) (s : ReadState) (inv : Inv rs s) (i : Nat)
    (r : JSON) (hi : rs.get? i = some r) (hr : isHeaderRecord r = true) (fuel : Nat) :
    ToText s.heap (fuel + 1) (i + 1) false false
      = some ("\n".intercalate (recordSentences r)) := by
  obtain ⟨m, tag, n, rfl, htag, hn, -, hc⟩ := record_of_Inv rs s inv i r hi
  have ht : tag = "header" := by
    unfold isHeaderRecord at hr
    rw [htag] at hr
    simpa using hr
  subst ht
  have hn' : n = Node.section (NewSection m) := by
    have : newNode "header" m = some (Node.section (NewSection m)) := by
      unfold newNode
      rw [if_neg (by decide), if_neg (by decide), if_neg (by decide), if_pos rfl]
    rw [this] at hn
    exact (Option.some.inj hn).symm
  subst hn'
  cases hg : s.heap.get? (i + 1) with
  | none =>
    rw [hg] at hc
    cases hc
  | some x =>
    rw [hg] at hc
    obtain ⟨sec, rfl, hT⟩ := section_of_content x (NewSection m) (Option.some.inj hc)
    rw [ToText, hg]
    simp only [appendChildren_false, hT, recordSentences_eq]
    rfl


/-! ### When the construction of a node succeeds -/

theorem NewTableCell_isSome (m : List (String × JSON)) :
    (NewTableCell m).isSome = cellOk m := by
  unfold NewTableCell cellOk
  cases hv : JSON.index m "cell_value" <;> simp [JSON.asString, JSON.asMap]

theorem newCells_isSome (cells : List JSON) :
    (newCells cells).isSome = cells.all cellJSONOk := by
  induction cells with
  | nil => rfl
  | cons c rest ih =>
    rw [List.all_cons, ← ih]
    cases c with
    | obj m =>
      simp only [newCells, JSON.asMap, cellJSONOk, ← NewTableCell_isSome]
      cases NewTableCell m with
      | none => rfl
      | some cell =>
        cases newCells rest with
        | none => rfl
        | some cs => rfl
    | _ => rfl

theorem NewTableHeader_isSome (m : List (String × JSON)) :
    (NewTableHeader m).isSome = cellsOk m := by
  unfold NewTableHeader cellsOk
  cases hv : JSON.index m "cells" with
  | arr cells =>
    simp only [JSON.asArray, ← newCells_isSome]
    cases newCells cells <;> rfl
  | _ => rfl

theorem NewTableRow_isSome (m : List (String × JSON)) :
    (NewTableRow m).isSome
      = if (JSON.index m "type").asString = some "full_row" then cellOk m else cellsOk m := by
  unfold NewTableRow
  split
  · rw [← NewTableCell_isSome]
    cases NewTableCell m <;> rfl
  · unfold cellsOk
    cases hv : JSON.index m "cells" with
    | arr cells =>
      simp only [JSON.asArray, ← newCells_isSome]
      cases newCells cells <;> rfl
    | _ => rfl

theorem newTableRows_isSome (rows : List JSON) :
    ∀ (accRows : List TableRow) (accHeaders : List TableHeader),
      (newTableRows rows accRows accHeaders).isSome = rows.all rowOk := by
  induction rows with
  | nil => intro _ _; rfl
  | cons r rest ih =>
    intro accRows accHeaders
    rw [List.all_cons]
    cases r with
    | obj rowData =>
      simp only [newTableRows, JSON.asMap, rowOk]
      by_cases h1 : (JSON.index rowData "type").asString = some "table_header"
      · rw [if_pos h1, if_pos h1, ← NewTableHeader_isSome]
        cases NewTableHeader rowData with
        | none => rfl
        | some header => simp [ih]
      · have h2 := NewTableRow_isSome rowData
        rw [if_neg h1, if_neg h1, ← h2]
        cases NewTableRow rowData with
        | none => rfl
        | some row => simp [ih]
    | _ => rfl

theorem NewTable_isSome (m : List (String × JSON)) : (NewTable m).isSome = tableOk m := by
  unfold NewTable tableOk
  cases hn : JSON.index m "name" with
  | str name =>
    simp only [JSON.asString, Bool.true_and]
    cases hr : JSON.index m "table_rows" with
    | arr rows =>
      simp only [JSON.asArray, ← newTableRows_isSome rows [] []]
      cases newTableRows rows [] [] with
      | none => rfl
      | some p => rfl
    | _ => rfl
  | _ => rfl

theorem newNode_isSome (tag : String) (m : List (String × JSON)) :
    (newNode tag m).isSome = if tag = "table" then tableOk m else true := by
  unfold newNode
  by_cases h1 : tag = "para"
  · subst h1
    rfl
  · rw [if_neg h1]
    by_cases h2 : tag = "table"
    · rw [if_pos h2, if_pos h2, ← NewTable_isSome]
      cases NewTable m <;> rfl
    · rw [if_neg h2, if_neg h2]
      split
      · rfl
      · split <;> rfl

theorem recordNode_isSome (r : JSON) : (recordNode r).isSome = recordOk r := by
  unfold recordNode recordOk
  cases r with
  | obj m =>
    simp only [JSON.asMap]
    cases ht : JSON.index m "tag" with
    | str tag => simp only [JSON.asString, newNode_isSome]
    | _ => rfl
  | _ => rfl

/-! ### The loop body does not fail once the node is built -/

theorem listItemLevel_of_kind (h : Heap) (a : Nat)
    (hk : Heap.kind h a = some Kind.listItem) : ∃ l, listItemLevel h a = some l := by
  unfold Heap.kind at hk
  unfold listItemLevel
  cases hg : h.get? a with
  | none =>
    rw [hg] at hk
    cases hk
  | some nd =>
    rw [hg] at hk
    rcases nd with b | p | sec | li | t | r | th
    all_goals first
      | exact ⟨_, rfl⟩
      | (simp [Node.kind] at hk)

theorem popListStack_isSome (h : Heap) (lvl : Int) (st : List Nat)
    (hst : ∀ t ∈ st, ∃ l, listItemLevel h t = some l) :
    ∃ st', popListStack h lvl st = some st' := by
  induction st with
  | nil => exact ⟨[], rfl⟩
  | cons top rest ih =>
    obtain ⟨l, hl⟩ := hst top (List.mem_cons_self _ _)
    simp only [popListStack, hl]
    split
    · exact ih (fun t ht => hst t (List.mem_cons_of_mem _ ht))
    · exact ⟨_, rfl⟩

theorem readListItem_isSome (s : ReadState) (n : Node) (lvl : Int)
    (hst : ∀ t ∈ s.listStack, Heap.kind s.heap t = some Kind.listItem) :
    ∃ s', readListItem s (s.heap ++ [n]) s.heap.length lvl = some s' := by
  have hlev : ∀ t ∈ s.listStack, ∃ l, listItemLevel (s.heap ++ [n]) t = some l := by
    intro t ht
    apply listItemLevel_of_kind
    have hk := hst t ht
    have hlt := Heap.kind_lt_length _ _ _ hk
    unfold Heap.kind
    rw [Heap.get?_append_new, if_pos hlt]
    exact hk
  unfold readListItem
  obtain ⟨st, hs⟩ : ∃ st, s.listStack = st := ⟨_, rfl⟩
  rw [hs] at hlev
  cases st with
  | nil => simp only [hs]; exact ⟨_, rfl⟩
  | cons top rest =>
    simp only [hs]
    obtain ⟨l, hl⟩ := hlev top (List.mem_cons_self _ _)
    simp only [hl]
    by_cases hgt : lvl > l
    · simp only [hgt, if_true]
      exact ⟨_, rfl⟩
    · simp only [hgt, if_false]
      obtain ⟨st', hst'⟩ := popListStack_isSome (s.heap ++ [n]) lvl (top :: rest) hlev
      simp only [hst']
      exact ⟨_, rfl⟩

theorem readStep_isSome (rs : List JSON) (s : ReadState) (inv : Inv rs s) (r : JSON) :
    (readStep s r).isSome = recordOk r := by
  rw [← recordNode_isSome]
  unfold readStep recordNode
  cases hm : r.asMap with
  | none => rfl
  | some m =>
    simp only []
    cases ht : (JSON.index m "tag").asString with
    | none => rfl
    | some tag =>
      simp only []
      cases hn : newNode tag m with
      | none => rfl
      | some n =>
        simp only [Option.isSome_some]
        by_cases h1 : tag = "list_item"
        · rw [if_pos h1]
          obtain ⟨s', hs'⟩ := readListItem_isSome s n
            (match (JSON.index m "level").asFloat with
              | some level => toInt level
              | none => -1) inv.listStackKinds
          rw [hs']
          rfl
        · rw [if_neg h1]
          split <;> rfl

theorem readLoop_isSome (rs : List JSON) :
    ∀ (rs0 : List JSON) (s : ReadState), Inv rs0 s →
      (readLoop s rs).isSome = rs.all recordOk := by
  induction rs with
  | nil => intro _ _ _; rfl
  | cons r rest ih =>
    intro rs0 s inv
    rw [List.all_cons, ← readStep_isSome rs0 s inv r]
    simp only [readLoop]
    cases hstep : readStep s r with
    | none => rfl
    | some s1 =>
      simp only [Option.isSome_some, Bool.true_and]
      exact ih (rs0 ++ [r]) s1 (Inv_step rs0 s s1 r inv hstep)

theorem Read_isSome (rs : List JSON) : (Read rs).isSome = rs.all recordOk := by
  rw [← readLoop_isSome rs [] readInit Inv_init]
  unfold Read
  cases readLoop readInit rs <;> rfl


/-! ### Text rendering terminates on the nodes that are not their own child -/

theorem appendChildren_congr (g g' : Nat → Option String) (inc : Bool) (cs : List Nat) :
    ∀ (text out : String), (∀ c ∈ cs, ∀ t, g c = some t → g' c = some t) →
      appendChildren g inc cs text = some out → appendChildren g' inc cs text = some out := by
  induction cs with
  | nil => intro text out _ ho; simpa [appendChildren] using ho
  | cons c rest ih =>
    intro text out hg ho
    simp only [appendChildren] at ho ⊢
    split at ho
    · rename_i hinc
      rw [if_pos hinc]
      cases hc : g c with
      | none => simp [hc] at ho
      | some t =>
        simp only [hc] at ho
        rw [hg c (List.mem_cons_self _ _) t hc]
        exact ih _ _ (fun d hd => hg d (List.mem_cons_of_mem _ hd)) ho
    · rename_i hinc
      rw [if_neg hinc]
      exact ho

theorem appendChildren_isSome (g : Nat → Option String) (inc : Bool) (cs : List Nat) :
    ∀ (text : String), (∀ c ∈ cs, ∃ t, g c = some t) →
      ∃ out, appendChildren g inc cs text = some out := by
  induction cs with
  | nil => intro text _; exact ⟨text, rfl⟩
  | cons c rest ih =>
    intro text hg
    simp only [appendChildren]
    split
    · obtain ⟨t, ht⟩ := hg c (List.mem_cons_self _ _)
      simp only [ht]
      exact ih _ (fun d hd => hg d (List.mem_cons_of_mem _ hd))
    · exact ⟨text, rfl⟩

theorem ToText_succ (h : Heap) (fuel node : Nat) (inc r : Bool) :
    ToText h (fuel + 1) node inc r
      = match h.get? node with
        | none => none
        | some (Node.block _) => some ""
        | some (Node.paragraph p) =>
          appendChildren (fun c => ToText h fuel c r r) inc p.Children
            ("\n".intercalate p.Sentences)
        | some (Node.section s) =>
          appendChildren (fun c => ToText h fuel c r r) inc s.Children s.Title
        | some (Node.listItem li) =>
          appendChildren (fun c => ToText h fuel c r r) inc li.Children
            ("\n".intercalate li.Sentences)
        | some (Node.table t) => some t.ToText
        | some (Node.tableRow row) => some row.ToText
        | some (Node.tableHeader th) => some th.ToText := rfl

theorem ToText_mono_succ (h : Heap) (fuel : Nat) :
    ∀ (node : Nat) (inc r : Bool) (t : String), ToText h fuel node inc r = some t →
      ToText h (fuel + 1) node inc r = some t := by
  induction fuel with
  | zero => intro node inc r t ht; simp [ToText] at ht
  | succ fuel ih =>
    intro node inc r t ht
    rw [ToText_succ] at ht ⊢
    cases hg : h.get? node with
    | none => rw [hg] at ht; cases ht
    | some nd =>
      rw [hg] at ht
      rcases nd with b | p | sec | li | tb | row | th
      all_goals first
        | exact ht
        | exact appendChildren_congr _ _ _ _ _ _ (fun c _ t hc => ih c r r t hc) ht

theorem ToText_mono (h : Heap) (fuel fuel' : Nat) (hle : fuel ≤ fuel') (node : Nat)
    (inc r : Bool) (t : String) (ht : ToText h fuel node inc r = some t) :
    ToText h fuel' node inc r = some t := by
  induction hle with
  | refl => exact ht
  | step _ ih => exact ToText_mono_succ h _ node inc r t ih

theorem children_of_get? (h : Heap) (x : Nat) (nd : Node) (hg : h.get? x = some nd) :
    Heap.children h x = nd.blk.Children := by
  unfold Heap.children
  rw [hg]

theorem ToText_total (h : Heap) (hi : HeapInv h) (inc r : Bool) (k : Nat) :
    ∀ x, h.length - x ≤ k → x < h.length → x ∉ Heap.children h x →
      ∃ t, ToText h (k + 1) x inc r = some t := by
  induction k generalizing inc with
  | zero => intro x h1 h2 _; omega
  | succ k ih =>
    intro x h1 h2 hgood
    have hsub : ∀ c ∈ Heap.children h x, ∃ t, ToText h (k + 1) c r r = some t := by
      intro c hc
      have hge := hi.childGe x c hc
      have hne : c ≠ x := fun e => hgood (e ▸ hc)
      have hlt := (hi.childRange x c hc).2
      refine ih r c (by omega) hlt ?_
      intro hcc
      have p1 := hi.parentOfChild x c hc
      have p2 := hi.parentOfChild c c hcc
      rw [p1] at p2
      exact hne (Option.some.inj p2).symm
    rw [ToText_succ]
    cases hg : h.get? x with
    | none =>
      rw [List.get?_eq_get h2] at hg
      cases hg
    | some nd =>
      have hch := children_of_get? h x nd hg
      rw [hch] at hsub
      rcases nd with b | p | sec | li | tb | row | th
      all_goals first
        | exact ⟨_, rfl⟩
        | exact appendChildren_isSome _ _ _ _ hsub

/-! ### The loop of `Document.ToText` -/

theorem foldl_append_join (l : List String) (init : String) :
    l.foldl (fun r s => r ++ s) init = init ++ String.join l := by
  unfold String.join
  induction l generalizing init with
  | nil => simp
  | cons x l ih =>
    rw [List.foldl_cons, ih, List.foldl_cons, ih ("" ++ x)]
    simp [String.append_assoc]

theorem join_cons_eq (x : String) (l : List String) :
    String.join (x :: l) = x ++ String.join l := by
  show List.foldl (fun r s => r ++ s) "" (x :: l) = x ++ String.join l
  rw [List.foldl_cons, foldl_append_join]
  simp

theorem sectionsText_eq (h : Heap) (fuel : Nat) (secs : List Nat) :
    ∀ (texts : List String) (text : String),
      secs.map (fun s => ToText h fuel s true true) = texts.map some →
      sectionsText h fuel secs text
        = some (text ++ String.join (texts.map fun t => t ++ "\n")) := by
  induction secs with
  | nil =>
    intro texts text hm
    cases texts with
    | nil => simp [sectionsText, String.join]
    | cons t ts => simp at hm
  | cons s rest ih =>
    intro texts text hm
    cases texts with
    | nil => simp at hm
    | cons t ts =>
      simp only [List.map_cons, List.cons.injEq] at hm
      simp only [sectionsText, hm.1, ih ts _ hm.2, List.map_cons, join_cons_eq,
        String.append_assoc]

theorem exists_texts (f : Nat → Option String) (l : List Nat)
    (hf : ∀ a ∈ l, ∃ t, f a = some t) : ∃ texts : List String, l.map f = texts.map some := by
  induction l with
  | nil => exact ⟨[], rfl⟩
  | cons a l ih =>
    obtain ⟨t, ht⟩ := hf a (List.mem_cons_self _ _)
    obtain ⟨ts, hts⟩ := ih (fun b hb => hf b (List.mem_cons_of_mem _ hb))
    exact ⟨t :: ts, by simp [ht, hts]⟩

theorem lastHeaderFrom_lt (rs : List JSON) :
    ∀ addr last, last < addr → lastHeaderFrom addr last rs < addr + rs.length := by
  induction rs with
  | nil => intro addr last hlt; simpa [lastHeaderFrom] using hlt
  | cons r rs ih =>
    intro addr last hlt
    rw [lastHeaderFrom, List.length_cons]
    have := ih (addr + 1) (if isHeaderRecord r then addr else last) (by split <;> omega)
    omega

theorem lastHeaderAddr_le (rs : List JSON) : lastHeaderAddr rs ≤ rs.length := by
  have := lastHeaderFrom_lt rs 1 0 (by omega)
  unfold lastHeaderAddr
  omega

theorem recordAddrs_mem (p : JSON → Bool) (rs : List JSON) :
    ∀ addr a, a ∈ recordAddrs p addr rs →
      ∃ i r, rs.get? i = some r ∧ p r = true ∧ a = addr + i := by
  induction rs with
  | nil => intro addr a ha; simp [recordAddrs] at ha
  | cons x rs ih =>
    intro addr a ha
    rw [recordAddrs] at ha
    have hrest : a ∈ recordAddrs p (addr + 1) rs →
        ∃ i r, (x :: rs).get? i = some r ∧ p r = true ∧ a = addr + i := by
      intro hmem
      obtain ⟨i, r, hi, hp, e⟩ := ih (addr + 1) a hmem
      exact ⟨i + 1, r, by simpa using hi, hp, by omega⟩
    split at ha
    · rename_i hp
      rcases List.mem_cons.mp ha with e | hmem
      · exact ⟨0, x, by simp, hp, by omega⟩
      · exact hrest hmem
    · exact hrest ha

theorem not_own_child_of_Inv (rs : List JSON) (s : ReadState) (inv : Inv rs s) (i : Nat)
    (r : JSON) (hi : rs.get? i = some r) (htag : recordTag r ≠ some "list_item") :
    (i + 1) ∉ Heap.children s.heap (i + 1) := by
  intro hmem
  have p1 := inv.heapInv.parentOfChild _ _ hmem
  have p2 := (inv.parentLinks i r hi htag).1
  rw [p1] at p2
  have e := Option.some.inj p2
  have h1 := lastHeaderAddr_le (rs.take i)
  have h2 : (rs.take i).length ≤ i := by simp
  omega

theorem Sections_of_Inv (rs : List JSON) (s : ReadState) (inv : Inv rs s) :
    ∃ fuel, ∀ fuel', fuel ≤ fuel' →
      Sections s.heap fuel' 0 = some (recordAddrs isHeaderRecord 1 rs) := by
  obtain ⟨fuel, hfuel⟩ := filter_visit_of_Inv rs s inv (isSection s.heap) isHeaderRecord
    (by
      intro x hx
      simp only [isSection, decide_eq_true_eq] at hx
      simp [isListItem, hx])
    (by
      intro i r hi
      obtain ⟨m, tag, n, -, htag, hn, hk, -⟩ := record_of_Inv rs s inv i r hi
      rw [Nat.add_comm 1 i]
      unfold isSection isHeaderRecord
      rw [hk, htag]
      have := newNode_section tag m n hn
      simp only [Option.some.injEq, this])
  refine ⟨fuel, ?_⟩
  intro fuel' hle
  rw [Sections_eq]
  exact hfuel fuel' hle

theorem DocumentToText_of_Inv (rs : List JSON) (s : ReadState) (inv : Inv rs s) :
    ∃ fuel, ∀ fuel', fuel ≤ fuel' →
      ∃ texts : List String,
        (recordAddrs isHeaderRecord 1 rs).map (fun a => ToText s.heap fuel' a true true)
          = texts.map some ∧
        DocumentToText s.heap fuel'
          = some (TrimSpace (String.join (texts.map fun t => t ++ "\n"))) := by
  obtain ⟨f1, hf1⟩ := Sections_of_Inv rs s inv
  refine ⟨max f1 (s.heap.length + 1), ?_⟩
  intro fuel' hle
  have hsec := hf1 fuel' (le_trans (le_max_left _ _) hle)
  have htot : ∀ a ∈ recordAddrs isHeaderRecord 1 rs,
      ∃ t, ToText s.heap fuel' a true true = some t := by
    intro a ha
    obtain ⟨i, r, hi, hp, e⟩ := recordAddrs_mem _ _ _ _ ha
    have htag : recordTag r ≠ some "list_item" := by
      unfold isHeaderRecord at hp
      simp only [decide_eq_true_eq] at hp
      rw [hp]
      decide
    have hlt : i < rs.length := (List.get?_eq_some.mp hi).1
    have hgood := not_own_child_of_Inv rs s inv i r hi htag
    rw [show a = i + 1 by omega]
    obtain ⟨t, ht⟩ := ToText_total s.heap inv.heapInv true true s.heap.length (i + 1)
      (by omega) (by rw [inv.len]; omega) hgood
    exact ⟨t, ToText_mono _ _ _ (le_trans (le_max_right _ _) hle) _ _ _ _ ht⟩
  obtain ⟨texts, htexts⟩ := exists_texts _ _ htot
  refine ⟨texts, htexts, ?_⟩
  unfold DocumentToText
  rw [hsec]
  simp only [sectionsText_eq _ _ _ texts "" htexts]
  simp


/-! ### Parent chains -/

theorem parentLoop_none (h : Heap) (fuel : Nat) (chain : List Nat) :
    parentLoop h fuel none chain = some chain := by
  cases fuel <;> rfl

theorem parentLoop_of_path (h : Heap)
    (hp : ∀ a c, c ∈ Heap.children h a → Heap.parent h c = some a) (root : Nat)
    (hroot : Heap.parent h root = none) (n : Nat) (ancestors : List Nat)
    (hpath : PathTo h root n ancestors) :
    ∀ (chain : List Nat) (fuel : Nat), ancestors.length ≤ fuel →
      parentLoop h fuel (Heap.parent h n) chain = some (ancestors ++ chain) := by
  induction hpath with
  | root =>
    intro chain fuel _
    rw [hroot, parentLoop_none]
    rfl
  | step p c anc _ hc ih =>
    intro chain fuel hfuel
    rw [hp p c hc]
    cases fuel with
    | zero => simp at hfuel
    | succ fuel =>
      simp only [List.length_append, List.length_singleton] at hfuel
      show parentLoop h fuel (Heap.parent h p) (p :: chain) = some (anc ++ [p] ++ chain)
      rw [ih (p :: chain) fuel (by omega)]
      simp

theorem PathTo_nil (h : Heap) (root n : Nat) (hpath : PathTo h root n []) : n = root := by
  generalize he : ([] : List Nat) = anc at hpath
  cases hpath with
  | root => rfl
  | step p c anc0 _ _ => simp at he

theorem PathTo_unique (h : Heap)
    (hp : ∀ a c, c ∈ Heap.children h a → Heap.parent h c = some a) (root : Nat)
    (hroot : Heap.parent h root = none) (n : Nat) (anc : List Nat)
    (h1 : PathTo h root n anc) : ∀ anc', PathTo h root n anc' → anc = anc' := by
  induction h1 with
  | root =>
    intro anc' h2
    cases h2 with
    | root => rfl
    | step p c anc0 _ hc =>
      rw [hp p _ hc] at hroot
      cases hroot
  | step p c anc0 _ hc ih =>
    intro anc' h2
    cases h2 with
    | root =>
      rw [hp p _ hc] at hroot
      cases hroot
    | step p' _ anc1 hpa' hc' =>
      have e1 := hp p c hc
      rw [hp p' c hc'] at e1
      have e : p' = p := Option.some.inj e1
      subst e
      rw [ih anc1 hpa']

theorem PathTo_mem (h : Heap) (root n : Nat) (anc : List Nat) (h1 : PathTo h root n anc) :
    ∀ a ∈ anc, ∃ anc', PathTo h root a anc' ∧ anc'.length < anc.length := by
  induction h1 with
  | root => intro a ha; simp at ha
  | step p c anc0 hpa _ ih =>
    intro a ha
    rcases List.mem_append.mp ha with hmem | hmem
    · obtain ⟨anc', h1, h2⟩ := ih a hmem
      exact ⟨anc', h1, by simp; omega⟩
    · have e : a = p := by simpa using hmem
      subst e
      exact ⟨anc0, hpa, by simp⟩

theorem PathTo_not_mem (h : Heap)
    (hp : ∀ a c, c ∈ Heap.children h a → Heap.parent h c = some a) (root : Nat)
    (hroot : Heap.parent h root = none) (n : Nat) (anc : List Nat)
    (h1 : PathTo h root n anc) : n ∉ anc := by
  intro hmem
  obtain ⟨anc', h2, hlt⟩ := PathTo_mem h root n anc h1 n hmem
  have := PathTo_unique h hp root hroot n anc h1 anc' h2
  rw [this] at hlt
  exact lt_irrefl _ hlt

theorem PathTo_head (h : Heap) (root n : Nat) (anc : List Nat) (h1 : PathTo h root n anc) :
    ∀ a, anc.head? = some a → a = root := by
  induction h1 with
  | root => intro a ha; simp at ha
  | step p c anc0 hpa _ ih =>
    intro a ha
    cases anc0 with
    | nil =>
      have := PathTo_nil h root p hpa
      simp at ha
      rw [← ha, this]
    | cons x xs => exact ih a (by simpa using ha)

theorem PathTo_parent (h : Heap)
    (hp : ∀ a c, c ∈ Heap.children h a → Heap.parent h c = some a) (root : Nat)
    (hroot : Heap.parent h root = none) (n : Nat) (anc : List Nat)
    (h1 : PathTo h root n anc) : Heap.parent h n = anc.getLast? := by
  cases h1 with
  | root => rw [hroot]; rfl
  | step p c anc0 _ hc => rw [hp p n hc]; simp

theorem PathTo_lt (h : Heap) (root n : Nat) (anc : List Nat) (h1 : PathTo h root n anc) :
    ∀ a ∈ anc, a < h.length := by
  induction h1 with
  | root => intro a ha; simp at ha
  | step p c anc0 _ hc ih =>
    intro a ha
    rcases List.mem_append.mp ha with hmem | hmem
    · exact ih a hmem
    · have e : a = p := by simpa using hmem
      subst e
      exact Heap.children_lt_length h a c hc

/-! ### The texts of a parent chain -/

theorem parentTexts_eq (h : Heap) (chain : List Nat) :
    ∀ (headerTexts paraTexts : List String), (∀ p ∈ chain, p < h.length) →
      parentTexts h chain headerTexts paraTexts
        = some
          (headerTexts ++
            (chain.filter fun p => decide (Heap.tag h p = "header")).map (Heap.blockText h),
           paraTexts ++
            (chain.filter fun p =>
              decide (Heap.tag h p = "list_item" ∨ Heap.tag h p = "para")).map
              (Heap.blockText h)) := by
  induction chain with
  | nil => intro hs ps _; simp [parentTexts]
  | cons p rest ih =>
    intro hs ps hlt
    have hp := hlt p (List.mem_cons_self _ _)
    have hrest : ∀ q ∈ rest, q < h.length := fun q hq => hlt q (List.mem_cons_of_mem _ hq)
    obtain ⟨nd, hg⟩ : ∃ nd, h.get? p = some nd := ⟨_, List.get?_eq_get hp⟩
    have htag : Heap.tag h p = nd.blk.Tag := by unfold Heap.tag; rw [hg]
    have htext : Heap.blockText h p = nd.blk.ToText false false := by
      unfold Heap.blockText; rw [hg]
    rw [parentTexts, hg]
    simp only [List.filter_cons, htag]
    by_cases h1 : nd.blk.Tag = "header"
    · have h2 : ¬ (nd.blk.Tag = "list_item" ∨ nd.blk.Tag = "para") := by
        rw [h1]; decide
      simp only [h1, h2, if_true, decide_True, decide_False, ih _ _ hrest, List.map_cons,
        htext, List.append_assoc, List.singleton_append]
      simp
    · by_cases h2 : nd.blk.Tag = "list_item" ∨ nd.blk.Tag = "para"
      · simp only [h1, h2, if_true, if_false, decide_True, decide_False, ih _ _ hrest,
          List.map_cons, htext, List.append_assoc, List.singleton_append]
        simp
      · simp only [h1, h2, if_false, decide_False, ih _ _ hrest]
        simp

theorem joinParentTexts_eq (hs ps : List String) :
    joinParentTexts hs ps
      = (if hs = [] then "" else " > " ++ " > ".intercalate hs) ++
        (if ps = [] then "" else "\n" ++ "\n".intercalate ps) := by
  unfold joinParentTexts
  cases hs <;> cases ps <;> simp

theorem appendChildren_true (g : Nat → Option String) (cs : List Nat) :
    ∀ (texts : List String) (text : String), cs.map g = texts.map some →
      appendChildren g true cs text
        = some (text ++ String.join (texts.map fun t => "\n" ++ t)) := by
  induction cs with
  | nil =>
    intro texts text hm
    cases texts with
    | nil => simp [appendChildren, String.join]
    | cons t ts => simp at hm
  | cons c rest ih =>
    intro texts text hm
    cases texts with
    | nil => simp at hm
    | cons t ts =>
      simp only [List.map_cons, List.cons.injEq] at hm
      simp only [appendChildren, hm.1, if_true, ih ts _ hm.2, List.map_cons, join_cons_eq,
        String.append_assoc]


/-! ### Tables: text, HTML and construction -/

theorem join_nil_eq : String.join [] = "" := rfl

theorem foldl_append_map {α : Type} (f : α → String) (l : List α) (init : String) :
    l.foldl (fun acc x => acc ++ f x) init = init ++ String.join (l.map f) := by
  induction l generalizing init with
  | nil => simp [join_nil_eq]
  | cons x l ih =>
    rw [List.foldl_cons, ih, List.map_cons, join_cons_eq, String.append_assoc]

theorem cellsText_eq (cells : List TableCell) :
    cellsText cells = String.join (cells.map fun c => " | " ++ c.ToText) := by
  unfold cellsText
  have h := foldl_append_map (fun c : TableCell => " | " ++ c.ToText) cells ""
  simp only [String.empty_append] at h
  rw [← h]
  congr 1
  funext cellText cell
  rw [String.append_assoc]

theorem TableHeader_ToText_eq (th : TableHeader) :
    th.ToText
      = String.join (th.Cells.map fun c => " | " ++ c.ToText) ++ "\n"
          ++ String.join (th.Cells.map fun _ => " | ---") := by
  unfold TableHeader.ToText
  rw [foldl_append_map (fun _ : TableCell => " | ---"), cellsText_eq]

theorem Table_ToText_eq (t : Table) : t.ToText = TrimSpace (tableLines t) := by
  unfold Table.ToText tableLines
  simp only []
  rw [foldl_append_map (fun row : TableRow => row.ToText ++ "\n"),
    foldl_append_map (fun header : TableHeader => header.ToText ++ "\n"), String.empty_append]
  congr 2
  · congr 1
    apply List.map_congr_left
    intro hd _
    rw [TableHeader_ToText_eq]
  · congr 1
    apply List.map_congr_left
    intro row _
    unfold TableRow.ToText
    rw [cellsText_eq]

theorem cellsHTML_eq (cells : List TableCell) (htmlStr : String) :
    cellsHTML cells htmlStr = htmlStr ++ String.join (cells.map TableCell.ToHTML) := by
  unfold cellsHTML
  exact foldl_append_map TableCell.ToHTML cells htmlStr

theorem TableRow_ToHTML_eq :
    TableRow.ToHTML
      = fun row => "<tr>" ++ String.join (row.Cells.map TableCell.ToHTML) ++ "</tr>" := by
  funext row
  unfold TableRow.ToHTML
  rw [cellsHTML_eq]

theorem TableHeader_ToHTML_eq :
    TableHeader.ToHTML
      = fun hd => "<th>" ++ String.join (hd.Cells.map TableCell.ToHTML) ++ "</th>" := by
  funext hd
  unfold TableHeader.ToHTML
  rw [cellsHTML_eq]

theorem Table_ToHTML_eq (t : Table) :
    t.ToHTML
      = "<table>"
          ++ String.join (t.Headers.map fun hd =>
              "<th>" ++ String.join (hd.Cells.map TableCell.ToHTML) ++ "</th>")
          ++ String.join (t.Rows.map fun row =>
              "<tr>" ++ String.join (row.Cells.map TableCell.ToHTML) ++ "</tr>")
          ++ "</table>" := by
  unfold Table.ToHTML
  simp only []
  rw [foldl_append_map TableRow.ToHTML, foldl_append_map TableHeader.ToHTML,
    TableRow_ToHTML_eq, TableHeader_ToHTML_eq]

theorem TableCell_ToHTML_eq (tc : TableCell) :
    tc.ToHTML
      = if tc.ColSpan ≤ 1 then "<td>" ++ tc.cellHTML ++ "</td>"
        else "<td colspan=\"" ++ formatInt tc.ColSpan ++ "\">" ++ tc.cellHTML ++ "</td>" := by
  unfold TableCell.ToHTML
  simp only []
  by_cases hc : tc.ColSpan ≤ 1
  · rw [if_pos hc, if_neg (by omega)]
    simp [String.append_assoc]
    rfl
  · rw [if_neg hc, if_pos (by omega)]
    simp only [String.append_assoc]
    rfl

theorem filterMap_asString_map (ss : List String) :
    (ss.map JSON.str).filterMap JSON.asString = ss := by
  induction ss with
  | nil => rfl
  | cons s ss ih => simp [JSON.asString, ih]

theorem NewTableCell_of_str (cellJSON : List (String × JSON)) (v : String)
    (hv : JSON.index cellJSON "cell_value" = JSON.str v) :
    ∃ c, NewTableCell cellJSON = some c ∧ c.CellValue = JSON.str v ∧ c.CellNode = none ∧
      c.ColSpan = (match (JSON.index cellJSON "col_span").asFloat with
        | some n => toInt n
        | none => 1) := by
  unfold NewTableCell
  simp only [hv, JSON.asString]
  exact ⟨_, rfl, rfl, rfl, rfl⟩

theorem NewTableCell_of_obj (cellJSON : List (String × JSON)) (m : List (String × JSON))
    (hv : JSON.index cellJSON "cell_value" = JSON.obj m) :
    ∃ c, NewTableCell cellJSON = some c ∧ c.CellValue = JSON.obj m ∧
      c.CellNode = some (NewParagraph m) ∧
      c.ColSpan = (match (JSON.index cellJSON "col_span").asFloat with
        | some n => toInt n
        | none => 1) := by
  unfold NewTableCell
  simp only [hv, JSON.asString, JSON.asMap]
  exact ⟨_, rfl, rfl, rfl, rfl⟩

theorem NewTableCell_some (cellJSON : List (String × JSON)) (c : TableCell)
    (hc : NewTableCell cellJSON = some c) :
    c.CellValue = JSON.index cellJSON "cell_value" ∧
    c.ColSpan = (match (JSON.index cellJSON "col_span").asFloat with
      | some n => toInt n
      | none => 1) ∧
    ((∃ v, c.CellValue = JSON.str v ∧ c.CellNode = none) ∨
     (∃ m, c.CellValue = JSON.obj m ∧ c.CellNode = some (NewParagraph m))) := by
  cases hv : JSON.index cellJSON "cell_value" with
  | str v =>
    obtain ⟨c', h1, h2, h3, h4⟩ := NewTableCell_of_str cellJSON v hv
    rw [h1] at hc
    cases hc
    exact ⟨h2, h4, Or.inl ⟨v, h2, h3⟩⟩
  | obj m =>
    obtain ⟨c', h1, h2, h3, h4⟩ := NewTableCell_of_obj cellJSON m hv
    rw [h1] at hc
    cases hc
    exact ⟨h2, h4, Or.inr ⟨m, h2, h3⟩⟩
  | null => simp [NewTableCell, hv, JSON.asString, JSON.asMap] at hc
  | bool b => simp [NewTableCell, hv, JSON.asString, JSON.asMap] at hc
  | num n => simp [NewTableCell, hv, JSON.asString, JSON.asMap] at hc
  | arr xs => simp [NewTableCell, hv, JSON.asString, JSON.asMap] at hc

theorem newCells_eq (cells : List JSON) :
    ∀ cs, newCells cells = some cs → cs.map some = cells.map cellOfJSON := by
  induction cells with
  | nil =>
    intro cs h
    simp only [newCells, Option.some.injEq] at h
    subst h
    rfl
  | cons x rest ih =>
    intro cs h
    simp only [newCells] at h
    cases hx : x.asMap with
    | none => simp [hx] at h
    | some m =>
      simp only [hx] at h
      cases hc : NewTableCell m with
      | none => simp [hc] at h
      | some cell =>
        simp only [hc] at h
        cases hr : newCells rest with
        | none => simp [hr] at h
        | some cs' =>
          simp only [hr, Option.some.injEq] at h
          subst h
          simp only [List.map_cons, ih cs' hr, cellOfJSON, hx, hc]

theorem newTableRows_eq (rows : List JSON) :
    ∀ (accRows : List TableRow) (accHeaders : List TableHeader) (rs : List TableRow)
      (hs : List TableHeader),
      newTableRows rows accRows accHeaders = some (rs, hs) →
      rs.map some
        = accRows.map some ++ (rows.filter fun r => !isTableHeaderRow r).map rowOfRow ∧
      hs.map some = accHeaders.map some ++ (rows.filter isTableHeaderRow).map headerOfRow := by
  induction rows with
  | nil =>
    intro accRows accHeaders rs hs h
    simp only [newTableRows, Option.some.injEq, Prod.mk.injEq] at h
    obtain ⟨rfl, rfl⟩ := h
    simp
  | cons x rest ih =>
    intro accRows accHeaders rs hs h
    simp only [newTableRows] at h
    cases hx : x.asMap with
    | none => simp [hx] at h
    | some rowData =>
      simp only [hx] at h
      by_cases ht : (JSON.index rowData "type").asString = some "table_header"
      · rw [if_pos ht] at h
        have hhd : isTableHeaderRow x = true := by simp [isTableHeaderRow, hx, ht]
        cases hh : NewTableHeader rowData with
        | none => simp [hh] at h
        | some header =>
          simp only [hh] at h
          obtain ⟨h1, h2⟩ := ih _ _ rs hs h
          refine ⟨?_, ?_⟩
          · rw [h1]
            simp [List.filter_cons, hhd]
          · rw [h2]
            simp [List.filter_cons, hhd, headerOfRow, hx, hh]
      · rw [if_neg ht] at h
        have hhd : isTableHeaderRow x = false := by simp [isTableHeaderRow, hx, ht]
        cases hh : NewTableRow rowData with
        | none => simp [hh] at h
        | some row =>
          simp only [hh] at h
          obtain ⟨h1, h2⟩ := ih _ _ rs hs h
          refine ⟨?_, ?_⟩
          · rw [h1]
            simp [List.filter_cons, hhd, rowOfRow, hx, hh]
          · rw [h2]
            simp [List.filter_cons, hhd]

theorem filter_length_add (p : JSON → Bool) (l : List JSON) :
    (l.filter p).length + (l.filter fun r => !p r).length = l.length := by
  induction l with
  | nil => rfl
  | cons x l ih =>
    cases hp : p x
    · simp [List.filter_cons, hp]
      omega
    · simp [List.filter_cons, hp]
      omega

theorem NewTableCell_ColSpan (cellJSON : List (String × JSON)) (c : TableCell)
    (hc : NewTableCell cellJSON = some c) :
    c.ColSpan = ((JSON.index cellJSON "col_span").asFloat.map toInt).getD 1 := by
  rw [(NewTableCell_some cellJSON c hc).2.1]
  cases (JSON.index cellJSON "col_span").asFloat <;> rfl

theorem TableCell_ToText_str (c : TableCell) (v : String) (hv : c.CellValue = JSON.str v) :
    c.ToText = v := by
  unfold TableCell.ToText
  rw [hv]

theorem TableCell_ToText_obj (c : TableCell) (m : List (String × JSON)) (p : Paragraph)
    (hv : c.CellValue = JSON.obj m) (hp : c.CellNode = some p) :
    c.ToText = "\n".intercalate p.Sentences := by
  unfold TableCell.ToText
  rw [hv, hp]
  rfl

theorem NewParagraph_Sentences (m : List (String × JSON)) (ss : List String)
    (hs : JSON.index m "sentences" = JSON.arr (ss.map JSON.str)) :
    (NewParagraph m).Sentences = ss := by
  show (NewBlock m).Sentences = ss
  unfold NewBlock
  simp only [hs, JSON.asArray, filterMap_asString_map]

theorem NewTableRow_full (rowData : List (String × JSON)) (row : TableRow)
    (hrow : NewTableRow rowData = some row)
    (hfull : (JSON.index rowData "type").asString = some "full_row") :
    ∃ cell, row.Cells = [cell] ∧ NewTableCell rowData = some cell := by
  unfold NewTableRow at hrow
  rw [if_pos hfull] at hrow
  cases hc : NewTableCell rowData with
  | none => simp [hc] at hrow
  | some cell =>
    simp only [hc, Option.some.injEq] at hrow
    subst hrow
    exact ⟨cell, rfl, rfl⟩

theorem NewTableRow_cells (rowData : List (String × JSON)) (row : TableRow)
    (hrow : NewTableRow rowData = some row)
    (hfull : (JSON.index rowData "type").asString ≠ some "full_row") (cells : List JSON)
    (hcells : JSON.index rowData "cells" = JSON.arr cells) :
    row.Cells.map some = cells.map cellOfJSON := by
  unfold NewTableRow at hrow
  rw [if_neg hfull] at hrow
  simp only [hcells, JSON.asArray] at hrow
  cases hc : newCells cells with
  | none => simp [hc] at hrow
  | some cs =>
    simp only [hc, Option.some.injEq] at hrow
    subst hrow
    exact newCells_eq cells cs hc

theorem NewTable_of_rows (tableJSON : List (String × JSON)) (name : String)
    (hname : JSON.index tableJSON "name" = JSON.str name)
    (hok : ((JSON.index tableJSON "table_rows").asArray.getD []).all rowOk = true) :
    ∃ t, NewTable tableJSON = some t ∧
      t.Headers.map some
        = (((JSON.index tableJSON "table_rows").asArray.getD []).filter
            isTableHeaderRow).map headerOfRow ∧
      t.Rows.map some
        = (((JSON.index tableJSON "table_rows").asArray.getD []).filter
            fun r => !isTableHeaderRow r).map rowOfRow := by
  cases harr : (JSON.index tableJSON "table_rows").asArray with
  | none =>
    refine ⟨{ toBlock := NewBlock tableJSON, Rows := [], Headers := [], Name := name },
      ?_, rfl, rfl⟩
    unfold NewTable
    simp only [hname, JSON.asString, harr]
  | some rows =>
    rw [harr] at hok
    simp only [Option.getD_some] at hok ⊢
    have hsome := newTableRows_isSome rows [] []
    rw [hok] at hsome
    cases hr : newTableRows rows [] [] with
    | none => simp [hr] at hsome
    | some res =>
      obtain ⟨rs, hs⟩ := res
      obtain ⟨h1, h2⟩ := newTableRows_eq rows [] [] rs hs hr
      refine ⟨{ toBlock := NewBlock tableJSON, Rows := rs, Headers := hs, Name := name },
        ?_, ?_, ?_⟩
      · unfold NewTable
        simp only [hname, JSON.asString, harr, hr]
      · simpa using h2
      · simpa using h1


/-! ### HTML rendering terminates on the nodes that are not their own child -/

theorem htmlChildren_eq (g : Nat → Option String) (cs : List Nat) :
    ∀ (texts : List String) (htmlStr : String), cs.map g = texts.map some →
      htmlChildren g cs htmlStr = some (htmlStr ++ String.join texts) := by
  induction cs with
  | nil =>
    intro texts htmlStr hm
    cases texts with
    | nil => simp [htmlChildren, join_nil_eq]
    | cons t ts => simp at hm
  | cons c rest ih =>
    intro texts htmlStr hm
    cases texts with
    | nil => simp at hm
    | cons t ts =>
      simp only [List.map_cons, List.cons.injEq] at hm
      simp only [htmlChildren, hm.1]
      rw [ih ts _ hm.2, join_cons_eq, String.append_assoc]

theorem htmlChildren_congr (g g' : Nat → Option String) (cs : List Nat) :
    ∀ (htmlStr out : String), (∀ c ∈ cs, ∀ t, g c = some t → g' c = some t) →
      htmlChildren g cs htmlStr = some out → htmlChildren g' cs htmlStr = some out := by
  induction cs with
  | nil => intro htmlStr out _ ho; simpa [htmlChildren] using ho
  | cons c rest ih =>
    intro htmlStr out hg ho
    simp only [htmlChildren] at ho ⊢
    cases hc : g c with
    | none => simp [hc] at ho
    | some t =>
      simp only [hc] at ho
      rw [hg c (List.mem_cons_self _ _) t hc]
      exact ih _ _ (fun d hd => hg d (List.mem_cons_of_mem _ hd)) ho

theorem htmlChildren_isSome (g : Nat → Option String) (cs : List Nat) :
    ∀ (htmlStr : String), (∀ c ∈ cs, ∃ t, g c = some t) →
      ∃ out, htmlChildren g cs htmlStr = some out := by
  induction cs with
  | nil => intro htmlStr _; exact ⟨htmlStr, rfl⟩
  | cons c rest ih =>
    intro htmlStr hg
    simp only [htmlChildren]
    obtain ⟨t, ht⟩ := hg c (List.mem_cons_self _ _)
    simp only [ht]
    exact ih _ (fun d hd => hg d (List.mem_cons_of_mem _ hd))

/-- The body of the case `*Paragraph` and of the case `*ListItem` of `ToHTML`, which differ
by the two tags only. -/
theorem wrapped_congr (g g' : Nat → Option String) (cs : List Nat) (cond : Bool)
    (htmlStr close out : String) (hg : ∀ c ∈ cs, ∀ t, g c = some t → g' c = some t)
    (ho : (if cond then
        match htmlChildren g cs (htmlStr ++ "<ul>") with
        | none => none
        | some s => some (s ++ "</ul>" ++ close)
      else some (htmlStr ++ close)) = some out) :
    (if cond then
        match htmlChildren g' cs (htmlStr ++ "<ul>") with
        | none => none
        | some s => some (s ++ "</ul>" ++ close)
      else some (htmlStr ++ close)) = some out := by
  cases cond with
  | false => simpa using ho
  | true =>
    simp only [if_true] at ho ⊢
    cases hc : htmlChildren g cs (htmlStr ++ "<ul>") with
    | none => simp [hc] at ho
    | some s =>
      rw [htmlChildren_congr g g' cs _ s hg hc]
      simpa [hc] using ho

theorem wrapped_isSome (g : Nat → Option String) (cs : List Nat) (cond : Bool)
    (htmlStr close : String) (hg : ∀ c ∈ cs, ∃ t, g c = some t) :
    ∃ out, (if cond then
        match htmlChildren g cs (htmlStr ++ "<ul>") with
        | none => none
        | some s => some (s ++ "</ul>" ++ close)
      else some (htmlStr ++ close)) = some out := by
  cases cond with
  | false => exact ⟨_, rfl⟩
  | true =>
    obtain ⟨s, hs⟩ := htmlChildren_isSome g cs (htmlStr ++ "<ul>") hg
    simp only [if_true, hs]
    exact ⟨_, rfl⟩

theorem ToHTML_succ (h : Heap) (fuel node : Nat) (inc r : Bool) :
    ToHTML h (fuel + 1) node inc r
      = match h.get? node with
        | none => none
        | some (Node.block _) => some ""
        | some (Node.paragraph p) =>
          if inc && decide (p.Children.length > 0) then
            match htmlChildren (fun c => ToHTML h fuel c r r) p.Children
                ("<p>" ++ "<br>".intercalate p.Sentences ++ "<ul>") with
            | none => none
            | some htmlStr => some (htmlStr ++ "</ul>" ++ "</p>")
          else some ("<p>" ++ "<br>".intercalate p.Sentences ++ "</p>")
        | some (Node.section s) =>
          if inc then
            htmlChildren (fun c => ToHTML h fuel c r r) s.Children
              ("<h" ++ formatInt (wrapInt (s.Level + 1)) ++ ">" ++ s.Title
                ++ ("</h" ++ formatInt (wrapInt (s.Level + 1)) ++ ">"))
          else some ("<h" ++ formatInt (wrapInt (s.Level + 1)) ++ ">" ++ s.Title
                ++ ("</h" ++ formatInt (wrapInt (s.Level + 1)) ++ ">"))
        | some (Node.listItem li) =>
          if inc && decide (li.Children.length > 0) then
            match htmlChildren (fun c => ToHTML h fuel c r r) li.Children
                ("<li>" ++ "<br>".intercalate li.Sentences ++ "<ul>") with
            | none => none
            | some htmlStr => some (htmlStr ++ "</ul>" ++ "</li>")
          else some ("<li>" ++ "<br>".intercalate li.Sentences ++ "</li>")
        | some (Node.table t) => some t.ToHTML
        | some (Node.tableRow row) => some row.ToHTML
        | some (Node.tableHeader th) => some th.ToHTML := rfl

theorem ToHTML_mono_succ (h : Heap) (fuel : Nat) :
    ∀ (node : Nat) (inc r : Bool) (t : String), ToHTML h fuel node inc r = some t →
      ToHTML h (fuel + 1) node inc r = some t := by
  induction fuel with
  | zero => intro node inc r t ht; simp [ToHTML] at ht
  | succ fuel ih =>
    intro node inc r t ht
    rw [ToHTML_succ] at ht ⊢
    cases hg : h.get? node with
    | none => rw [hg] at ht; cases ht
    | some nd =>
      rw [hg] at ht
      rcases nd with b | p | sec | li | tb | row | th
      · exact ht
      · exact wrapped_congr _ _ _ _ _ _ _ (fun c _ t hc => ih c r r t hc) ht
      · cases inc with
        | false => exact ht
        | true =>
          simp only [if_true] at ht ⊢
          exact htmlChildren_congr _ _ _ _ _ (fun c _ t hc => ih c r r t hc) ht
      · exact wrapped_congr _ _ _ _ _ _ _ (fun c _ t hc => ih c r r t hc) ht
      · exact ht
      · exact ht
      · exact ht

theorem ToHTML_mono (h : Heap) (fuel fuel' : Nat) (hle : fuel ≤ fuel') (node : Nat)
    (inc r : Bool) (t : String) (ht : ToHTML h fuel node inc r = some t) :
    ToHTML h fuel' node inc r = some t := by
  induction hle with
  | refl => exact ht
  | step _ ih => exact ToHTML_mono_succ h _ node inc r t ih

theorem ToHTML_total (h : Heap) (hi : HeapInv h) (inc r : Bool) (k : Nat) :
    ∀ x, h.length - x ≤ k → x < h.length → x ∉ Heap.children h x →
      ∃ t, ToHTML h (k + 1) x inc r = some t := by
  induction k generalizing inc with
  | zero => intro x h1 h2 _; omega
  | succ k ih =>
    intro x h1 h2 hgood
    have hsub : ∀ c ∈ Heap.children h x, ∃ t, ToHTML h (k + 1) c r r = some t := by
      intro c hc
      have hge := hi.childGe x c hc
      have hne : c ≠ x := fun e => hgood (e ▸ hc)
      have hlt := (hi.childRange x c hc).2
      refine ih r c (by omega) hlt ?_
      intro hcc
      have p1 := hi.parentOfChild x c hc
      have p2 := hi.parentOfChild c c hcc
      rw [p1] at p2
      exact hne (Option.some.inj p2).symm
    rw [ToHTML_succ]
    cases hg : h.get? x with
    | none =>
      rw [List.get?_eq_get h2] at hg
      cases hg
    | some nd =>
      have hch := children_of_get? h x nd hg
      rw [hch] at hsub
      rcases nd with b | p | sec | li | tb | row | th
      · exact ⟨_, rfl⟩
      · exact wrapped_isSome _ _ _ _ _ hsub
      · cases inc with
        | false => exact ⟨_, rfl⟩
        | true =>
          simp only [if_true]
          exact htmlChildren_isSome _ _ _ hsub
      · exact wrapped_isSome _ _ _ _ _ hsub
      · exact ⟨_, rfl⟩
      · exact ⟨_, rfl⟩
      · exact ⟨_, rfl⟩

/-! ### The loop of `Document.ToHTML` -/

theorem sectionsHTML_eq (h : Heap) (fuel : Nat) (secs : List Nat) :
    ∀ (texts : List String) (htmlStr : String),
      secs.map (fun s => ToHTML h fuel s true true) = texts.map some →
      sectionsHTML h fuel secs htmlStr = some (htmlStr ++ String.join texts) := by
  induction secs with
  | nil =>
    intro texts htmlStr hm
    cases texts with
    | nil => simp [sectionsHTML, join_nil_eq]
    | cons t ts => simp at hm
  | cons c rest ih =>
    intro texts htmlStr hm
    cases texts with
    | nil => simp at hm
    | cons t ts =>
      simp only [List.map_cons, List.cons.injEq] at hm
      simp only [sectionsHTML, hm.1]
      rw [ih ts _ hm.2, join_cons_eq, String.append_assoc]

theorem DocumentToHTML_of_Inv (rs : List JSON) (s : ReadState) (inv : Inv rs s) :
    ∃ fuel, ∀ fuel', fuel ≤ fuel' →
      ∃ texts : List String,
        (recordAddrs isHeaderRecord 1 rs).map (fun a => ToHTML s.heap fuel' a true true)
          = texts.map some ∧
        DocumentToHTML s.heap fuel' = some ("<html>" ++ String.join texts ++ "</html>") := by
  obtain ⟨f1, hf1⟩ := Sections_of_Inv rs s inv
  refine ⟨max f1 (s.heap.length + 1), ?_⟩
  intro fuel' hle
  have hsec := hf1 fuel' (le_trans (le_max_left _ _) hle)
  have hlen : s.heap.length + 1 ≤ fuel' := le_trans (le_max_right _ _) hle
  have hall : ∀ a ∈ recordAddrs isHeaderRecord 1 rs,
      ∃ t, (fun a => ToHTML s.heap fuel' a true true) a = some t := by
    intro a ha
    obtain ⟨i, r, hi, hr, rfl⟩ := recordAddrs_mem isHeaderRecord rs 1 a ha
    have hil : i < rs.length := by
      rw [List.get?_eq_getElem?] at hi
      exact (List.getElem?_eq_some_iff.mp hi).1
    have htag : recordTag r ≠ some "list_item" := by
      simp only [isHeaderRecord, decide_eq_true_eq] at hr
      rw [hr]
      decide
    have hown := not_own_child_of_Inv rs s inv i r hi htag
    rw [Nat.add_comm 1 i]
    obtain ⟨t, ht⟩ := ToHTML_total s.heap inv.heapInv true true s.heap.length (i + 1)
      (by omega) (by rw [inv.len]; omega) hown
    exact ⟨t, ToHTML_mono s.heap _ fuel' hlen _ _ _ t ht⟩
  obtain ⟨texts, htexts⟩ := exists_texts _ _ hall
  refine ⟨texts, htexts, ?_⟩
  unfold DocumentToHTML
  rw [hsec]
  simp only [sectionsHTML_eq s.heap fuel' _ texts "<html>" htexts]


/-! ### The part of a built heap that hangs from the root -/

theorem root_lt_of_HeapInv (h : Heap) (hi : HeapInv h) : 0 < h.length :=
  Heap.kind_lt_length h 0 Kind.block hi.rootKind

theorem PathTo_good (h : Heap) (hi : HeapInv h) (n : Nat) (anc : List Nat)
    (hpath : PathTo h 0 n anc) : n < h.length ∧ n ∉ Heap.children h n := by
  induction hpath with
  | root =>
    refine ⟨root_lt_of_HeapInv h hi, ?_⟩
    intro h0
    have := (hi.childRange 0 0 h0).1
    omega
  | step p c ancestors _ hc ih =>
    refine ⟨(hi.childRange p c hc).2, ?_⟩
    intro hcc
    have p1 := hi.parentOfChild p c hc
    have p2 := hi.parentOfChild c c hcc
    rw [p1] at p2
    have e : p = c := Option.some.inj p2
    rw [e] at ih
    exact ih.2 hcc

theorem PathTo_child_lt (h : Heap) (hi : HeapInv h) (n : Nat) (anc : List Nat)
    (hpath : PathTo h 0 n anc) : ∀ c ∈ Heap.children h n, n < c := by
  intro c hc
  have hge := hi.childGe n c hc
  have hne : c ≠ n := fun e => (PathTo_good h hi n anc hpath).2 (e ▸ hc)
  omega

theorem queries_total_of_Inv (rs : List JSON) (s : ReadState) (inv : Inv rs s) :
    ∃ fuel, ∀ fuel', fuel ≤ fuel' →
      (Sections s.heap fuel' 0).isSome ∧ (Chunks s.heap fuel' 0).isSome ∧
      (Tables s.heap fuel' 0).isSome ∧ (Paragraphs s.heap fuel' 0).isSome := by
  obtain ⟨fuel, l, hl, -⟩ := inv.visit
  refine ⟨fuel, ?_⟩
  intro fuel' hle
  have hv := visitSeq_mono s.heap fuel fuel' hle Kind.block 0 l hl
  rw [Sections_eq, Chunks_eq, Tables_eq, Paragraphs_eq, hv]
  simp

theorem recordAddrs_length (p : JSON → Bool) (rs : List JSON) :
    ∀ addr, (recordAddrs p addr rs).length = (rs.filter p).length := by
  induction rs with
  | nil => intro addr; rfl
  | cons r rs ih =>
    intro addr
    simp only [recordAddrs, List.filter_cons]
    split
    · simp [ih]
    · exact ih _

theorem kind_of_record (rs : List JSON) (s : ReadState) (inv : Inv rs s) (i : Nat) (r : JSON)
    (hi : rs.get? i = some r) (tag : String) (htag : recordTag r = some tag) :
    Heap.kind s.heap (i + 1)
      = some (if tag = "para" then Kind.paragraph
        else if tag = "table" then Kind.table
        else if tag = "list_item" then Kind.listItem
        else if tag = "header" then Kind.section
        else Kind.block) := by
  obtain ⟨m, tag', n, -, htag', hn, hk, -⟩ := record_of_Inv rs s inv i r hi
  rw [htag] at htag'
  cases htag'
  rw [hk, newNode_kind tag m n hn]

theorem query_of_Inv (rs : List JSON) (s : ReadState) (inv : Inv rs s) (k : Kind)
    (tag : String) (hk : k ≠ Kind.listItem)
    (hkt : ∀ tag' : String,
      (if tag' = "para" then Kind.paragraph
        else if tag' = "table" then Kind.table
        else if tag' = "list_item" then Kind.listItem
        else if tag' = "header" then Kind.section
        else Kind.block) = k ↔ tag' = tag) :
    ∃ fuel, ∀ fuel', fuel ≤ fuel' →
      (visitSeq s.heap fuel' Kind.block 0).map
          (fun l => l.filter fun a => decide (Heap.kind s.heap a = some k))
        = some (recordAddrs (fun r => decide (recordTag r = some tag)) 1 rs) := by
  apply filter_visit_of_Inv rs s inv
  · intro x hx
    simp only [decide_eq_true_eq] at hx
    simp only [isListItem, hx, Option.some.injEq, decide_eq_false_iff_not]
    exact hk
  · intro i r hi
    obtain ⟨m, tag', n, -, htag', -, -, -⟩ := record_of_Inv rs s inv i r hi
    rw [Nat.add_comm 1 i, kind_of_record rs s inv i r hi tag' htag', htag']
    simp only [Option.some.injEq]
    exact decide_eq_decide.mpr (hkt tag')

/-! ### `ParentText` on a node of the tree -/

theorem ParentText_isSome_of_path (h : Heap)
    (hp : ∀ a c, c ∈ Heap.children h a → Heap.parent h c = some a) (root : Nat)
    (hroot : Heap.parent h root = none) (n : Nat) (ancestors : List Nat)
    (hpath : PathTo h root n ancestors) (fuel : Nat) (hfuel : ancestors.length ≤ fuel) :
    ∃ parentText, ParentText h fuel n = some parentText := by
  have hchain : ParentChain h fuel n = some ancestors := by
    unfold ParentChain
    rw [parentLoop_of_path h hp root hroot n ancestors hpath [] fuel hfuel]
    simp
  unfold ParentText
  rw [hchain]
  simp only [parentTexts_eq h ancestors [] [] (PathTo_lt h root n ancestors hpath)]
  exact ⟨_, rfl⟩

theorem ToContextText_false (h : Heap) (fuel n : Nat) (node : Node)
    (hn : h.get? n = some node) :
    ToContextText h fuel n false
      = some (if node.blk.Tag = "list_item" ∨ node.blk.Tag = "para" ∨ node.blk.Tag = "table"
          then node.blk.ToText true true else node.blk.ToText false false) := by
  unfold ToContextText
  simp only [hn, Bool.false_eq_true, if_false]
  by_cases ht : node.blk.Tag = "list_item" ∨ node.blk.Tag = "para" ∨ node.blk.Tag = "table"
  · simp only [if_pos ht, String.empty_append]
  · simp only [if_neg ht, String.empty_append]

theorem ToContextText_true (h : Heap) (fuel n : Nat) (node : Node)
    (hn : h.get? n = some node) (parentText : String)
    (hpt : ParentText h fuel n = some parentText) :
    ToContextText h fuel n true
      = some (parentText ++ "\n" ++
          (if node.blk.Tag = "list_item" ∨ node.blk.Tag = "para" ∨ node.blk.Tag = "table"
            then node.blk.ToText true true else node.blk.ToText false false)) := by
  unfold ToContextText
  simp only [hn, hpt, if_true]
  by_cases ht : node.blk.Tag = "list_item" ∨ node.blk.Tag = "para" ∨ node.blk.Tag = "table"
  · simp only [if_pos ht, String.empty_append]
  · simp only [if_neg ht, String.empty_append]


/-! ### The chain of sections -/

theorem getLast?_recordAddrs (rs : List JSON) :
    (0 :: recordAddrs isHeaderRecord 1 rs).getLast? = some (lastHeaderAddr rs) := by
  induction rs using List.reverseRecOn with
  | nil => rfl
  | append_singleton rs r ih =>
    rw [recordAddrs_snoc, lastHeaderAddr_snoc]
    by_cases hr : isHeaderRecord r = true
    · rw [if_pos hr, if_pos hr, ← List.cons_append, List.getLast?_append_of_ne_nil _ (by simp)]
      simp [Nat.add_comm]
    · rw [if_neg hr, if_neg hr, List.append_nil]
      exact ih

theorem section_chain_of_Inv (rs : List JSON) (s : ReadState) (inv : Inv rs s) :
    ∀ pre rest, rs = pre ++ rest →
      List.Chain'
        (fun a b => Heap.parent s.heap b = some a ∧
          (Heap.children s.heap a).getLast? = some b)
        (0 :: recordAddrs isHeaderRecord 1 pre) := by
  intro pre
  induction pre using List.reverseRecOn with
  | nil => intro rest _; simp [recordAddrs]
  | append_singleton pre r ih =>
    intro rest hrs
    have hrs' : rs = pre ++ (r :: rest) := by rw [hrs]; simp
    have hpre := ih (r :: rest) hrs'
    rw [recordAddrs_snoc]
    by_cases hr : isHeaderRecord r = true
    · rw [if_pos hr, ← List.cons_append, List.chain'_append]
      refine ⟨hpre, by simp, ?_⟩
      intro x hx y hy
      rw [getLast?_recordAddrs] at hx
      simp only [Option.mem_def, Option.some.injEq] at hx
      simp only [List.head?_cons, Option.mem_def, Option.some.injEq] at hy
      subst hx
      subst hy
      have hget : rs.get? pre.length = some r := by
        rw [hrs', List.get?_eq_getElem?, List.getElem?_append_right (le_refl _)]
        simp
      have htake : rs.take pre.length = pre := by rw [hrs']; simp
      have htag : recordTag r = some "header" := by
        simpa [isHeaderRecord] using hr
      obtain ⟨h1, h2⟩ := inv.parentLinks pre.length r hget (by rw [htag]; decide)
      rw [htake] at h1 h2
      have hk := kind_of_record rs s inv pre.length r hget "header" htag
      have hk' : Heap.kind s.heap (pre.length + 1) = some Kind.section := by
        rw [hk]; decide
      rw [Nat.add_comm 1 pre.length]
      exact ⟨h1, (inv.sectionLast _ _ h2 hk').2⟩
    · rw [if_neg hr, List.append_nil]
      exact hpre

theorem header_link_of_Inv (rs : List JSON) (s : ReadState) (inv : Inv rs s)
    (pre : List JSON) (r : JSON) (rest : List JSON) (hrs : rs = pre ++ r :: rest)
    (hr : isHeaderRecord r = true) :
    Heap.kind s.heap (pre.length + 1) = some Kind.section ∧
    Heap.parent s.heap (pre.length + 1) = some (lastHeaderAddr pre) ∧
    (Heap.children s.heap (lastHeaderAddr pre)).getLast? = some (pre.length + 1) := by
  have hget : rs.get? pre.length = some r := by
    rw [hrs, List.get?_eq_getElem?, List.getElem?_append_right (le_refl _)]
    simp
  have htake : rs.take pre.length = pre := by rw [hrs]; simp
  have htag : recordTag r = some "header" := by
    simpa [isHeaderRecord] using hr
  obtain ⟨h1, h2⟩ := inv.parentLinks pre.length r hget (by rw [htag]; decide)
  rw [htake] at h1 h2
  have hk := kind_of_record rs s inv pre.length r hget "header" htag
  have hk' : Heap.kind s.heap (pre.length + 1) = some Kind.section := by
    rw [hk]; decide
  exact ⟨hk', h1, (inv.sectionLast _ _ h2 hk').2⟩

/-! ### List items attached to themselves -/

theorem recordAddrs_eq_nil (p : JSON → Bool) (rs : List JSON) (addr : Nat)
    (hp : ∀ r ∈ rs, p r = false) : recordAddrs p addr rs = [] := by
  apply List.eq_nil_of_length_eq_zero
  rw [recordAddrs_length]
  rw [List.length_eq_zero, List.filter_eq_nil_iff]
  intro r hr
  rw [hp r hr]
  simp

theorem TrimSpace_empty : TrimSpace "" = "" := by decide


/-! ### `Read` of `src/layout.go` never runs its header loop -/

theorem Heap.kind_append_old (h : Heap) (n : Node) (a : Nat) (ha : a < h.length) :
    Heap.kind (h ++ [n]) a = Heap.kind h a := by
  unfold Heap.kind
  rw [Heap.get?_append_new, if_pos ha]

theorem Heap.kind_append_new (h : Heap) (n : Node) :
    Heap.kind (h ++ [n]) h.length = some n.kind := by
  unfold Heap.kind
  rw [Heap.get?_append_new, if_neg (lt_irrefl _), if_pos rfl]

theorem Heap.get?_append_old (h : Heap) (n : Node) (a : Nat) (ha : a < h.length) :
    (h ++ [n]).get? a = h.get? a := by
  rw [Heap.get?_append_new, if_pos ha]

namespace Layout

theorem popParentStack_singleton (h : Heap) (level : Int) (fuel x : Nat) :
    popParentStack h level fuel [x] = Except.ok [x] := by
  cases fuel <;> rfl

theorem parent_lt (s : ReadState) (inv : LoopInv s) : s.parent < s.heap.length := by
  rcases inv.parentShape with ⟨e, -⟩ | hk
  · rw [e]
    exact Heap.kind_lt_length _ _ _ inv.rootKind
  · exact Heap.kind_lt_length _ _ _ hk

theorem parent_block (s : ReadState) (inv : LoopInv s) (b : Block)
    (hb : s.heap.get? s.parent = some (Node.block b)) : s.parentStack = [0] := by
  rcases inv.parentShape with ⟨-, e⟩ | hk
  · exact e
  · obtain ⟨x, hx⟩ := kind_section_get? s.heap s.parent hk
    rw [hx] at hb
    cases hb

theorem newNode_error (m : List (String × JSON)) (e : Fault)
    (h : newNode m = Except.error e) : e = Fault.panic ∧ recordOk (JSON.obj m) = false := by
  unfold newNode at h
  simp only [] at h
  split at h
  · cases h
  · split at h
    · rename_i htab
      cases ht : NewTable m with
      | some t => simp [ht] at h
      | none =>
        simp only [ht, Except.error.injEq] at h
        refine ⟨h.symm, ?_⟩
        have := NewTable_isSome m
        rw [ht] at this
        simp only [recordOk, htab, if_true]
        simpa using this.symm
    · split at h
      · cases h
      · split at h
        · cases h
        · cases h

theorem LoopInv_attach (s : ReadState) (inv : LoopInv s) (n : Node) :
    LoopInv { heap := attach s.heap n s.parent, parent := s.parent,
              parentStack := s.parentStack, prevNode := s.heap.length,
              listStack := [] } where
  rootKind := by
    show Heap.kind (attach s.heap n s.parent) 0 = some Kind.block
    rw [attach_kind_old _ _ _ _ (Heap.kind_lt_length _ _ _ inv.rootKind)]
    exact inv.rootKind
  listEmpty := rfl
  parentShape := by
    rcases inv.parentShape with h0 | hk
    · exact Or.inl h0
    · right
      show Heap.kind (attach s.heap n s.parent) s.parent = some Kind.section
      rw [attach_kind_old _ _ _ _ (Heap.kind_lt_length _ _ _ hk)]
      exact hk

theorem readSection_eq (s : ReadState) (inv : LoopInv s) (sec : Section) :
    ∃ s', LoopInv s' ∧ ∀ fuel,
      readSection fuel s [] (s.heap ++ [Node.section sec]) s.heap.length sec.Level
        = Except.ok s' := by
  have hlen0 : 0 < s.heap.length := Heap.kind_lt_length _ _ _ inv.rootKind
  rcases inv.parentShape with ⟨hp, hst⟩ | hk
  · obtain ⟨b, hb⟩ := kind_block_get? s.heap 0 inv.rootKind
    have hget : (s.heap ++ [Node.section sec]).get? s.parent = some (Node.block b) := by
      rw [hp, Heap.get?_append_old _ _ _ hlen0]
      exact hb
    refine ⟨{ heap := attach s.heap (Node.section sec) 0, parent := s.heap.length,
              parentStack := [s.heap.length, 0], prevNode := s.heap.length,
              listStack := [] }, ?_, ?_⟩
    · refine ⟨?_, rfl, Or.inr ?_⟩
      · show Heap.kind (attach s.heap (Node.section sec) 0) 0 = some Kind.block
        rw [attach_kind_old _ _ _ _ hlen0]
        exact inv.rootKind
      · show Heap.kind (attach s.heap (Node.section sec) 0) s.heap.length
          = some Kind.section
        rw [attach_kind_new]
        rfl
    · intro fuel
      unfold readSection
      simp only [hget]
      split
      · rw [hp, hst]
        rfl
      · rw [hst, popParentStack_singleton]
        rfl
  · obtain ⟨x, hx⟩ := kind_section_get? s.heap s.parent hk
    have hlt := Heap.kind_lt_length _ _ _ hk
    have hget : (s.heap ++ [Node.section sec]).get? s.parent = some (Node.section x) := by
      rw [Heap.get?_append_old _ _ _ hlt]
      exact hx
    refine ⟨{ heap := s.heap ++ [Node.section sec], parent := s.parent,
              parentStack := s.parentStack, prevNode := s.heap.length,
              listStack := [] }, ?_, ?_⟩
    · refine ⟨?_, rfl, Or.inr ?_⟩
      · show Heap.kind (s.heap ++ [Node.section sec]) 0 = some Kind.block
        rw [Heap.kind_append_old _ _ _ hlen0]
        exact inv.rootKind
      · show Heap.kind (s.heap ++ [Node.section sec]) s.parent = some Kind.section
        rw [Heap.kind_append_old _ _ _ hlt]
        exact hk
    · intro fuel
      unfold readSection
      simp only [hget]

theorem readStep_of_node (s : ReadState) (inv : LoopInv s) (m : List (String × JSON)) (n : Node)
    (hn : newNode m = Except.ok n) :
    ∃ s', LoopInv s' ∧ ∀ fuel, readStep fuel s (JSON.obj m) = Except.ok s' := by
  have hls : (if (JSON.index m "tag").asString ≠ some "list_item" ∧ s.listStack.length > 0
      then [] else s.listStack) = [] := by
    rw [inv.listEmpty]
    simp
  have hother : ∃ s', LoopInv s' ∧
      Except.ok ({ heap := AddChild (s.heap ++ [n]) s.parent s.heap.length,
                   parent := s.parent, parentStack := s.parentStack,
                   prevNode := s.heap.length, listStack := [] } : ReadState)
        = (Except.ok s' : Except Fault ReadState) :=
    ⟨_, LoopInv_attach s inv n, rfl⟩
  rcases n with b | p | sec | li | tb | row | th
  · obtain ⟨s', hi, he⟩ := hother
    refine ⟨s', hi, fun fuel => ?_⟩
    unfold readStep
    simp only [JSON.asMap, hn, hls]
    exact he
  · obtain ⟨s', hi, he⟩ := hother
    refine ⟨s', hi, fun fuel => ?_⟩
    unfold readStep
    simp only [JSON.asMap, hn, hls]
    exact he
  · obtain ⟨s', hi, he⟩ := readSection_eq s inv sec
    refine ⟨s', hi, fun fuel => ?_⟩
    unfold readStep
    simp only [JSON.asMap, hn, hls]
    exact he fuel
  · refine ⟨_, LoopInv_attach s inv (Node.listItem li), fun fuel => ?_⟩
    unfold readStep
    simp only [JSON.asMap, hn, hls]
    rfl
  · obtain ⟨s', hi, he⟩ := hother
    refine ⟨s', hi, fun fuel => ?_⟩
    unfold readStep
    simp only [JSON.asMap, hn, hls]
    exact he
  · obtain ⟨s', hi, he⟩ := hother
    refine ⟨s', hi, fun fuel => ?_⟩
    unfold readStep
    simp only [JSON.asMap, hn, hls]
    exact he
  · obtain ⟨s', hi, he⟩ := hother
    refine ⟨s', hi, fun fuel => ?_⟩
    unfold readStep
    simp only [JSON.asMap, hn, hls]
    exact he

theorem newNode_ok (m : List (String × JSON)) (n : Node) (h : newNode m = Except.ok n) :
    recordOk (JSON.obj m) = true := by
  unfold recordOk
  simp only []
  split
  · rename_i htab
    unfold newNode at h
    simp only [htab] at h
    cases ht : NewTable m with
    | none => simp [ht] at h
    | some t =>
      have := NewTable_isSome m
      rw [ht] at this
      simpa using this.symm
  · rfl

theorem readStep_spec (s : ReadState) (inv : LoopInv s) (r : JSON) :
    (∃ s', LoopInv s' ∧ recordOk r = true ∧ ∀ fuel, readStep fuel s r = Except.ok s') ∨
    (recordOk r = false ∧ ∀ fuel, readStep fuel s r = Except.error Fault.panic) := by
  cases r with
  | obj m =>
    cases hn : newNode m with
    | ok n =>
      obtain ⟨s', h1, h2⟩ := readStep_of_node s inv m n hn
      exact Or.inl ⟨s', h1, newNode_ok m n hn, h2⟩
    | error e =>
      obtain ⟨he, hok⟩ := newNode_error m e hn
      subst he
      refine Or.inr ⟨hok, fun fuel => ?_⟩
      unfold readStep
      simp only [JSON.asMap, hn]
  | null => exact Or.inr ⟨rfl, fun _ => rfl⟩
  | bool b => exact Or.inr ⟨rfl, fun _ => rfl⟩
  | num n => exact Or.inr ⟨rfl, fun _ => rfl⟩
  | str x => exact Or.inr ⟨rfl, fun _ => rfl⟩
  | arr xs => exact Or.inr ⟨rfl, fun _ => rfl⟩

theorem readLoop_spec (rs : List JSON) :
    ∀ s, LoopInv s →
      (∃ s', LoopInv s' ∧ rs.all recordOk = true ∧
        ∀ fuel, readLoop fuel s rs = Except.ok s') ∨
      (rs.all recordOk = false ∧ ∀ fuel, readLoop fuel s rs = Except.error Fault.panic) := by
  induction rs with
  | nil => intro s inv; exact Or.inl ⟨s, inv, rfl, fun _ => rfl⟩
  | cons r rs ih =>
    intro s inv
    rcases readStep_spec s inv r with ⟨s1, inv1, hok1, h1⟩ | ⟨hbad, h1⟩
    · rcases ih s1 inv1 with ⟨s', inv', hok2, h2⟩ | ⟨hbad, h2⟩
      · refine Or.inl ⟨s', inv', ?_, fun fuel => ?_⟩
        · simp [List.all_cons, hok1, hok2]
        · simp only [readLoop, h1 fuel, h2 fuel]
      · refine Or.inr ⟨?_, fun fuel => ?_⟩
        · simp [List.all_cons, hbad]
        · simp only [readLoop, h1 fuel, h2 fuel]
    · refine Or.inr ⟨?_, fun fuel => ?_⟩
      · simp [List.all_cons, hbad]
      · simp only [readLoop, h1 fuel]

theorem LoopInv_readInit : LoopInv readInit where
  rootKind := rfl
  listEmpty := rfl
  parentShape := Or.inl ⟨rfl, rfl⟩

end Layout


/-! ### The conversion `int(v)` and `int` arithmetic -/

theorem truncate_eq (v : ℚ) : truncate v = if 0 ≤ v then ⌊v⌋ else ⌈v⌉ := by
  unfold truncate
  by_cases h : 0 ≤ v
  · rw [if_pos h, if_pos (Rat.num_nonneg.mpr h), Rat.floor_def]
  · rw [if_neg h, if_neg (by rw [Rat.num_nonneg]; exact h)]
    have : ⌈v⌉ = -⌊-v⌋ := by rw [Int.floor_neg, neg_neg]
    rw [this, Rat.floor_def, Rat.neg_num, Rat.neg_den]

theorem truncate_intCast (n : Int) : truncate (n : ℚ) = n := by
  rw [truncate_eq]
  split <;> simp

theorem toInt_of_range (v : ℚ) (h1 : minInt ≤ truncate v) (h2 : truncate v ≤ maxInt) :
    toInt v = truncate v := by
  unfold toInt
  rw [if_pos ⟨h1, h2⟩]

theorem toInt_intCast (n : Int) (h1 : minInt ≤ n) (h2 : n ≤ maxInt) : toInt (n : ℚ) = n := by
  rw [toInt_of_range] <;> rw [truncate_intCast] <;> assumption

theorem toInt_range (v : ℚ) : minInt ≤ toInt v ∧ toInt v ≤ maxInt := by
  unfold toInt
  split
  · assumption
  · decide

theorem wrapInt_of_range (n : Int) (h1 : minInt ≤ n) (h2 : n ≤ maxInt) : wrapInt n = n := by
  unfold minInt at h1
  unfold maxInt at h2
  unfold wrapInt
  omega

theorem wrapInt_succ_maxInt : wrapInt (maxInt + 1) = minInt := by decide

theorem numberOr_eq (blockJSON : List (String × JSON)) (k : String) :
    numberOr blockJSON k
      = (match JSON.index blockJSON k with
        | JSON.num v => toInt v
        | _ => -1) := by
  unfold numberOr
  cases JSON.index blockJSON k <;> rfl

theorem floatOr_eq (blockJSON : List (String × JSON)) (k : String) :
    floatOr blockJSON k
      = (match JSON.index blockJSON k with
        | JSON.num v => v
        | _ => -1) := by
  unfold floatOr
  cases JSON.index blockJSON k <;> rfl


/-- C1 (the code at the failing input): on the records `list_item` level 0 "a", `list_item`
level 1 "b", `Read` succeeds and the node of "b" (address 2) is its own parent and its own only
child; it is a child of neither the root nor the node of "a", so the built structure has a
cycle. -/
theorem Read_nested_list_item_is_own_parent :
    (Read [record "list_item" 0 ["a"], record "list_item" 1 ["b"]]).map
        (fun h => (Heap.parent h 2, Heap.children h 2, Heap.children h 0, Heap.children h 1))
      = some (some 2, [2], [1], []) := by
  decide

/-- C2 (the code at the failing input): on the three `list_item` records of levels 0, 1, 0
with texts a, b, c (addresses 1, 2, 3), the parent of b is b itself and the node of a has no
child, while c is attached to the root after a. -/
theorem Read_scenario_C_nested_item_not_under_parent :
    (Read [record "list_item" 0 ["a"], record "list_item" 1 ["b"],
           record "list_item" 0 ["c"]]).map
        (fun h => (Heap.parent h 2, Heap.children h 1, Heap.parent h 3, Heap.children h 0))
      = some (some 2, [], some 0, [1, 3]) := by
  decide

/-- C3 (the code at the failing input): on the records `header` level 0 "A", `header` level 0
"B", the Section of "B" (address 2) is a child of the Section of "A" (address 1) although both
have level 0. -/
theorem Read_header_nested_under_equal_level_header :
    (Read [record "header" 0 ["A"], record "header" 0 ["B"]]).map
        (fun h => (Heap.kind h 1, Heap.level h 1, Heap.kind h 2, Heap.level h 2))
      = some (some Kind.section, some 0, some Kind.section, some 0) ∧
    (Read [record "header" 0 ["A"], record "header" 0 ["B"]]).map
        (fun h => (Heap.parent h 2, Heap.children h 1)) = some (some 1, [2]) := by
  decide

/-- C4 (the code at the failing input): on the records `list_item` level 0, `list_item`
level 1, the second node (address 2) is a ListItem of level 1 whose `Parent` is itself, so it
has a ListItem ancestor (itself) whose level is not strictly less than its own. -/
theorem Read_list_item_is_own_ancestor :
    (Read [record "list_item" 0 ["a"], record "list_item" 1 ["b"]]).map
        (fun h => (Heap.kind h 2, Heap.level h 2, Heap.parent h 2))
      = some (some Kind.listItem, some 1, some 2) := by
  decide

/-- C5 (the code at the failing input): on the records `list_item` 0 "a", `list_item` 1 "b",
`para` "p", `list_item` 1 "c" (addresses 1 to 4), `Chunks()` of the root returns the nodes
1, 4, 3: the node of "b" is missing and the node of "c" comes before the node of "p". -/
theorem Chunks_omits_and_reorders_list_items :
    (Read [record "list_item" 0 ["a"], record "list_item" 1 ["b"], record "para" 0 ["p"],
           record "list_item" 1 ["c"]]).bind (fun h => Chunks h 3 0)
      = some [1, 4, 3] := by
  decide

/-- C6 (the code at the failing input): on the records `list_item` 0 "a", `list_item` 1 "b", `list_item` 1
"c", `Chunks()` of the root returns the node of "c" (address 3), which is a child of the
ListItem node of "a" (address 1): the traversal descended into a ListItem. -/
theorem Chunks_returns_child_of_list_item :
    (Read [record "list_item" 0 ["a"], record "list_item" 1 ["b"],
           record "list_item" 1 ["c"]]).bind
        (fun h => (Chunks h 3 0).map
          (fun chunks => (chunks, Heap.kind h 1, Heap.children h 1, Heap.parent h 3)))
      = some ([1, 3], some Kind.listItem, [3], some 1) := by
  decide

/-- C10 (the code at the failing input): after the records `list_item` 0 "a", `para` "p" the
list stack still holds the node of "a"; and on `list_item` 0 "a", `list_item` 2 "b",
`para` "p", `list_item` 1 "c" the node of "c" (address 4) is attached under the node of "a"
(address 1), a list item that precedes the paragraph. -/
theorem Read_list_stack_survives_paragraph :
    (readLoop readInit [record "list_item" 0 ["a"], record "para" 0 ["p"]]).map
        (fun s => s.listStack) = some [1] ∧
    (Read [record "list_item" 0 ["a"], record "list_item" 2 ["b"], record "para" 0 ["p"],
           record "list_item" 1 ["c"]]).map
        (fun h => (Heap.parent h 4, Heap.children h 1)) = some (some 1, [4]) := by
  decide


theorem exampleTree_children (p c : Nat) (hc : c ∈ Heap.children exampleTree p) :
    Heap.parent exampleTree c = some p ∧ p < c := by
  rcases p with _ | _ | _ | _ | _ | _ | p <;>
    simp [Heap.children, exampleTree, Node.blk] at hc
  · rcases hc with rfl | rfl <;> simp [Heap.parent, exampleTree, Node.blk]
  · rcases hc with rfl | rfl <;> simp [Heap.parent, exampleTree, Node.blk]
  · subst hc
    simp [Heap.parent, exampleTree, Node.blk]

theorem exampleTree_isTree : IsTree exampleTree where
  acyclic := by
    refine ⟨fun a => 6 - a, ?_⟩
    intro p c hc
    have h1 := (exampleTree_children p c hc).2
    have h2 : p < 6 := by
      rcases p with _ | _ | _ | _ | _ | _ | p
      all_goals first | omega | simp [Heap.children, exampleTree, Node.blk] at hc
    show 6 - c < 6 - p
    omega
  uniqueParent := by
    intro p q c hp hq
    have h1 := (exampleTree_children p c hp).1
    have h2 := (exampleTree_children q c hq).1
    rw [h1] at h2
    exact Option.some.inj h2
  nodupChildren := by
    intro p
    rcases p with _ | _ | _ | _ | _ | _ | p <;> simp [Heap.children, exampleTree, Node.blk]

/-- The traversal behind `Chunks()`, `Paragraphs()`, `Tables()` and `Sections()` descends
into the children of every node whose dynamic type is Block, Paragraph, Section, ListItem or
Table.  Whenever the four queries return on a node `n`, every child `c` of `n` of one of these
types (a Paragraph, ListItem or Table in particular) is itself kept when it has the collected
type, the same query returns on `c`, and everything it returns on `c` is also returned on
`n`. -/
theorem queries_descend (h : Heap) (fuel n c : Nat) (k : Kind)
    (hc : c ∈ Heap.children h n) (hk : Heap.kind h c = some k) (hcase : k.hasCase = true)
    (chunks paras tables sections : List Nat)
    (hC : Chunks h fuel n = some chunks) (hP : Paragraphs h fuel n = some paras)
    (hT : Tables h fuel n = some tables) (hS : Sections h fuel n = some sections) :
    ((isChunk h c = true → c ∈ chunks) ∧
        ∃ lc, Chunks h fuel c = some lc ∧ ∀ x ∈ lc, x ∈ chunks) ∧
    ((isParagraph h c = true → c ∈ paras) ∧
        ∃ lc, Paragraphs h fuel c = some lc ∧ ∀ x ∈ lc, x ∈ paras) ∧
    ((isTable h c = true → c ∈ tables) ∧
        ∃ lc, Tables h fuel c = some lc ∧ ∀ x ∈ lc, x ∈ tables) ∧
    ((isSection h c = true → c ∈ sections) ∧
        ∃ lc, Sections h fuel c = some lc ∧ ∀ x ∈ lc, x ∈ sections) := by
  rw [Chunks_eq] at hC
  rw [Paragraphs_eq] at hP
  rw [Tables_eq] at hT
  rw [Sections_eq] at hS
  simp only [Chunks_eq, Paragraphs_eq, Tables_eq, Sections_eq]
  exact ⟨filter_descends h _ fuel n c k hc hk hcase chunks hC,
    filter_descends h _ fuel n c k hc hk hcase paras hP,
    filter_descends h _ fuel n c k hc hk hcase tables hT,
    filter_descends h _ fuel n c k hc hk hcase sections hS⟩

/-- The previous statement on `exampleTree` at the root and its ListItem child 4: the queries
on the root return the ListItem 5, a child of the ListItem 4. -/
theorem queries_descend_witness :
    (4 ∈ Heap.children exampleTree 0 ∧ Heap.kind exampleTree 4 = some Kind.listItem ∧
      Chunks exampleTree 3 0 = some [2, 3, 4, 5] ∧ Paragraphs exampleTree 3 0 = some [2] ∧
      Tables exampleTree 3 0 = some [3] ∧ Sections exampleTree 3 0 = some [1]) ∧
    ((isChunk exampleTree 4 = true → 4 ∈ [2, 3, 4, 5]) ∧
        ∃ lc, Chunks exampleTree 3 4 = some lc ∧ ∀ x ∈ lc, x ∈ [2, 3, 4, 5]) ∧
    ((isParagraph exampleTree 4 = true → 4 ∈ [2]) ∧
        ∃ lc, Paragraphs exampleTree 3 4 = some lc ∧ ∀ x ∈ lc, x ∈ [2]) ∧
    ((isTable exampleTree 4 = true → 4 ∈ [3]) ∧
        ∃ lc, Tables exampleTree 3 4 = some lc ∧ ∀ x ∈ lc, x ∈ [3]) ∧
    ((isSection exampleTree 4 = true → 4 ∈ [1]) ∧
        ∃ lc, Sections exampleTree 3 4 = some lc ∧ ∀ x ∈ lc, x ∈ [1]) :=
  ⟨by decide,
   queries_descend exampleTree 3 0 4 Kind.listItem (by decide) (by decide) rfl
     [2, 3, 4, 5] [2] [3] [1] (by decide) (by decide) (by decide) (by decide)⟩

/-- C7: in a heap whose `Children` links form a finite acyclic tree, for every node `n` the
query `n.Chunks()` returns (with enough fuel, and then always the same list) a list all of
whose elements are Paragraph, ListItem or Table nodes, whose Paragraph elements are exactly
`n.Paragraphs()`, whose Table elements are exactly `n.Tables()`, and which has no
duplicates. -/
theorem Chunks_partition_of_tree (h : Heap) (tree : IsTree h) (n : Nat) :
    ∃ fuel chunks,
      (∀ fuel', fuel ≤ fuel' →
        Chunks h fuel' n = some chunks ∧
        Paragraphs h fuel' n = some (chunks.filter (isParagraph h)) ∧
        Tables h fuel' n = some (chunks.filter (isTable h))) ∧
      (∀ x ∈ chunks, Heap.kind h x = some Kind.paragraph ∨
        Heap.kind h x = some Kind.listItem ∨ Heap.kind h x = some Kind.table) ∧
      chunks.Nodup := by
  obtain ⟨rank, hr⟩ := tree.acyclic
  obtain ⟨v, hv⟩ := visitSeq_total_of_rank h rank hr (rank n + 1) n Kind.block (by omega)
  refine ⟨rank n + 1, v.filter (isChunk h), ?_, ?_, ?_⟩
  · intro fuel' hge
    have hv' := visitSeq_mono h _ fuel' hge Kind.block n v hv
    rw [Chunks_eq, Paragraphs_eq, Tables_eq, hv']
    simp only [Option.map_some', List.filter_filter, Option.some.injEq, true_and]
    constructor
    · apply List.filter_congr
      intro x _
      simp only [isChunk]
      cases isParagraph h x <;> simp
    · apply List.filter_congr
      intro x _
      simp only [isChunk]
      cases isTable h x <;> simp
  · intro x hx
    have := (List.mem_filter.mp hx).2
    simpa [isChunk, isParagraph, isListItem, isTable, or_assoc] using this
  · exact (visitSeq_nodup h tree _ Kind.block n v hv).filter _

/-- C7, instantiated on `exampleTree` at its root. -/
theorem Chunks_partition_of_tree_witness :
    IsTree exampleTree ∧
    ∃ fuel chunks,
      (∀ fuel', fuel ≤ fuel' →
        Chunks exampleTree fuel' 0 = some chunks ∧
        Paragraphs exampleTree fuel' 0 = some (chunks.filter (isParagraph exampleTree)) ∧
        Tables exampleTree fuel' 0 = some (chunks.filter (isTable exampleTree))) ∧
      (∀ x ∈ chunks, Heap.kind exampleTree x = some Kind.paragraph ∨
        Heap.kind exampleTree x = some Kind.listItem ∨
        Heap.kind exampleTree x = some Kind.table) ∧
      chunks.Nodup :=
  ⟨exampleTree_isTree, Chunks_partition_of_tree exampleTree exampleTree_isTree 0⟩


/-- C8: for every record sequence on which `Read` succeeds, `Sections()` of the document
returns (with enough fuel, and then always) exactly the nodes of the `header` records, in
input order, one per `header` record, and the `ToText(false, false)` of these nodes are, in
order, the sentences of the `header` records joined by newline.  In particular, on the single
record `header`, level 0, sentences `["Intro"]`, `Sections()` is one node with text "Intro" and
`Chunks()` is empty. -/
theorem Sections_of_Read (rs : List JSON) (h : Heap) (hread : Read rs = some h) :
    (∃ fuel, ∀ fuel', fuel ≤ fuel' →
      Sections h fuel' 0 = some (recordAddrs isHeaderRecord 1 rs)) ∧
    (recordAddrs isHeaderRecord 1 rs).length = (rs.filter isHeaderRecord).length ∧
    (∀ fuel, (recordAddrs isHeaderRecord 1 rs).map (fun a => ToText h (fuel + 1) a false false)
      = (rs.filter isHeaderRecord).map
          (fun r => some ("\n".intercalate (recordSentences r)))) ∧
    (Read [record "header" 0 ["Intro"]]).map
        (fun h => (Sections h 2 0, ToText h 1 1 false false, Chunks h 2 0))
      = some (some [1], some "Intro", some []) := by
  obtain ⟨s, -, rfl, inv⟩ := Inv_of_Read rs h hread
  have htexts : ∀ fuel,
      (recordAddrs isHeaderRecord 1 rs).map (fun a => ToText s.heap (fuel + 1) a false false)
        = (rs.filter isHeaderRecord).map
            (fun r => some ("\n".intercalate (recordSentences r))) := by
    intro fuel
    apply recordAddrs_map
    intro i r hi hr
    rw [Nat.add_comm 1 i]
    exact ToText_header_of_Inv rs s inv i r hi hr fuel
  refine ⟨?_, ?_, htexts, by decide⟩
  · obtain ⟨fuel, hfuel⟩ := filter_visit_of_Inv rs s inv (isSection s.heap) isHeaderRecord
      (by
        intro x hx
        simp only [isSection, decide_eq_true_eq] at hx
        simp [isListItem, hx])
      (by
        intro i r hi
        obtain ⟨m, tag, n, -, htag, hn, hk, -⟩ := record_of_Inv rs s inv i r hi
        rw [Nat.add_comm 1 i]
        unfold isSection isHeaderRecord
        rw [hk, htag]
        have := newNode_section tag m n hn
        simp only [Option.some.injEq, this])
    refine ⟨fuel, ?_⟩
    intro fuel' hle
    rw [Sections_eq]
    exact hfuel fuel' hle
  · have := congrArg List.length (htexts 0)
    simpa using this

/-- C8, instantiated on the records of scenario B. -/
theorem Sections_of_Read_witness :
    Read scenarioB = some scenarioBHeap ∧
    ((∃ fuel, ∀ fuel', fuel ≤ fuel' →
      Sections scenarioBHeap fuel' 0 = some (recordAddrs isHeaderRecord 1 scenarioB)) ∧
    (recordAddrs isHeaderRecord 1 scenarioB).length
      = (scenarioB.filter isHeaderRecord).length ∧
    (∀ fuel, (recordAddrs isHeaderRecord 1 scenarioB).map
        (fun a => ToText scenarioBHeap (fuel + 1) a false false)
      = (scenarioB.filter isHeaderRecord).map
          (fun r => some ("\n".intercalate (recordSentences r)))) ∧
    (Read [record "header" 0 ["Intro"]]).map
        (fun h => (Sections h 2 0, ToText h 1 1 false false, Chunks h 2 0))
      = some (some [1], some "Intro", some [])) :=
  ⟨rfl, Sections_of_Read scenarioB scenarioBHeap rfl⟩

/-- C9: when `Read` succeeds on a record sequence, every record `r` whose tag is not
`list_item` (so every `para`, `table` or unrecognised-tag record) has its node attached
as the last child of the Section built from the most recent preceding `header` record, or of
the root when no `header` precedes it: right after `r` is processed its node is the last
element of that node's `Children`, and in the final tree it is still among those `Children`
with its `Parent` link set to that node.  In particular, on header "A", para "x", header "B"
there are two sections, the paragraph is a child of section "A", and section "B" has no
child. -/
theorem Read_attaches_to_last_header (rs : List JSON) (r : JSON) (rest : List JSON)
    (h : Heap) (hread : Read (rs ++ r :: rest) = some h)
    (htag1 : recordTag r ≠ some "list_item") :
    (∃ h0, Read (rs ++ [r]) = some h0 ∧
      (Heap.children h0 (lastHeaderAddr rs)).getLast? = some (rs.length + 1)) ∧
    Heap.parent h (rs.length + 1) = some (lastHeaderAddr rs) ∧
    (rs.length + 1) ∈ Heap.children h (lastHeaderAddr rs) ∧
    (lastHeaderAddr rs = 0 ∨ Heap.kind h (lastHeaderAddr rs) = some Kind.section) ∧
    (Read scenarioB).bind
        (fun h => (Sections h 3 0).map
          (fun sections => (sections, Heap.kind h 2, Heap.children h 1, Heap.children h 3)))
      = some ([1, 3], some Kind.paragraph, [2, 3], []) := by
  obtain ⟨s, hs, rfl, inv⟩ := Inv_of_Read _ h hread
  have hsplit : rs ++ r :: rest = (rs ++ [r]) ++ rest := by simp
  rw [hsplit, readLoop_append] at hs
  have hget : (rs ++ r :: rest).get? rs.length = some r := by
    rw [List.get?_eq_getElem?, List.getElem?_append_right (le_refl _)]
    simp
  have htake : (rs ++ r :: rest).take rs.length = rs := by simp
  obtain ⟨h1, h2⟩ := inv.parentLinks rs.length r hget htag1
  rw [htake] at h1 h2
  refine ⟨?_, h1, h2, ?_, by decide⟩
  · cases h0 : readLoop readInit (rs ++ [r]) with
    | none => simp [h0] at hs
    | some s0 =>
      have inv0 := Inv_readLoop _ s0 h0
      refine ⟨s0.heap, by simp [Read, h0], ?_⟩
      have := inv0.lastAttached r (by simp) htag1
      simpa using this
  · have hP := inv.heapInv.parentKinds _ _ h2
    rcases hP with e | e | e
    · exact Or.inl e
    · exact Or.inr e
    · exfalso
      have hk := inv.heapInv.childOfListItem _ _ h2 e
      obtain ⟨m, tag, n, -, htag, hn, hkind, -⟩ :=
        record_of_Inv _ s inv rs.length r hget
      rw [hkind] at hk
      have := (newNode_listItem tag m n hn).mp (Option.some.inj hk)
      rw [htag, this] at htag1
      exact htag1 rfl

/-- C9, instantiated on scenario B at its paragraph record. -/
theorem Read_attaches_to_last_header_witness :
    (Read ([record "header" 0 ["A"]] ++ record "para" 1 ["x"] :: [record "header" 0 ["B"]])
      = some scenarioBHeap ∧
     recordTag (record "para" 1 ["x"]) ≠ some "list_item") ∧
    ((∃ h0, Read ([record "header" 0 ["A"]] ++ [record "para" 1 ["x"]]) = some h0 ∧
      (Heap.children h0 (lastHeaderAddr [record "header" 0 ["A"]])).getLast?
        = some ([record "header" 0 ["A"]].length + 1)) ∧
    Heap.parent scenarioBHeap ([record "header" 0 ["A"]].length + 1)
      = some (lastHeaderAddr [record "header" 0 ["A"]]) ∧
    ([record "header" 0 ["A"]].length + 1)
      ∈ Heap.children scenarioBHeap (lastHeaderAddr [record "header" 0 ["A"]]) ∧
    (lastHeaderAddr [record "header" 0 ["A"]] = 0 ∨
      Heap.kind scenarioBHeap (lastHeaderAddr [record "header" 0 ["A"]])
        = some Kind.section) ∧
    (Read scenarioB).bind
        (fun h => (Sections h 3 0).map
          (fun sections => (sections, Heap.kind h 2, Heap.children h 1, Heap.children h 3)))
      = some ([1, 3], some Kind.paragraph, [2, 3], [])) :=
  ⟨⟨rfl, by decide⟩,
   Read_attaches_to_last_header [record "header" 0 ["A"]] (record "para" 1 ["x"])
     [record "header" 0 ["B"]] scenarioBHeap rfl (by decide)⟩


/-- C11 (counterexample): on the single record `{"tag": "table", "level": 0}`, an object
record that holds no table cell at all, `Read` fails, in the unchecked assertion
`tableJSON["name"].(string)` of `NewTable`. -/
theorem Read_fails_on_table_without_name :
    (Read [JSON.obj [("tag", JSON.str "table"), ("level", JSON.num 0)]]).isSome = false := by
  decide

/-- C11 (amended): `Read` returns a tree on every sequence of records that are objects with a
string tag and in which every `table` record has a string `name`, rows and cells that are
objects, and cell values that are strings or nested records, whatever the tags and levels
are and whichever other scalar fields are present, absent or mistyped.  A `table` record that
lacks one of these makes `Read` fail, wherever it stands in the sequence. -/
theorem Read_succeeds_on_well_formed (rs : List JSON) (hwf : ∀ r ∈ rs, recordOk r = true) :
    (∃ h, Read rs = some h) ∧
    ∀ (before after : List JSON) (m : List (String × JSON)),
      JSON.index m "tag" = JSON.str "table" → tableOk m = false →
      Read (before ++ JSON.obj m :: after) = none := by
  constructor
  · have h1 : (Read rs).isSome = true := by
      rw [Read_isSome, List.all_eq_true]
      exact hwf
    exact Option.isSome_iff_exists.mp h1
  · intro before after m htag htable
    have h1 : (Read (before ++ JSON.obj m :: after)).isSome = false := by
      rw [Read_isSome, List.all_eq_false]
      refine ⟨JSON.obj m, by simp, ?_⟩
      simp [recordOk, htag, htable]
    cases hr : Read (before ++ JSON.obj m :: after) with
    | none => rfl
    | some h => simp [hr] at h1

/-- C11 (amended), instantiated on a header, a table with a header row and a full row, and a
list item. -/
theorem Read_succeeds_on_well_formed_witness :
    (∀ r ∈ [record "header" 0 ["A"], tableRecord, record "list_item" 0 ["a"]],
      recordOk r = true) ∧
    ((∃ h, Read [record "header" 0 ["A"], tableRecord, record "list_item" 0 ["a"]] = some h) ∧
    ∀ (before after : List JSON) (m : List (String × JSON)),
      JSON.index m "tag" = JSON.str "table" → tableOk m = false →
      Read (before ++ JSON.obj m :: after) = none) :=
  ⟨by decide,
   Read_succeeds_on_well_formed
     [record "header" 0 ["A"], tableRecord, record "list_item" 0 ["a"]] (by decide)⟩

/-- C12 (counterexample): `NewTableCell` on the cell record `{"col_span": 2, "cell_value": 7}`
and on the empty cell record does not return: the embedding yields `none`, which stands for
the run-time panic of the assertion `cell.CellValue.(map[string]interface{})`; the function
has no error result through which a failure could be reported to its caller. -/
theorem NewTableCell_panics_on_number :
    (NewTableCell [("col_span", JSON.num 2), ("cell_value", JSON.num 7)]).isSome = false ∧
    (NewTableCell []).isSome = false := by
  decide

/-- C12 (amended): `NewTableCell` fails exactly when the `cell_value` of the cell record is
neither a string nor a nested record (an absent value included), the failure being the panic
of the unchecked type assertion; on every other cell record it returns a cell. -/
theorem NewTableCell_fails_iff (cellJSON : List (String × JSON)) :
    NewTableCell cellJSON = none ↔
      (∀ s, JSON.index cellJSON "cell_value" ≠ JSON.str s) ∧
      (∀ o, JSON.index cellJSON "cell_value" ≠ JSON.obj o) := by
  have h1 := NewTableCell_isSome cellJSON
  unfold cellOk at h1
  cases hv : JSON.index cellJSON "cell_value" <;> rw [hv] at h1 <;>
    cases hc : NewTableCell cellJSON <;> simp [hc] at h1 ⊢

/-- C13 (the code at the failing input): on the single record `{"level": 0, "sentences":
["x"]}`, which has no tag, `Read` fails (the panic of `blockMap["tag"].(string)`) instead of
creating a generic Block node. -/
theorem Read_fails_on_missing_tag :
    (Read [JSON.obj [("level", JSON.num 0), ("sentences", JSON.arr [JSON.str "x"])]]).isSome
      = false := by
  decide

/-- C14 (counterexample): on a record whose `level` is 2.5 the `Level` of the block is 2, not
the record's value; on a record whose `level` is 10000000000000000000 it is
-9223372036854775808; whereas `Top` of a record whose `top` is 2.5 is 2.5. -/
theorem NewBlock_Level_is_converted :
    (NewBlock [("level", JSON.num twoAndHalf)]).Level = 2 ∧
    ((2 : Int) : ℚ) ≠ twoAndHalf ∧
    (NewBlock [("level", JSON.num 10000000000000000000)]).Level = -9223372036854775808 ∧
    (NewBlock [("top", JSON.num twoAndHalf)]).Top = twoAndHalf := by
  decide

/-- C14 (amended): `NewBlock` is total; each of `Level`, `PageIdx` and `BlockIdx` of the block
it returns is `-1` when the record's field is absent or is not a number, and otherwise the
conversion `int(v)` of the field's number `v`; `Top` and `Left` are the field's number itself,
and `-1` when the field is absent or is not a number.  The conversion discards the fraction
(the floor of a positive number, the ceiling of a negative one) whenever that fits in an
`int`, so that it is the number itself for every integer that fits in an `int`, and its
result always fits in an `int`. -/
theorem NewBlock_scalar_fields (blockJSON : List (String × JSON)) :
    (NewBlock blockJSON).Level
      = (match JSON.index blockJSON "level" with
        | JSON.num v => toInt v
        | _ => -1) ∧
    (NewBlock blockJSON).PageIdx
      = (match JSON.index blockJSON "page_idx" with
        | JSON.num v => toInt v
        | _ => -1) ∧
    (NewBlock blockJSON).BlockIdx
      = (match JSON.index blockJSON "block_idx" with
        | JSON.num v => toInt v
        | _ => -1) ∧
    (NewBlock blockJSON).Top
      = (match JSON.index blockJSON "top" with
        | JSON.num v => v
        | _ => -1) ∧
    (NewBlock blockJSON).Left
      = (match JSON.index blockJSON "left" with
        | JSON.num v => v
        | _ => -1) ∧
    (∀ v : ℚ, minInt ≤ truncate v → truncate v ≤ maxInt →
      toInt v = truncate v ∧ truncate v = if 0 ≤ v then ⌊v⌋ else ⌈v⌉) ∧
    (∀ n : Int, minInt ≤ n → n ≤ maxInt → toInt (n : ℚ) = n) ∧
    (∀ v : ℚ, minInt ≤ toInt v ∧ toInt v ≤ maxInt) := by
  refine ⟨numberOr_eq _ _, numberOr_eq _ _, numberOr_eq _ _, floatOr_eq _ _, floatOr_eq _ _,
    ?_, toInt_intCast, toInt_range⟩
  intro v h1 h2
  exact ⟨toInt_of_range v h1 h2, truncate_eq v⟩

/-- C14 (amended), instantiated on the integer 3 and on the number 2.5. -/
theorem NewBlock_scalar_fields_witness :
    (minInt ≤ (3 : Int) ∧ (3 : Int) ≤ maxInt ∧ minInt ≤ truncate twoAndHalf ∧
      truncate twoAndHalf ≤ maxInt) ∧
    toInt ((3 : Int) : ℚ) = 3 ∧
    (toInt twoAndHalf = truncate twoAndHalf ∧
      truncate twoAndHalf = if 0 ≤ twoAndHalf then ⌊twoAndHalf⌋ else ⌈twoAndHalf⌉) :=
  ⟨⟨by decide, by decide, by decide, by decide⟩,
   (NewBlock_scalar_fields []).2.2.2.2.2.2.1 3 (by decide) (by decide),
   (NewBlock_scalar_fields []).2.2.2.2.2.1 twoAndHalf (by decide) (by decide)⟩

/-- C15: on the empty record sequence `Read` (hence `NewDocument`) succeeds, the root has no
children, `Sections()`, `Paragraphs()`, `Tables()` and `Chunks()` of the root are empty, and
`Document.ToText()` is the empty string. -/
theorem Read_empty :
    (Read []).isSome = true ∧
    (Read []).map (fun h => Heap.children h 0) = some [] ∧
    ∀ fuel,
      (Read []).bind (fun h => Sections h (fuel + 1) 0) = some [] ∧
      (Read []).bind (fun h => Paragraphs h (fuel + 1) 0) = some [] ∧
      (Read []).bind (fun h => Tables h (fuel + 1) 0) = some [] ∧
      (Read []).bind (fun h => Chunks h (fuel + 1) 0) = some [] ∧
      (Read []).bind (fun h => DocumentToText h (fuel + 1)) = some "" := by
  refine ⟨rfl, rfl, ?_⟩
  intro fuel
  refine ⟨rfl, rfl, rfl, rfl, ?_⟩
  show some (TrimSpace "") = some ""
  decide


theorem nestedDocHeap_parentOfChild (a c : Nat) (hc : c ∈ Heap.children nestedDocHeap a) :
    Heap.parent nestedDocHeap c = some a := by
  obtain ⟨s, -, hs, inv⟩ := Inv_of_Read nestedDoc nestedDocHeap rfl
  rw [← hs] at hc ⊢
  exact inv.heapInv.parentOfChild a c hc

theorem nestedDocHeap_path : PathTo nestedDocHeap 0 3 [0, 1, 2] :=
  PathTo.step 2 3 [0, 1]
    (PathTo.step 1 2 [0] (PathTo.step 0 1 [] PathTo.root (by decide)) (by decide))
    (by decide)

/-- C16 (counterexample): on header "A" (level 0), header "B" (level 1), para "x", the only
Section that is a direct child of the root is "A", whose `ToText(true, true)` is "A\nB\nx",
yet `Document.ToText()` is "A\nB\nx\nB\nx": the nested section "B" is rendered a second time
on its own. -/
theorem DocumentToText_repeats_nested_section :
    (Read nestedDoc).map (fun h => (Heap.children h 0, Heap.kind h 1, Heap.parent h 2))
      = some ([1], some Kind.section, some 1) ∧
    (Read nestedDoc).bind (fun h => ToText h 5 1 true true) = some "A\nB\nx" ∧
    (Read nestedDoc).bind (fun h => DocumentToText h 5) = some "A\nB\nx\nB\nx" := by
  decide

/-- C16 (amended): for every record sequence on which `Read` succeeds, `Document.ToText()`
returns (with enough fuel, and then always) the whitespace-trimmed concatenation, over all
the Section nodes returned by `Sections()`, that is the nodes of all `header` records in
input order, nested sections included, of each section's `ToText(true, true)` followed by a
newline. -/
theorem DocumentToText_of_Read (rs : List JSON) (h : Heap) (hread : Read rs = some h) :
    ∃ fuel, ∀ fuel', fuel ≤ fuel' →
      Sections h fuel' 0 = some (recordAddrs isHeaderRecord 1 rs) ∧
      ∃ texts : List String,
        (recordAddrs isHeaderRecord 1 rs).map (fun a => ToText h fuel' a true true)
          = texts.map some ∧
        DocumentToText h fuel'
          = some (TrimSpace (String.join (texts.map fun t => t ++ "\n"))) := by
  obtain ⟨s, -, rfl, inv⟩ := Inv_of_Read rs h hread
  obtain ⟨f1, hf1⟩ := Sections_of_Inv rs s inv
  obtain ⟨f2, hf2⟩ := DocumentToText_of_Inv rs s inv
  refine ⟨max f1 f2, ?_⟩
  intro fuel' hle
  exact ⟨hf1 fuel' (le_trans (le_max_left _ _) hle),
    hf2 fuel' (le_trans (le_max_right _ _) hle)⟩

/-- C16 (amended), instantiated on header "A", header "B", para "x". -/
theorem DocumentToText_of_Read_witness :
    Read nestedDoc = some nestedDocHeap ∧
    ∃ fuel, ∀ fuel', fuel ≤ fuel' →
      Sections nestedDocHeap fuel' 0 = some (recordAddrs isHeaderRecord 1 nestedDoc) ∧
      ∃ texts : List String,
        (recordAddrs isHeaderRecord 1 nestedDoc).map
            (fun a => ToText nestedDocHeap fuel' a true true)
          = texts.map some ∧
        DocumentToText nestedDocHeap fuel'
          = some (TrimSpace (String.join (texts.map fun t => t ++ "\n"))) :=
  ⟨rfl, DocumentToText_of_Read nestedDoc nestedDocHeap rfl⟩

/-- C17 (the code at the failing input): on header "A", header "B", para "x", the paragraph
(address 3) has `ToContextText(false)` equal to the empty string while its
`ToText(true, true)` is "x", and the Section "A" (address 1) has `ToContextText(false)` equal
to the empty string while its `ToText(false, false)` is "A": inside `ToContextText` the call
`b.ToText` is the stub of `*Block`. -/
theorem ToContextText_returns_empty_text :
    (Read nestedDoc).bind (fun h => ToContextText h 0 3 false) = some "" ∧
    (Read nestedDoc).bind (fun h => ToText h 1 3 true true) = some "x" ∧
    (Read nestedDoc).bind (fun h => ToContextText h 0 1 false) = some "" ∧
    (Read nestedDoc).bind (fun h => ToText h 1 1 false false) = some "A" := by
  decide

/-- C18 (the code at the failing input): on header "A", header "B", para "x", the
`ParentText()` of the paragraph, whose ancestors are the root and the sections titled "A" and
"B" (their `ToText(false, false)`), is " >  > " and not "A > B"; and in the hand-built tree
where the paragraph "c" has the root and the paragraph "p" as ancestors, the `ParentText()`
of "c" is a newline and not "p". -/
theorem ParentText_not_breadcrumb :
    (Read nestedDoc).bind (fun h => ParentText h 3 3) = some " >  > " ∧
    (Read nestedDoc).bind (fun h => ToText h 1 1 false false) = some "A" ∧
    (Read nestedDoc).bind (fun h => ToText h 1 2 false false) = some "B" ∧
    (Read nestedDoc).map (fun h => (Heap.parent h 3, Heap.parent h 2, Heap.parent h 1))
      = some (some 2, some 1, some 0) ∧
    ParentText paraTree 2 2 = some "\n" ∧
    ToText paraTree 1 1 false false = some "p" := by
  decide

/-- C19: in a heap whose `Parent` links are those set by `AddChild` and whose root has no
parent, for every node `n` at depth `d` of the tree under the root, with ancestors
`a_0 = root, ..., a_(d-1)` from the root down to its parent, `n.ParentChain()` returns (with
fuel at least `d`) exactly that list: it has `d` elements, starts at the root, ends at the
direct parent of `n`, and does not contain `n`; the chain of the root is empty. -/
theorem ParentChain_root_first (h : Heap)
    (hp : ∀ a c, c ∈ Heap.children h a → Heap.parent h c = some a) (root : Nat)
    (hroot : Heap.parent h root = none) (n : Nat) (ancestors : List Nat)
    (hpath : PathTo h root n ancestors) :
    (∀ fuel, ancestors.length ≤ fuel → ParentChain h fuel n = some ancestors) ∧
    n ∉ ancestors ∧
    (∀ a, ancestors.head? = some a → a = root) ∧
    Heap.parent h n = ancestors.getLast? ∧
    (∀ fuel, ParentChain h fuel root = some []) := by
  refine ⟨?_, PathTo_not_mem h hp root hroot n ancestors hpath,
    PathTo_head h root n ancestors hpath, PathTo_parent h hp root hroot n ancestors hpath, ?_⟩
  · intro fuel hfuel
    unfold ParentChain
    rw [parentLoop_of_path h hp root hroot n ancestors hpath [] fuel hfuel]
    simp
  · intro fuel
    unfold ParentChain
    rw [hroot, parentLoop_none]

/-- C19, instantiated on the paragraph of header "A", header "B", para "x", at depth 3. -/
theorem ParentChain_root_first_witness :
    ((∀ a c, c ∈ Heap.children nestedDocHeap a → Heap.parent nestedDocHeap c = some a) ∧
      Heap.parent nestedDocHeap 0 = none ∧ PathTo nestedDocHeap 0 3 [0, 1, 2]) ∧
    ((∀ fuel, [0, 1, 2].length ≤ fuel → ParentChain nestedDocHeap fuel 3 = some [0, 1, 2]) ∧
    3 ∉ [0, 1, 2] ∧
    (∀ a, [0, 1, 2].head? = some a → a = 0) ∧
    Heap.parent nestedDocHeap 3 = [0, 1, 2].getLast? ∧
    (∀ fuel, ParentChain nestedDocHeap fuel 0 = some [])) :=
  ⟨⟨nestedDocHeap_parentOfChild, by decide, nestedDocHeap_path⟩,
   ParentChain_root_first nestedDocHeap nestedDocHeap_parentOfChild 0 (by decide) 3 [0, 1, 2]
     nestedDocHeap_path⟩

/-- C20: for every Paragraph, ListItem or Section node `n` (a Section having the `Title` that
`NewSection` gives it, its sentences joined by newline) and both values of `r`,
`n.ToText(false, r)` is the sentences of `n` joined by newline, and `n.ToText(true, r)` is
that string followed, for each child `c` in order, by a newline and `c.ToText(r, r)`. -/
theorem ToText_sentences_then_children (h : Heap) (fuel n : Nat) (node : Node)
    (hn : h.get? n = some node)
    (hk : node.kind = Kind.paragraph ∨ node.kind = Kind.listItem ∨
      node.kind = Kind.section)
    (hT : ∀ t ∈ node.Title, t = "\n".intercalate node.blk.Sentences) (r : Bool) :
    ToText h (fuel + 1) n false r = some ("\n".intercalate node.blk.Sentences) ∧
    ∀ texts : List String,
      node.blk.Children.map (fun c => ToText h fuel c r r) = texts.map some →
      ToText h (fuel + 1) n true r
        = some ("\n".intercalate node.blk.Sentences
            ++ String.join (texts.map fun t => "\n" ++ t)) := by
  rw [ToText_succ, ToText_succ, hn]
  rcases node with b | p | sec | li | tb | row | th
  · simp [Node.kind] at hk
  · exact ⟨appendChildren_false _ _ _, fun texts hm => appendChildren_true _ _ texts _ hm⟩
  · have hT' : sec.Title = "\n".intercalate sec.Sentences := hT sec.Title rfl
    simp only [hT']
    exact ⟨appendChildren_false _ _ _, fun texts hm => appendChildren_true _ _ texts _ hm⟩
  · exact ⟨appendChildren_false _ _ _, fun texts hm => appendChildren_true _ _ texts _ hm⟩
  · simp [Node.kind] at hk
  · simp [Node.kind] at hk
  · simp [Node.kind] at hk

/-- C20, instantiated on the Section "A" of scenario B, whose children are the paragraph "x"
and the Section "B". -/
theorem ToText_sentences_then_children_witness :
    (scenarioBHeap.get? 1 = some ((scenarioBHeap.get? 1).getD (Node.block {})) ∧
      (((scenarioBHeap.get? 1).getD (Node.block {})).kind = Kind.paragraph ∨
        ((scenarioBHeap.get? 1).getD (Node.block {})).kind = Kind.listItem ∨
        ((scenarioBHeap.get? 1).getD (Node.block {})).kind = Kind.section) ∧
      ∀ t ∈ ((scenarioBHeap.get? 1).getD (Node.block {})).Title,
        t = "\n".intercalate ((scenarioBHeap.get? 1).getD (Node.block {})).blk.Sentences) ∧
    (ToText scenarioBHeap (2 + 1) 1 false true
        = some ("\n".intercalate ((scenarioBHeap.get? 1).getD (Node.block {})).blk.Sentences) ∧
    ∀ texts : List String,
      ((scenarioBHeap.get? 1).getD (Node.block {})).blk.Children.map
          (fun c => ToText scenarioBHeap 2 c true true) = texts.map some →
      ToText scenarioBHeap (2 + 1) 1 true true
        = some ("\n".intercalate ((scenarioBHeap.get? 1).getD (Node.block {})).blk.Sentences
            ++ String.join (texts.map fun t => "\n" ++ t))) :=
  ⟨⟨rfl, by decide, by decide⟩,
   ToText_sentences_then_children scenarioBHeap 2 1
     ((scenarioBHeap.get? 1).getD (Node.block {})) rfl (by decide) (by decide) true⟩


/-- C21 (counterexample): on the table with the header row "h1", "h2" and one full row whose
cell is the nested paragraph "foo", "bar", `Table.ToText` returns
"| h1 | h2\n | --- | ---\n | foo\nbar", whereas the lines of the table with only the
trailing whitespace removed are " | h1 | h2\n | --- | ---\n | foo\nbar": the code also
removes the space before the first "|". -/
theorem Table_ToText_drops_leading_space :
    (NewTable tableRecordMap).map Table.ToText
      = some "| h1 | h2\n | --- | ---\n | foo\nbar" ∧
    (NewTable tableRecordMap).map (fun t => trimTrailingSpace (tableLines t))
      = some " | h1 | h2\n | --- | ---\n | foo\nbar" := by
  decide

/-- C21 (amended): for every table, `ToText` is `strings.TrimSpace` of the lines of the table,
that is the lines with their leading and their trailing whitespace removed, where the lines
are, for each header row in order, the cell texts each preceded by " | ", a newline, one
" | ---" per cell and a newline, followed, for each data row in order, by the cell texts each
preceded by " | " and a newline. -/
theorem Table_ToText_trimmed_lines (t : Table) : t.ToText = TrimSpace (tableLines t) :=
  Table_ToText_eq t

/-- C22: for every table, `ToHTML` is "<table>", then for each header row in order "<th>", the
HTML of its cells and "</th>", then for each data row in order "<tr>", the HTML of its cells
and "</tr>", then "</table>"; the HTML of a cell is "<td>", its content and "</td>" when its
span is at most 1, and "<td colspan=\"n\">", its content and "</td>" when its span `n` exceeds
1, the content of a cell with a string value being that string.  In particular the table with
the header row "h1", "h2" and one `full_row` row with `col_span` 2 renders one "<th>" holding
two "<td>" and one "<tr>" holding a single "<td colspan=\"2\">". -/
theorem Table_ToHTML_rows_and_cells :
    (∀ t : Table,
      t.ToHTML
        = "<table>"
            ++ String.join (t.Headers.map fun hd =>
                "<th>" ++ String.join (hd.Cells.map TableCell.ToHTML) ++ "</th>")
            ++ String.join (t.Rows.map fun row =>
                "<tr>" ++ String.join (row.Cells.map TableCell.ToHTML) ++ "</tr>")
            ++ "</table>") ∧
    (∀ tc : TableCell,
      tc.ToHTML
        = if tc.ColSpan ≤ 1 then "<td>" ++ tc.cellHTML ++ "</td>"
          else "<td colspan=\"" ++ formatInt tc.ColSpan ++ "\">" ++ tc.cellHTML ++ "</td>") ∧
    (∀ (tc : TableCell) (v : String), tc.CellValue = JSON.str v → tc.cellHTML = v) ∧
    (NewTable tableRecordMap).map Table.ToHTML
      = some ("<table><th><td>h1</td><td>h2</td></th>"
          ++ "<tr><td colspan=\"2\"><p>foo<br>bar</p></td></tr></table>") := by
  refine ⟨Table_ToHTML_eq, TableCell_ToHTML_eq, ?_, by decide⟩
  intro tc v hv
  unfold TableCell.cellHTML
  rw [hv]

/-- C23: a cell built by `NewTableCell` from a record whose `cell_value` is the string `v` has
no nested Paragraph node and `ToText()` is `v`; a cell built from a record whose `cell_value`
is a nested record with the string sentences `ss` owns the Paragraph node built from that
record and `ToText()` is `ss` joined by newline; no cell built by `NewTableCell` has both a
string value and a nested Paragraph node; and the sentences "foo", "bar" give "foo\nbar". -/
theorem NewTableCell_value_or_paragraph (cellJSON : List (String × JSON)) :
    (∀ v, JSON.index cellJSON "cell_value" = JSON.str v →
      ∃ c, NewTableCell cellJSON = some c ∧ c.CellNode = none ∧ c.ToText = v) ∧
    (∀ m ss, JSON.index cellJSON "cell_value" = JSON.obj m →
      JSON.index m "sentences" = JSON.arr (ss.map JSON.str) →
      ∃ c, NewTableCell cellJSON = some c ∧ c.CellNode = some (NewParagraph m) ∧
        c.ToText = "\n".intercalate ss) ∧
    (∀ c, NewTableCell cellJSON = some c →
      ¬ ((∃ v, c.CellValue = JSON.str v) ∧ ∃ p, c.CellNode = some p)) ∧
    (NewTableCell nestedCell).map TableCell.ToText = some "foo\nbar" := by
  refine ⟨?_, ?_, ?_, by decide⟩
  · intro v hv
    obtain ⟨c, h1, h2, h3, -⟩ := NewTableCell_of_str cellJSON v hv
    exact ⟨c, h1, h3, TableCell_ToText_str c v h2⟩
  · intro m ss hv hs
    obtain ⟨c, h1, h2, h3, -⟩ := NewTableCell_of_obj cellJSON m hv
    refine ⟨c, h1, h3, ?_⟩
    rw [TableCell_ToText_obj c m _ h2 h3, NewParagraph_Sentences m ss hs]
  · intro c hc
    rintro ⟨⟨v, hv⟩, p, hp⟩
    rcases (NewTableCell_some cellJSON c hc).2.2 with ⟨v', -, hn⟩ | ⟨m, hm, -⟩
    · rw [hn] at hp
      cases hp
    · rw [hm] at hv
      cases hv

/-- C23, instantiated on the cell whose value is the nested record with the sentences "foo"
and "bar". -/
theorem NewTableCell_value_or_paragraph_witness :
    (JSON.index nestedCell "cell_value"
        = JSON.obj [("sentences", JSON.arr (["foo", "bar"].map JSON.str))] ∧
      JSON.index [("sentences", JSON.arr (["foo", "bar"].map JSON.str))] "sentences"
        = JSON.arr (["foo", "bar"].map JSON.str)) ∧
    ∃ c, NewTableCell nestedCell = some c ∧
      c.CellNode = some (NewParagraph [("sentences", JSON.arr (["foo", "bar"].map JSON.str))]) ∧
      c.ToText = "\n".intercalate ["foo", "bar"] :=
  ⟨⟨rfl, rfl⟩, (NewTableCell_value_or_paragraph nestedCell).2.1 _ ["foo", "bar"] rfl rfl⟩

/-- C24 (counterexample): a `full_row` row whose `col_span` is 2.5 gets one cell whose
`ColSpan` is 2, not the `col_span` of the row. -/
theorem NewTableRow_ColSpan_is_converted :
    (NewTableRow fractionalSpanRow).map (fun row => row.Cells.map TableCell.ColSpan)
      = some [2] ∧
    JSON.index fractionalSpanRow "col_span" = JSON.num twoAndHalf ∧
    ((2 : Int) : ℚ) ≠ twoAndHalf := by
  refine ⟨by decide, rfl, by decide⟩

/-- C24 (amended): for every table record with a string name whose `table_rows` (none when
the field is absent or not an array) are well-formed rows, `NewTable` returns a table whose
`Headers` are exactly the headers built from the rows of type `table_header`, in input order,
and whose `Rows` are exactly the rows built from all the other rows, in input order, so that
`len(Headers) + len(Rows)` is the number of row records; a row built by `NewTableRow` from a
record of type `full_row` has exactly one cell, built from the row record itself, whose
`ColSpan` is the conversion `int(v)` of the `col_span` `v` of the row when it is a number, so
`v` itself when `v` is an integer that fits in an `int`, and 1 otherwise; and a row built from
any other record has one cell per element of its `cells`, in order, each built from that
element. -/
theorem NewTable_headers_and_rows (tableJSON : List (String × JSON)) (name : String)
    (hname : JSON.index tableJSON "name" = JSON.str name)
    (hok : ((JSON.index tableJSON "table_rows").asArray.getD []).all rowOk = true) :
    ∃ t, NewTable tableJSON = some t ∧
      t.Headers.map some
        = (((JSON.index tableJSON "table_rows").asArray.getD []).filter
            isTableHeaderRow).map headerOfRow ∧
      t.Rows.map some
        = (((JSON.index tableJSON "table_rows").asArray.getD []).filter
            fun r => !isTableHeaderRow r).map rowOfRow ∧
      t.Headers.length + t.Rows.length
        = ((JSON.index tableJSON "table_rows").asArray.getD []).length ∧
      (∀ rowData row, NewTableRow rowData = some row →
        if (JSON.index rowData "type").asString = some "full_row" then
          ∃ cell, row.Cells = [cell] ∧ NewTableCell rowData = some cell ∧
            cell.ColSpan = ((JSON.index rowData "col_span").asFloat.map toInt).getD 1
        else
          ∀ cells, JSON.index rowData "cells" = JSON.arr cells →
            row.Cells.length = cells.length ∧ row.Cells.map some = cells.map cellOfJSON) ∧
      ∀ n : Int, minInt ≤ n → n ≤ maxInt → toInt (n : ℚ) = n := by
  obtain ⟨t, ht, h1, h2⟩ := NewTable_of_rows tableJSON name hname hok
  refine ⟨t, ht, h1, h2, ?_, ?_, toInt_intCast⟩
  · have l1 := congrArg List.length h1
    have l2 := congrArg List.length h2
    simp only [List.length_map] at l1 l2
    rw [l1, l2]
    exact filter_length_add isTableHeaderRow _
  · intro rowData row hrow
    split
    · rename_i hfull
      obtain ⟨cell, hc1, hc2⟩ := NewTableRow_full rowData row hrow hfull
      exact ⟨cell, hc1, hc2, NewTableCell_ColSpan rowData cell hc2⟩
    · rename_i hfull
      intro cells hcells
      have hm := NewTableRow_cells rowData row hrow hfull cells hcells
      refine ⟨?_, hm⟩
      have := congrArg List.length hm
      simpa using this

/-- C24 (amended), instantiated on the table record with one header row of two cells and one
full row with `col_span` 2. -/
theorem NewTable_headers_and_rows_witness :
    (JSON.index tableRecordMap "name" = JSON.str "t" ∧
      ((JSON.index tableRecordMap "table_rows").asArray.getD []).all rowOk = true) ∧
    ∃ t, NewTable tableRecordMap = some t ∧
      t.Headers.map some
        = (((JSON.index tableRecordMap "table_rows").asArray.getD []).filter
            isTableHeaderRow).map headerOfRow ∧
      t.Rows.map some
        = (((JSON.index tableRecordMap "table_rows").asArray.getD []).filter
            fun r => !isTableHeaderRow r).map rowOfRow ∧
      t.Headers.length + t.Rows.length
        = ((JSON.index tableRecordMap "table_rows").asArray.getD []).length ∧
      (∀ rowData row, NewTableRow rowData = some row →
        if (JSON.index rowData "type").asString = some "full_row" then
          ∃ cell, row.Cells = [cell] ∧ NewTableCell rowData = some cell ∧
            cell.ColSpan = ((JSON.index rowData "col_span").asFloat.map toInt).getD 1
        else
          ∀ cells, JSON.index rowData "cells" = JSON.arr cells →
            row.Cells.length = cells.length ∧ row.Cells.map some = cells.map cellOfJSON) ∧
      ∀ n : Int, minInt ≤ n → n ≤ maxInt → toInt (n : ℚ) = n :=
  ⟨⟨rfl, by decide⟩, NewTable_headers_and_rows tableRecordMap "t" rfl (by decide)⟩


/-- C25 (counterexample): the `ToHTML(false, false)` of a Section titled "T" whose level is
the largest `int`, 9223372036854775807, is "<h-9223372036854775808>T</h-9223372036854775808>",
whereas the level plus one is 9223372036854775808. -/
theorem Section_ToHTML_wraps_at_largest_level :
    ToHTML topLevelSection 1 0 false false
      = some "<h-9223372036854775808>T</h-9223372036854775808>" ∧
    Heap.level topLevelSection 0 = some 9223372036854775807 ∧
    formatInt (9223372036854775807 + 1) = "9223372036854775808" := by
  decide

/-- C25 (amended): for every Paragraph or ListItem node `n`, with the opening and closing tags
"<p>", "</p>" or "<li>", "</li>", `n.ToHTML(false, r)` is the opening tag, the sentences of `n`
joined by "<br>" and the closing tag, and `n.ToHTML(true, r)` is the opening tag, the sentences
joined by "<br>", then, only when `n` has at least one child, "<ul>", the concatenation of
`c.ToHTML(r, r)` over the children `c` in order and "</ul>", then the closing tag; and for
every Section node, `ToHTML(false, r)` is "<hK>", the title and "</hK>" where `K` is the `int`
sum of the level and one: the level plus one for every level below the largest `int`, and
the smallest `int` at the largest one.  In particular the paragraph "p" with the child
paragraph "c" renders "<p>p<ul><p>c</p></ul></p>" and the Section "A" of level 0 renders
"<h1>A</h1>". -/
theorem ToHTML_sentences_then_children (h : Heap) (fuel n : Nat) (node : Node)
    (hn : h.get? n = some node) (r : Bool) :
    (∀ opening closing : String,
      (node.kind = Kind.paragraph ∧ opening = "<p>" ∧ closing = "</p>") ∨
        (node.kind = Kind.listItem ∧ opening = "<li>" ∧ closing = "</li>") →
      ToHTML h (fuel + 1) n false r
        = some (opening ++ "<br>".intercalate node.blk.Sentences ++ closing) ∧
      ∀ texts : List String,
        node.blk.Children.map (fun c => ToHTML h fuel c r r) = texts.map some →
        ToHTML h (fuel + 1) n true r
          = some (opening ++ "<br>".intercalate node.blk.Sentences
              ++ (if node.blk.Children = [] then ""
                  else "<ul>" ++ String.join texts ++ "</ul>")
              ++ closing)) ∧
    (∀ title ∈ node.Title,
      ToHTML h (fuel + 1) n false r
        = some ("<h" ++ formatInt (wrapInt (node.blk.Level + 1)) ++ ">" ++ title
            ++ "</h" ++ formatInt (wrapInt (node.blk.Level + 1)) ++ ">")) ∧
    (∀ level : Int, minInt ≤ level → level < maxInt → wrapInt (level + 1) = level + 1) ∧
    wrapInt (maxInt + 1) = minInt ∧
    ToHTML paraTree 2 1 true true = some "<p>p<ul><p>c</p></ul></p>" ∧
    ToHTML scenarioBHeap 1 1 false false = some "<h1>A</h1>" := by
  refine ⟨?_, ?_, ?_, wrapInt_succ_maxInt, by decide, by decide⟩
  rotate_left 2
  · intro level h1 h2
    exact wrapInt_of_range (level + 1) (by omega) (by omega)
  · intro opening closing hk
    rw [ToHTML_succ, ToHTML_succ, hn]
    have key : ∀ (b : Block) (o c : String),
        (if false && decide (b.Children.length > 0) then
            match htmlChildren (fun c => ToHTML h fuel c r r) b.Children
              (o ++ "<br>".intercalate b.Sentences ++ "<ul>") with
            | none => none
            | some htmlStr => some (htmlStr ++ "</ul>" ++ c)
          else some (o ++ "<br>".intercalate b.Sentences ++ c))
          = some (o ++ "<br>".intercalate b.Sentences ++ c) ∧
        ∀ texts : List String,
          b.Children.map (fun c => ToHTML h fuel c r r) = texts.map some →
          (if true && decide (b.Children.length > 0) then
            match htmlChildren (fun c => ToHTML h fuel c r r) b.Children
              (o ++ "<br>".intercalate b.Sentences ++ "<ul>") with
            | none => none
            | some htmlStr => some (htmlStr ++ "</ul>" ++ c)
          else some (o ++ "<br>".intercalate b.Sentences ++ c))
          = some (o ++ "<br>".intercalate b.Sentences
              ++ (if b.Children = [] then "" else "<ul>" ++ String.join texts ++ "</ul>")
              ++ c) := by
      intro b o c
      refine ⟨by simp, ?_⟩
      intro texts hm
      cases hch : b.Children with
      | nil => simp
      | cons x xs =>
        rw [hch] at hm
        rw [htmlChildren_eq _ _ texts _ hm]
        simp [String.append_assoc]
    rcases node with b | p | sec | li | tb | row | th
    · simp [Node.kind] at hk
    · have ho : opening = "<p>" ∧ closing = "</p>" := by
        rcases hk with ⟨-, h1, h2⟩ | ⟨h0, -, -⟩
        · exact ⟨h1, h2⟩
        · simp [Node.kind] at h0
      rw [ho.1, ho.2]
      exact key p.toBlock "<p>" "</p>"
    · simp [Node.kind] at hk
    · have ho : opening = "<li>" ∧ closing = "</li>" := by
        rcases hk with ⟨h0, -, -⟩ | ⟨-, h1, h2⟩
        · simp [Node.kind] at h0
        · exact ⟨h1, h2⟩
      rw [ho.1, ho.2]
      exact key li.toBlock "<li>" "</li>"
    · simp [Node.kind] at hk
    · simp [Node.kind] at hk
    · simp [Node.kind] at hk
  · intro title ht
    rw [ToHTML_succ, hn]
    rcases node with b | p | sec | li | tb | row | th
    all_goals first
      | (simp [Node.Title] at ht; done)
      | skip
    simp only [Node.Title, Option.mem_def, Option.some.injEq] at ht
    subst ht
    simp [Node.blk, String.append_assoc]

/-- C25 (amended), instantiated on the paragraph "p" of the hand-built tree, whose child is
the paragraph "c". -/
theorem ToHTML_sentences_then_children_witness :
    (paraTree.get? 1
        = some (Node.paragraph
            { Tag := "para", Sentences := ["p"], Children := [2], Parent := some 0 }) ∧
      ((Node.paragraph
            { Tag := "para", Sentences := ["p"], Children := [2], Parent := some 0 }).kind
          = Kind.paragraph ∧ "<p>" = "<p>" ∧ "</p>" = "</p>")) ∧
    (ToHTML paraTree (1 + 1) 1 false true
        = some ("<p>" ++ "<br>".intercalate
            (Node.paragraph
              { Tag := "para", Sentences := ["p"], Children := [2],
                Parent := some 0 }).blk.Sentences ++ "</p>") ∧
      ∀ texts : List String,
        (Node.paragraph
            { Tag := "para", Sentences := ["p"], Children := [2],
              Parent := some 0 }).blk.Children.map
          (fun c => ToHTML paraTree 1 c true true) = texts.map some →
        ToHTML paraTree (1 + 1) 1 true true
          = some ("<p>" ++ "<br>".intercalate
              (Node.paragraph
                { Tag := "para", Sentences := ["p"], Children := [2],
                  Parent := some 0 }).blk.Sentences
              ++ (if (Node.paragraph
                    { Tag := "para", Sentences := ["p"], Children := [2],
                      Parent := some 0 }).blk.Children = [] then ""
                  else "<ul>" ++ String.join texts ++ "</ul>")
              ++ "</p>")) :=
  ⟨⟨rfl, rfl, rfl, rfl⟩,
   (ToHTML_sentences_then_children paraTree 1 1 _ rfl true).1 "<p>" "</p>"
     (Or.inl ⟨rfl, rfl, rfl⟩)⟩

/-- C26: for every record sequence on which `Read` succeeds, `Document.Tables()` returns (with
enough fuel, and then always) exactly the nodes of the `table` records, in input order, one
per `table` record, and `Paragraphs()` of the root returns exactly the nodes of the `para`
records, in input order, one per `para` record; the node of a `table` record is a Table and
the node of a `para` record is a Paragraph, each holding the content built from its record.
In particular, on a header, a paragraph, a table and a list item, `Tables()` is the third
node and `Paragraphs()` the second. -/
theorem Tables_and_Paragraphs_of_Read (rs : List JSON) (h : Heap) (hread : Read rs = some h) :
    (∃ fuel, ∀ fuel', fuel ≤ fuel' →
      Tables h fuel' 0 = some (recordAddrs isTableRecord 1 rs) ∧
      Paragraphs h fuel' 0 = some (recordAddrs isParaRecord 1 rs)) ∧
    (recordAddrs isTableRecord 1 rs).length = (rs.filter isTableRecord).length ∧
    (recordAddrs isParaRecord 1 rs).length = (rs.filter isParaRecord).length ∧
    (∀ i r, rs.get? i = some r →
      (isTableRecord r = true → Heap.kind h (i + 1) = some Kind.table) ∧
      (isParaRecord r = true → Heap.kind h (i + 1) = some Kind.paragraph) ∧
      ∃ n, recordNode r = some n ∧ (h.get? (i + 1)).map Node.content = some n.content) ∧
    (Read mixedDoc).map (fun h => (Tables h 3 0, Paragraphs h 3 0))
      = some (some [3], some [2]) := by
  obtain ⟨s, -, rfl, inv⟩ := Inv_of_Read rs h hread
  refine ⟨?_, recordAddrs_length _ _ _, recordAddrs_length _ _ _, ?_, by decide⟩
  · obtain ⟨f1, hf1⟩ := query_of_Inv rs s inv Kind.table "table" (by decide)
      (by
        intro tag'
        by_cases h1 : tag' = "para"
        · subst h1; decide
        · by_cases h2 : tag' = "table"
          · subst h2; decide
          · by_cases h3 : tag' = "list_item"
            · subst h3; decide
            · by_cases h4 : tag' = "header"
              · subst h4; decide
              · simp [h1, h2, h3, h4])
    obtain ⟨f2, hf2⟩ := query_of_Inv rs s inv Kind.paragraph "para" (by decide)
      (by
        intro tag'
        by_cases h1 : tag' = "para"
        · subst h1; decide
        · by_cases h2 : tag' = "table"
          · subst h2; decide
          · by_cases h3 : tag' = "list_item"
            · subst h3; decide
            · by_cases h4 : tag' = "header"
              · subst h4; decide
              · simp [h1, h2, h3, h4])
    refine ⟨max f1 f2, ?_⟩
    intro fuel' hle
    rw [Tables_eq, Paragraphs_eq]
    exact ⟨hf1 fuel' (le_trans (le_max_left _ _) hle),
      hf2 fuel' (le_trans (le_max_right _ _) hle)⟩
  · intro i r hi
    refine ⟨?_, ?_, inv.content i r hi⟩
    · intro ht
      simp only [isTableRecord, decide_eq_true_eq] at ht
      rw [kind_of_record rs s inv i r hi "table" ht]
      decide
    · intro ht
      simp only [isParaRecord, decide_eq_true_eq] at ht
      rw [kind_of_record rs s inv i r hi "para" ht]
      decide

/-- C26, instantiated on a header, a paragraph, a table and a list item. -/
theorem Tables_and_Paragraphs_of_Read_witness :
    Read mixedDoc = some mixedDocHeap ∧
    ((∃ fuel, ∀ fuel', fuel ≤ fuel' →
      Tables mixedDocHeap fuel' 0 = some (recordAddrs isTableRecord 1 mixedDoc) ∧
      Paragraphs mixedDocHeap fuel' 0 = some (recordAddrs isParaRecord 1 mixedDoc)) ∧
    (recordAddrs isTableRecord 1 mixedDoc).length = (mixedDoc.filter isTableRecord).length ∧
    (recordAddrs isParaRecord 1 mixedDoc).length = (mixedDoc.filter isParaRecord).length ∧
    (∀ i r, mixedDoc.get? i = some r →
      (isTableRecord r = true → Heap.kind mixedDocHeap (i + 1) = some Kind.table) ∧
      (isParaRecord r = true → Heap.kind mixedDocHeap (i + 1) = some Kind.paragraph) ∧
      ∃ n, recordNode r = some n ∧
        (mixedDocHeap.get? (i + 1)).map Node.content = some n.content) ∧
    (Read mixedDoc).map (fun h => (Tables h 3 0, Paragraphs h 3 0))
      = some (some [3], some [2])) :=
  ⟨rfl, Tables_and_Paragraphs_of_Read mixedDoc mixedDocHeap rfl⟩

/-- C27 (the code at the failing input): `AddChild` of `src/file_reader.go`, called on a
`*BaseBlock` with a child that is a `*Paragraph`, a `*Section`, a `*ListItem` or a `*Table`,
panics; in every heap it returns exactly when the dynamic type of the child is `*BaseBlock`
itself, and then the child is appended and its parent set. -/
theorem BaseBlock_AddChild_panics_on_Paragraph :
    (BaseBlock.AddChild [Node.block {}, Node.paragraph {}] 0 1).isSome = false ∧
    (BaseBlock.AddChild [Node.block {}, Node.section { Title := "" }] 0 1).isSome = false ∧
    (BaseBlock.AddChild [Node.block {}, Node.listItem {}] 0 1).isSome = false ∧
    (BaseBlock.AddChild [Node.block {},
      Node.table { Rows := [], Headers := [], Name := "" }] 0 1).isSome = false ∧
    (∀ (h : Heap) (b node : Nat),
      (BaseBlock.AddChild h b node).isSome = true ↔ Heap.kind h node = some Kind.block) ∧
    (BaseBlock.AddChild [Node.block {}, Node.block {}] 0 1).map
        (fun h => (Heap.children h 0, Heap.parent h 1)) = some ([1], some 0) := by
  refine ⟨by decide, by decide, by decide, by decide, ?_, by decide⟩
  intro h b node
  unfold BaseBlock.AddChild
  simp only [Heap.kind_update]
  cases hk : Heap.kind h node with
  | none => simp
  | some k => cases k <;> simp

/-- C28: for every record sequence on which `Read` succeeds, every node reachable from the
root through `Children` is an object of the (finite) heap and each of its `Children` links
goes to a strictly larger address, so the reachable part has no cycle; `Document.ToText()`,
`Document.ToHTML()`, `Sections()`, `Chunks()` and `Tables()` return a result with enough fuel,
and then always; and on every node reachable from the root `ToText(true, true)` and
`ToHTML(true, true)` return a result as soon as the fuel exceeds the size of the heap. -/
theorem Read_rendering_terminates (rs : List JSON) (h : Heap) (hread : Read rs = some h) :
    (∀ n anc, PathTo h 0 n anc → n < h.length ∧ ∀ c ∈ Heap.children h n, n < c) ∧
    (∃ fuel, ∀ fuel', fuel ≤ fuel' →
      (DocumentToText h fuel').isSome = true ∧ (DocumentToHTML h fuel').isSome = true ∧
      (Sections h fuel' 0).isSome = true ∧ (Chunks h fuel' 0).isSome = true ∧
      (Tables h fuel' 0).isSome = true) ∧
    (∀ n anc, PathTo h 0 n anc → ∀ fuel', h.length < fuel' →
      (ToText h fuel' n true true).isSome = true ∧
      (ToHTML h fuel' n true true).isSome = true) := by
  obtain ⟨s, -, rfl, inv⟩ := Inv_of_Read rs h hread
  refine ⟨?_, ?_, ?_⟩
  · intro n anc hpath
    exact ⟨(PathTo_good s.heap inv.heapInv n anc hpath).1,
      PathTo_child_lt s.heap inv.heapInv n anc hpath⟩
  · obtain ⟨f1, hf1⟩ := queries_total_of_Inv rs s inv
    obtain ⟨f2, hf2⟩ := DocumentToText_of_Inv rs s inv
    obtain ⟨f3, hf3⟩ := DocumentToHTML_of_Inv rs s inv
    refine ⟨max f1 (max f2 f3), ?_⟩
    intro fuel' hle
    have h1 := hf1 fuel' (le_trans (le_max_left _ _) hle)
    obtain ⟨t2, -, h2⟩ :=
      hf2 fuel' (le_trans (le_trans (le_max_left _ _) (le_max_right _ _)) hle)
    obtain ⟨t3, -, h3⟩ :=
      hf3 fuel' (le_trans (le_trans (le_max_right _ _) (le_max_right _ _)) hle)
    rw [h2, h3]
    exact ⟨rfl, rfl, h1.1, h1.2.1, h1.2.2.1⟩
  · intro n anc hpath fuel' hfuel
    obtain ⟨hlt, hown⟩ := PathTo_good s.heap inv.heapInv n anc hpath
    obtain ⟨t1, ht1⟩ := ToText_total s.heap inv.heapInv true true s.heap.length n
      (by omega) hlt hown
    obtain ⟨t2, ht2⟩ := ToHTML_total s.heap inv.heapInv true true s.heap.length n
      (by omega) hlt hown
    rw [ToText_mono s.heap _ fuel' hfuel _ _ _ t1 ht1,
      ToHTML_mono s.heap _ fuel' hfuel _ _ _ t2 ht2]
    exact ⟨rfl, rfl⟩

/-- C28, instantiated on header "A", header "B", para "x". -/
theorem Read_rendering_terminates_witness :
    Read nestedDoc = some nestedDocHeap ∧
    ((∀ n anc, PathTo nestedDocHeap 0 n anc →
      n < nestedDocHeap.length ∧ ∀ c ∈ Heap.children nestedDocHeap n, n < c) ∧
    (∃ fuel, ∀ fuel', fuel ≤ fuel' →
      (DocumentToText nestedDocHeap fuel').isSome = true ∧
      (DocumentToHTML nestedDocHeap fuel').isSome = true ∧
      (Sections nestedDocHeap fuel' 0).isSome = true ∧
      (Chunks nestedDocHeap fuel' 0).isSome = true ∧
      (Tables nestedDocHeap fuel' 0).isSome = true) ∧
    (∀ n anc, PathTo nestedDocHeap 0 n anc → ∀ fuel', nestedDocHeap.length < fuel' →
      (ToText nestedDocHeap fuel' n true true).isSome = true ∧
      (ToHTML nestedDocHeap fuel' n true true).isSome = true)) :=
  ⟨rfl, Read_rendering_terminates nestedDoc nestedDocHeap rfl⟩

/-- C29: in a heap whose `Parent` links are those set by `AddChild` and whose root has no
parent, for every node `n` of the tree under the root, `n.ToContextText(true)` is
`n.ParentText()` followed by a newline followed by `n.ToContextText(false)`, the three calls
returning as soon as the fuel is at least the depth of `n`. -/
theorem ToContextText_prefixes_ParentText (h : Heap)
    (hp : ∀ a c, c ∈ Heap.children h a → Heap.parent h c = some a) (root : Nat)
    (hroot : Heap.parent h root = none) (n : Nat) (ancestors : List Nat)
    (hpath : PathTo h root n ancestors) (node : Node) (hn : h.get? n = some node)
    (fuel : Nat) (hfuel : ancestors.length ≤ fuel) :
    ∃ parentText text, ParentText h fuel n = some parentText ∧
      ToContextText h fuel n false = some text ∧
      ToContextText h fuel n true = some (parentText ++ "\n" ++ text) := by
  obtain ⟨parentText, hpt⟩ :=
    ParentText_isSome_of_path h hp root hroot n ancestors hpath fuel hfuel
  exact ⟨parentText, _, hpt, ToContextText_false h fuel n node hn,
    ToContextText_true h fuel n node hn parentText hpt⟩

/-- C29, instantiated on the paragraph of header "A", header "B", para "x". -/
theorem ToContextText_prefixes_ParentText_witness :
    ((∀ a c, c ∈ Heap.children nestedDocHeap a → Heap.parent nestedDocHeap c = some a) ∧
      Heap.parent nestedDocHeap 0 = none ∧ PathTo nestedDocHeap 0 3 [0, 1, 2] ∧
      nestedDocHeap.get? 3 = some ((nestedDocHeap.get? 3).getD (Node.block {})) ∧
      [0, 1, 2].length ≤ 3) ∧
    ∃ parentText text, ParentText nestedDocHeap 3 3 = some parentText ∧
      ToContextText nestedDocHeap 3 3 false = some text ∧
      ToContextText nestedDocHeap 3 3 true = some (parentText ++ "\n" ++ text) :=
  ⟨⟨nestedDocHeap_parentOfChild, by decide, nestedDocHeap_path, rfl, by decide⟩,
   ToContextText_prefixes_ParentText nestedDocHeap nestedDocHeap_parentOfChild 0 (by decide)
     3 [0, 1, 2] nestedDocHeap_path _ rfl 3 (by decide)⟩

/-- C30 (the code at the failing input): on header "A" (level 1), header "B" (level 2),
para "x", whatever the fuel, `Read` of `src/layout.go` returns a tree in which the Section
built from "B" (address 2) has no parent and is a child of no node: the root holds "A" alone,
"A" holds the paragraph alone, and `Sections()` of the root is the Section "A" alone, one
Section for two `header` records. -/
theorem Layout_Read_drops_second_header (fuel : Nat) :
    (Layout.Read fuel twoHeaders).toOption.map
        (fun h => (Heap.children h 0, Heap.children h 1, Heap.children h 2))
      = some ([1], [3], []) ∧
    (Layout.Read fuel twoHeaders).toOption.map
        (fun h => (Heap.kind h 2, Heap.parent h 2, Heap.parent h 3))
      = some (some Kind.section, none, some 1) ∧
    (Layout.Read fuel twoHeaders).toOption.map (fun h => Sections h 4 0) = some (some [1]) ∧
    (twoHeaders.filter isHeaderRecord).length = 2 := by
  refine ⟨rfl, rfl, rfl, by decide⟩


/-- C31: for every record sequence on which `Read` succeeds, the node of every `header` record
has as `Parent` the Section built from the immediately preceding `header` record, or the root
when it is the first `header` record, and it is the last element of the `Children` of that
node, whatever the levels of the headers are; so the root followed by the Sections, in input
order (the list `Sections()` returns), is a chain in which each node is the last child of the
one before it.  In particular four headers of levels 0, 0, 5 and -1 are nested one inside the
other. -/
theorem Read_sections_form_a_chain (rs : List JSON) (h : Heap) (hread : Read rs = some h) :
    (∀ pre r rest, rs = pre ++ r :: rest → isHeaderRecord r = true →
      Heap.kind h (pre.length + 1) = some Kind.section ∧
      (0 :: recordAddrs isHeaderRecord 1 pre).getLast? = some (lastHeaderAddr pre) ∧
      Heap.parent h (pre.length + 1) = some (lastHeaderAddr pre) ∧
      (Heap.children h (lastHeaderAddr pre)).getLast? = some (pre.length + 1)) ∧
    List.Chain'
      (fun a b => Heap.parent h b = some a ∧ (Heap.children h a).getLast? = some b)
      (0 :: recordAddrs isHeaderRecord 1 rs) ∧
    (∃ fuel, ∀ fuel', fuel ≤ fuel' →
      Sections h fuel' 0 = some (recordAddrs isHeaderRecord 1 rs)) ∧
    (Read fourHeaders).map
        (fun h => (Heap.children h 0, Heap.children h 1, Heap.children h 2,
          Heap.children h 3))
      = some ([1], [2], [3], [4]) := by
  obtain ⟨s, -, rfl, inv⟩ := Inv_of_Read rs h hread
  refine ⟨?_, ?_, Sections_of_Inv rs s inv, by decide⟩
  · intro pre r rest hrs hr
    obtain ⟨h1, h2, h3⟩ := header_link_of_Inv rs s inv pre r rest hrs hr
    exact ⟨h1, getLast?_recordAddrs pre, h2, h3⟩
  · have := section_chain_of_Inv rs s inv rs [] (by simp)
    exact this

/-- C31, instantiated on four headers of levels 0, 0, 5 and -1. -/
theorem Read_sections_form_a_chain_witness :
    Read fourHeaders = some fourHeadersHeap ∧
    ((∀ pre r rest, fourHeaders = pre ++ r :: rest → isHeaderRecord r = true →
      Heap.kind fourHeadersHeap (pre.length + 1) = some Kind.section ∧
      (0 :: recordAddrs isHeaderRecord 1 pre).getLast? = some (lastHeaderAddr pre) ∧
      Heap.parent fourHeadersHeap (pre.length + 1) = some (lastHeaderAddr pre) ∧
      (Heap.children fourHeadersHeap (lastHeaderAddr pre)).getLast?
        = some (pre.length + 1)) ∧
    List.Chain'
      (fun a b => Heap.parent fourHeadersHeap b = some a ∧
        (Heap.children fourHeadersHeap a).getLast? = some b)
      (0 :: recordAddrs isHeaderRecord 1 fourHeaders) ∧
    (∃ fuel, ∀ fuel', fuel ≤ fuel' →
      Sections fourHeadersHeap fuel' 0 = some (recordAddrs isHeaderRecord 1 fourHeaders)) ∧
    (Read fourHeaders).map
        (fun h => (Heap.children h 0, Heap.children h 1, Heap.children h 2,
          Heap.children h 3))
      = some ([1], [2], [3], [4])) :=
  ⟨rfl, Read_sections_form_a_chain fourHeaders fourHeadersHeap rfl⟩

/-- C33: `Read` of `src/layout.go` never keeps running: for every fuel, even none, and every
record sequence, the loop of the header case does not run out of fuel and the result does not
depend on the fuel; `Read` returns a tree exactly when every record is an object whose table,
if it is one, is well formed (otherwise it panics).  After the whole input, and so after every
prefix of an input, the list stack is empty and, whenever `parent` is a `*Block`, the only
case in which the header case reaches its loop, `parentStack` holds the root alone: the loop
is never entered with more than one element on `parentStack`. -/
theorem Layout_Read_terminates (fuel : Nat) (rs : List JSON) :
    Layout.Read fuel rs ≠ Except.error Fault.outOfFuel ∧
    Layout.Read fuel rs = Layout.Read 0 rs ∧
    ((∃ h, Layout.Read fuel rs = Except.ok h) ↔ rs.all Layout.recordOk = true) ∧
    (rs.all Layout.recordOk = false → Layout.Read fuel rs = Except.error Fault.panic) ∧
    (∀ s, Layout.readLoop fuel readInit rs = Except.ok s →
      s.listStack = [] ∧ s.parent < s.heap.length ∧
      ∀ b, s.heap.get? s.parent = some (Node.block b) → s.parentStack = [0]) := by
  rcases Layout.readLoop_spec rs readInit Layout.LoopInv_readInit with
    ⟨s', inv', hok, hs'⟩ | ⟨hbad, hp⟩
  · refine ⟨?_, ?_, ?_, ?_, ?_⟩
    · simp [Layout.Read, hs' fuel]
    · simp [Layout.Read, hs' fuel, hs' 0]
    · exact ⟨fun _ => hok, fun _ => ⟨s'.heap, by simp [Layout.Read, hs' fuel]⟩⟩
    · intro hbad
      rw [hok] at hbad
      cases hbad
    · intro s hs
      rw [hs' fuel] at hs
      cases hs
      exact ⟨inv'.listEmpty, Layout.parent_lt _ inv', Layout.parent_block _ inv'⟩
  · refine ⟨?_, ?_, ?_, ?_, ?_⟩
    · simp [Layout.Read, hp fuel]
    · simp [Layout.Read, hp fuel, hp 0]
    · constructor
      · rintro ⟨h, hh⟩
        simp [Layout.Read, hp fuel] at hh
      · intro hall
        rw [hall] at hbad
        cases hbad
    · intro _
      simp [Layout.Read, hp fuel]
    · intro s hs
      rw [hp fuel] at hs
      cases hs

/-- C33, instantiated on two headers of level 0 with a paragraph and a list item between
them. -/
theorem Layout_Read_terminates_witness :
    Layout.flatHeaders.all Layout.recordOk = true ∧
    ∃ h, Layout.Read 0 Layout.flatHeaders = Except.ok h :=
  ⟨by decide, (Layout_Read_terminates 0 Layout.flatHeaders).2.2.1.mpr (by decide)⟩

/-- C34: for every record sequence on which `Read` succeeds, `Document.ToHTML()` returns (with
enough fuel, and then always) a string that starts with "<html>" and ends with "</html>", the
two not overlapping; and when the sequence has no `header` record, whatever paragraphs, list
items and tables it holds, `Document.ToText()` is the empty string and `Document.ToHTML()` is
exactly "<html></html>".  In particular this is so on a paragraph, a table and two list
items. -/
theorem Document_without_header_is_empty (rs : List JSON) (h : Heap)
    (hread : Read rs = some h) :
    (∃ fuel, ∀ fuel', fuel ≤ fuel' →
      ∃ body, DocumentToHTML h fuel' = some ("<html>" ++ body ++ "</html>")) ∧
    ((∀ r ∈ rs, isHeaderRecord r = false) →
      ∃ fuel, ∀ fuel', fuel ≤ fuel' →
        DocumentToText h fuel' = some "" ∧ DocumentToHTML h fuel' = some "<html></html>") ∧
    (Read noHeaderDoc).map (fun h => (DocumentToText h 3, DocumentToHTML h 3, Chunks h 3 0))
      = some (some "", some "<html></html>", some [1, 2, 3]) := by
  obtain ⟨s, -, rfl, inv⟩ := Inv_of_Read rs h hread
  refine ⟨?_, ?_, by decide⟩
  · obtain ⟨fuel, hfuel⟩ := DocumentToHTML_of_Inv rs s inv
    refine ⟨fuel, fun fuel' hle => ?_⟩
    obtain ⟨texts, -, ht⟩ := hfuel fuel' hle
    exact ⟨_, ht⟩
  · intro hno
    obtain ⟨fuel, hfuel⟩ := Sections_of_Inv rs s inv
    refine ⟨fuel, fun fuel' hle => ?_⟩
    have hsec := hfuel fuel' hle
    rw [recordAddrs_eq_nil isHeaderRecord rs 1 hno] at hsec
    unfold DocumentToText DocumentToHTML
    rw [hsec]
    refine ⟨?_, rfl⟩
    simp only [sectionsText, TrimSpace_empty]

/-- C34, instantiated on a paragraph, a table and two list items. -/
theorem Document_without_header_is_empty_witness :
    (Read noHeaderDoc = some noHeaderDocHeap ∧
      ∀ r ∈ noHeaderDoc, isHeaderRecord r = false) ∧
    ∃ fuel, ∀ fuel', fuel ≤ fuel' →
      DocumentToText noHeaderDocHeap fuel' = some "" ∧
      DocumentToHTML noHeaderDocHeap fuel' = some "<html></html>" :=
  ⟨⟨rfl, by decide⟩,
   (Document_without_header_is_empty noHeaderDoc noHeaderDocHeap rfl).2.1 (by decide)⟩

end Chipper
